import Mathlib

/-!
# Scanline polygon fill (`src/slpfa.cpp`) and Hershey glyph header decoding
(`src/priv/hershey/hershey.cpp`)

A shallow embedding of the two programs and theorems about them.

Conventions of the embedding.
* C++ `int` values are integers (`Int`). The rasterizer is given twice: the
  definitions of `Slpfa` compute on unbounded integers, which is what the
  program does in every run without signed overflow; the definitions of
  `Slpfa.Machine` are the same statements on 32-bit `int`, every operation
  that can leave the range of `int` being followed by `wrap`. `fits` says
  that no `int` operation of a run overflows; under `fits` the two agree
  (`machine_drawPolygon_eq`).
* In the Hershey decoder `unsigned int` arithmetic is modulo `2^32`
  (`windowIndex`), and a read outside the file buffer is an outcome of its
  own (`windowOutOfBounds`).
* `Bucket*` is a natural number (an address) and the heap is a function from
  addresses to buckets; `new Bucket` hands out the next unused address.
* `std::list<Bucket*>` is a `List Ptr`; `std::list::sort(cmp)` is the stable
  sort by `cmp`, modelled by insertion sort with the relation `¬ cmp b a`.
* Loops whose termination depends on the data take a `fuel` argument; running
  out of fuel is reported as `Result.outOfFuel`, and reading through an
  iterator that is at `end()` (or `front()` of an empty list) is reported as
  `Result.undefined`.
* The calls `C.setPixel(x, scanLine)` are recorded, in call order, in the
  `pixels` component of the state.
-/

namespace Slpfa

/-! ## Data model -/

/-- Modelled from the spec: the `Vertex` record of `Rasterizer.h` (not in the
sources), "an integer 2D point `(x, y)`". -/
structure Vertex where
  x : Int
  y : Int
deriving DecidableEq, Repr

/-- Modelled from the spec: the `Bucket` record of `Rasterizer.h` (not in the
sources). The field order is the one of the aggregate initialisation in
`createEdges`; all fields are integers. -/
structure Bucket where
  yMax : Int
  yMin : Int
  x : Int
  sign : Int
  dX : Int
  dY : Int
  sum : Int
deriving DecidableEq, Repr, Inhabited

/-- An address of a heap-allocated bucket. -/
abbrev Ptr := Nat

/-- The heap: the bucket stored at every address. -/
abbrev Mem := Ptr → Bucket

/-- Outcome of running a piece of the program. -/
inductive Result (α : Type) where
  | ok (a : α)
  | undefined
  | outOfFuel
deriving DecidableEq, Repr

/-- A recorded call `C.setPixel(x, y)`. -/
abbrev Pixel := Int × Int

/-! ## Comparators -/

/-- The function `minYCompare`. -/
def minYCompare (mem : Mem) (edge1 edge2 : Ptr) : Bool :=
  decide ((mem edge1).yMin < (mem edge2).yMin)

/-- The function `xCompare`; `/` on C++ `int` truncates toward zero. -/
def xCompare (mem : Mem) (edge1 edge2 : Ptr) : Bool :=
  if (mem edge1).x < (mem edge2).x then true
  else if (mem edge1).x > (mem edge2).x then false
  else decide (Int.tdiv (mem edge1).dX (mem edge1).dY < Int.tdiv (mem edge2).dX (mem edge2).dY)

/-- The relation `std::list::sort(cmp)` sorts by: `a` may stand before `b`. -/
def notAfter (cmp : Ptr → Ptr → Bool) (a b : Ptr) : Prop := cmp b a = false

instance (cmp : Ptr → Ptr → Bool) : DecidableRel (notAfter cmp) :=
  fun a b => inferInstanceAs (Decidable (cmp b a = false))

/-- The library call `std::list::sort(cmp)`: a stable sort. -/
def listSort (cmp : Ptr → Ptr → Bool) (l : List Ptr) : List Ptr :=
  List.insertionSort (notAfter cmp) l

/-! ## `createEdges` -/

/-- The body of the `for` loop of `createEdges` up to the test `dY != 0`:
the bucket built from `v1 = (x[startIndex], y[startIndex])` and
`v2 = (x[i], y[i])`, or `none` when `dY == 0`. The differences and `abs` are
taken on unbounded integers; `Machine.makeBucket` takes them on `int`. -/
def makeBucket (a b : Vertex) : Option Bucket :=
  let v1 := if b.x < a.x then b else a
  let v2 := if b.x < a.x then a else b
  let yMax := if v1.y > v2.y then v1.y else v2.y
  let yMin := if v1.y < v2.y then v1.y else v2.y
  let initialX := if v1.y < v2.y then v1.x else v2.x
  let sign : Int := if v2.y - v1.y < 0 then -1 else 1
  let dX : Int := (v2.x - v1.x).natAbs
  let dY : Int := (v2.y - v1.y).natAbs
  if dY ≠ 0 then
    some { yMax := yMax, yMin := yMin, x := initialX, sign := sign, dX := dX, dY := dY, sum := 0 }
  else none

/-- The heap together with the allocator position and the edge table under
construction. -/
structure Edges where
  mem : Mem
  next : Ptr
  edgeTable : List Ptr

/-- The `for (int i = 0; i < n; i++)` loop of `createEdges`: `k` iterations
remain, `i` is the loop index, `startIndex` the index of the previous vertex. -/
def createEdgesLoop (x y : Nat → Int) : Nat → Nat → Nat → Edges → Edges
  | 0, _, _, e => e
  | k + 1, i, startIndex, e =>
    match makeBucket ⟨x startIndex, y startIndex⟩ ⟨x i, y i⟩ with
    | some b =>
      createEdgesLoop x y k (i + 1) i
        { mem := Function.update e.mem e.next b, next := e.next + 1,
          edgeTable := e.edgeTable ++ [e.next] }
    | none => createEdgesLoop x y k (i + 1) i e

/-- The function `createEdges`. The arrays are functions from indices to
`int`s; a negative `n` behaves like `0` and is not modelled separately. -/
def createEdges (n : Nat) (x y : Nat → Int) : Edges :=
  createEdgesLoop x y n 0 (n - 1) { mem := fun _ => default, next := 0, edgeTable := [] }

/-! ## `processEdgeTable` -/

/-- State of the scan loop. -/
structure Scan where
  mem : Mem
  edgeTable : List Ptr
  activeList : List Ptr
  scanLine : Int
  pixels : List Pixel

/-- The loop "remove edges from active list if y == ymax": walks the active
list; a bucket with `yMax == scanLine` is erased from the active list and
removed from the edge table (`std::list::remove` drops every equal element);
`delete (curr)` frees the bucket, whose address is then in neither list.
Returns the new active list and the new edge table. -/
def retire (mem : Mem) (scanLine : Int) : List Ptr → List Ptr → List Ptr × List Ptr
  | [], edgeTable => ([], edgeTable)
  | curr :: rest, edgeTable =>
    if (mem curr).yMax = scanLine then
      retire mem scanLine rest (edgeTable.filter (fun p => p ≠ curr))
    else
      let r := retire mem scanLine rest edgeTable
      (curr :: r.1, r.2)

/-- The loop "add edges from ET to AL if y == ymin". -/
def admitEdges (mem : Mem) (scanLine : Int) (edgeTable activeList : List Ptr) : List Ptr :=
  activeList ++ edgeTable.filter (fun p => (mem p).yMin = scanLine)

/-- The loop `for (int x = b1.x; x < b2.x; x++) C.setPixel(x, scanLine)`. -/
def span (x1 x2 scanLine : Int) : List Pixel :=
  (List.range (x2 - x1).toNat).map (fun (k : Nat) => (x1 + (k : Int), scanLine))

/-- The loop "fill polygon pixels": reads `b1`, advances the iterator, reads
`b2`. With one element left the second read is through `end()`. -/
def fill (mem : Mem) (scanLine : Int) : List Ptr → Result (List Pixel)
  | [] => Result.ok []
  | [_] => Result.undefined
  | p1 :: p2 :: rest =>
    match fill mem scanLine rest with
    | Result.ok px => Result.ok (span (mem p1).x (mem p2).x scanLine ++ px)
    | r => r

/-- The loop `while (edge->sum >= edge->dY) { x += sign; sum -= dY; }`, on
unbounded integers (`Machine.advanceWhile` is the loop on `int`). -/
def advanceWhile : Nat → Bucket → Result Bucket
  | 0, b => if b.sum ≥ b.dY then Result.outOfFuel else Result.ok b
  | fuel + 1, b =>
    if b.sum ≥ b.dY then
      advanceWhile fuel { b with x := b.x + b.sign, sum := b.sum - b.dY }
    else Result.ok b

/-- The body of the loop "increment the X variables based on the slope" for
one edge, on unbounded integers (`Machine.advanceEdge` is the body on
`int`). -/
def advanceEdge (fuel : Nat) (b : Bucket) : Result Bucket :=
  if b.dX ≠ 0 then advanceWhile fuel { b with sum := b.sum + b.dX } else Result.ok b

/-- The loop "increment the X variables based on the slope". -/
def advanceAll (fuel : Nat) : Mem → List Ptr → Result Mem
  | mem, [] => Result.ok mem
  | mem, edge :: rest =>
    match advanceEdge fuel (mem edge) with
    | Result.ok b => advanceAll fuel (Function.update mem edge b) rest
    | Result.undefined => Result.undefined
    | Result.outOfFuel => Result.outOfFuel

/-- The active list at span emission: after retiring, admitting and sorting. -/
def emissionList (s : Scan) : List Ptr :=
  let r := retire s.mem s.scanLine s.activeList s.edgeTable
  listSort (xCompare s.mem) (admitEdges s.mem s.scanLine r.2 r.1)

/-- One execution of the body of `while (!edgeTable.empty())`, on unbounded
integers (`Machine.scanBody` is the body on `int`). `scanLine++` stands
before the advance loop in the source; the advance loop does not read
`scanLine`. -/
def scanBody (fuel : Nat) (s : Scan) : Result Scan :=
  let r := retire s.mem s.scanLine s.activeList s.edgeTable
  let activeList := listSort (xCompare s.mem) (admitEdges s.mem s.scanLine r.2 r.1)
  match fill s.mem s.scanLine activeList with
  | Result.ok px =>
    match advanceAll fuel s.mem activeList with
    | Result.ok mem =>
      Result.ok { mem := mem, edgeTable := r.2, activeList := activeList,
                  scanLine := s.scanLine + 1, pixels := s.pixels ++ px }
    | Result.undefined => Result.undefined
    | Result.outOfFuel => Result.outOfFuel
  | Result.undefined => Result.undefined
  | Result.outOfFuel => Result.outOfFuel

/-- The loop `while (!edgeTable.empty())`: `inner` bounds the iterations of
each inner `while`, the second argument those of this loop. -/
def scanLoop (inner : Nat) : Nat → Scan → Result Scan
  | 0, s => if s.edgeTable.isEmpty then Result.ok s else Result.outOfFuel
  | fuel + 1, s =>
    if s.edgeTable.isEmpty then Result.ok s
    else
      match scanBody inner s with
      | Result.ok s1 => scanLoop inner fuel s1
      | r => r

/-- The state in which `processEdgeTable` enters its loop: `scanLine` is the
`yMin` of the front of the edge table, the active list is empty. -/
def scanStart (mem : Mem) (edgeTable : List Ptr) (front : Ptr) : Scan :=
  { mem := mem, edgeTable := edgeTable, activeList := [],
    scanLine := (mem front).yMin, pixels := [] }

/-- The state after at most `k` executions of the body of
`while (!edgeTable.empty())` (fewer when the loop has stopped before). -/
def scanIterate (inner : Nat) : Nat → Scan → Result Scan
  | 0, s => Result.ok s
  | k + 1, s =>
    if s.edgeTable.isEmpty then Result.ok s
    else
      match scanBody inner s with
      | Result.ok s1 => scanIterate inner k s1
      | r => r

/-- The function `processEdgeTable`: `edgeTable.front()` is read before the
loop, whatever the list holds. -/
def processEdgeTable (fuel : Nat) (mem : Mem) (edgeTable : List Ptr) : Result Scan :=
  match edgeTable with
  | [] => Result.undefined
  | front :: _ => scanLoop fuel fuel (scanStart mem edgeTable front)

/-- The function `drawPolygon`; the result is the sequence of `setPixel`
calls. -/
def drawPolygon (fuel : Nat) (n : Nat) (x y : Nat → Int) : Result (List Pixel) :=
  let e := createEdges n x y
  let finalEdgeTable := listSort (minYCompare e.mem) e.edgeTable
  match processEdgeTable fuel e.mem finalEdgeTable with
  | Result.ok s => Result.ok s.pixels
  | Result.undefined => Result.undefined
  | Result.outOfFuel => Result.outOfFuel

/-- The state of the scan loop of `drawPolygon` after at most `k` executions
of its body. -/
def drawPolygonAfter (fuel k : Nat) (n : Nat) (x y : Nat → Int) : Result Scan :=
  let e := createEdges n x y
  match listSort (minYCompare e.mem) e.edgeTable with
  | [] => Result.undefined
  | front :: rest => scanIterate fuel k (scanStart e.mem (front :: rest) front)

/-- An array given by its initial elements. -/
def arr (l : List Int) : Nat → Int := fun i => l.getD i 0

/-! ## Vocabulary of the statements -/

/-- The edge records `createEdges` builds, in edge-table order. -/
def edgeRecords (n : Nat) (x y : Nat → Int) : List Bucket :=
  (createEdges n x y).edgeTable.map (createEdges n x y).mem

/-- Edge `i` of the input joins vertex `i - 1` (cyclically) to vertex `i`;
the input has a non-horizontal edge. -/
def hasSlantedEdge (n : Nat) (y : Nat → Int) : Prop :=
  ∃ i, i < n ∧ y (if i = 0 then n - 1 else i - 1) ≠ y i

/-- The record is on row `s`: `yMin ≤ s < yMax`. -/
def activeAt (s : Int) (b : Bucket) : Bool := decide (b.yMin ≤ s ∧ s < b.yMax)

/-- The x-intersection tracked for a record on row `s`:
`initial_x + sign * floor((s - yMin) * dX / dY)`. -/
def trackedX (s : Int) (b : Bucket) : Int := b.x + b.sign * ((s - b.yMin) * b.dX / b.dY)

/-- The tracked x of the records on row `s`, in ascending order. -/
def crossings (L : List Bucket) (s : Int) : List Int :=
  List.insertionSort (fun a b => a ≤ b) ((L.filter (activeAt s)).map (trackedX s))

/-- The pixels of the half-open ranges `[b1, b2)` over the consecutive pairs
(1st, 2nd), (3rd, 4th), ... of a list of x values, on row `s`. -/
def pairSpans : List Int → Int → List Pixel
  | a :: b :: rest, s => span a b s ++ pairSpans rest s
  | _, _ => []

/-- The pixels of `d` consecutive rows starting at row `y0`, row by row. -/
def rows (L : List Bucket) : Int → Nat → List Pixel
  | _, 0 => []
  | y0, d + 1 => pairSpans (crossings L y0) y0 ++ rows L (y0 + 1) d

/-- The smallest `yMin` of the records (`0` when there is none). -/
def yLow : List Bucket → Int
  | [] => 0
  | [b] => b.yMin
  | b :: rest => min b.yMin (yLow rest)

/-- The largest `yMax` of the records (`0` when there is none). -/
def yHigh : List Bucket → Int
  | [] => 0
  | [b] => b.yMax
  | b :: rest => max b.yMax (yHigh rest)

/-- The `setPixel` calls the scan conversion of the records makes: the rows
from `yLow` up to `yHigh`, each row being the pair spans of its crossings. -/
def painting (L : List Bucket) : List Pixel :=
  rows L (yLow L) (yHigh L - yLow L).toNat

/-- How many records on row `b` have their tracked x at or left of `a`. -/
def countAtOrLeft (L : List Bucket) (a b : Int) : Nat :=
  L.countP (fun e => activeAt b e && decide (trackedX b e ≤ a))

/-- How many records on row `b` have their tracked x strictly left of `a`. -/
def countStrictlyLeft (L : List Bucket) (a b : Int) : Nat :=
  L.countP (fun e => activeAt b e && decide (trackedX b e < a))

/-- Lexicographic order on pixels by row, then by column. -/
def rowMajorLt (p q : Pixel) : Prop := p.2 < q.2 ∨ (p.2 = q.2 ∧ p.1 < q.1)

/-- The bucket after `k` executions of the advance step, in closed form. -/
def stateAt (b : Bucket) (k : Nat) : Bucket :=
  { b with x := b.x + b.sign * ((k : Int) * b.dX / b.dY), sum := ((k : Int) * b.dX) % b.dY }

/-- One execution of the advance step, in closed form. -/
def stepBucket (b : Bucket) : Bucket :=
  if b.dX ≠ 0 then
    { b with x := b.x + b.sign * ((b.sum + b.dX) / b.dY), sum := (b.sum + b.dX) % b.dY }
  else b

/-- What `createEdges` guarantees of a record. -/
def Bucket.Good (b : Bucket) : Prop :=
  1 ≤ b.dY ∧ 0 ≤ b.dX ∧ b.yMax = b.yMin + b.dY ∧ b.sum = 0

/-- Vertex `i` of the input arrays. -/
def vertexAt (x y : Nat → Int) (i : Nat) : Vertex := ⟨x i, y i⟩

/-- The records of the edges of a path: from `prev` to the first vertex of
the list, then between consecutive vertices of the list. -/
def edgesFrom : Vertex → List Vertex → List Bucket
  | _, [] => []
  | prev, v :: rest => (makeBucket prev v).toList ++ edgesFrom v rest

/-- A fuel that is enough to scan-convert the records: the number of rows
plus one, plus room for the inner `while` of every record. -/
def fuelFor (L : List Bucket) : Nat :=
  (L.map (fun b => b.dX.toNat)).sum + (yHigh L - yLow L).toNat + 1

/-- The smallest y coordinate of the `n` vertices (`y[0]` when `n = 0`). -/
def polyYMin (n : Nat) (y : Nat → Int) : Int :=
  ((List.range n).map y).foldr min (y 0)

/-- The largest y coordinate of the `n` vertices (`y[0]` when `n = 0`). -/
def polyYMax (n : Nat) (y : Nat → Int) : Int :=
  ((List.range n).map y).foldr max (y 0)

/-- The record of an edge of the polygon moved by `(dx, dy)`. -/
def shiftBucket (dx dy : Int) (b : Bucket) : Bucket :=
  { b with yMax := b.yMax + dy, yMin := b.yMin + dy, x := b.x + dx }

/-- The pixel moved by `(dx, dy)`. -/
def shiftPixel (dx dy : Int) (p : Pixel) : Pixel := (p.1 + dx, p.2 + dy)

/-- What the scan loop needs of the edge table it is given: no address
twice, every record as `createEdges` builds it, and an even number of records
on every row. -/
structure WellFormed (mem0 : Mem) (table : List Ptr) : Prop where
  nodup : table.Nodup
  good : ∀ p ∈ table, (mem0 p).Good
  even : ∀ s : Int, Even (table.filter (fun p => activeAt s (mem0 p))).length

/-- The loop invariant of `while (!edgeTable.empty())`, in terms of the heap
`mem0` and the edge table `table` the loop started from. -/
structure Inv (mem0 : Mem) (table : List Ptr) (s : Scan) : Prop where
  et : s.edgeTable = table.filter (fun p => decide (s.scanLine ≤ (mem0 p).yMax))
  al : s.activeList.Perm
    (table.filter (fun p => decide ((mem0 p).yMin < s.scanLine ∧ s.scanLine ≤ (mem0 p).yMax)))
  mem : ∀ p ∈ table, s.scanLine ≤ (mem0 p).yMax →
    s.mem p = stateAt (mem0 p) (s.scanLine - (mem0 p).yMin).toNat

/-- The bucket after `k` executions of the advance step of the scan loop
(the body of "increment the X variables based on the slope" for one edge). -/
def advanceTimes (fuel : Nat) : Nat → Bucket → Result Bucket
  | 0, b => Result.ok b
  | k + 1, b =>
    match advanceEdge fuel b with
    | Result.ok b1 => advanceTimes fuel k b1
    | r => r

/-- The state in which the scan loop of `drawPolygon` stops. -/
def drawPolygonScan (fuel : Nat) (n : Nat) (x y : Nat → Int) : Result Scan :=
  processEdgeTable fuel (createEdges n x y).mem
    (listSort (minYCompare (createEdges n x y).mem) (createEdges n x y).edgeTable)

/-- The value a 32-bit two's complement machine stores for an `int`
expression whose value over the integers is `v`: `v` itself when it is an
`int`, else the `int` congruent to `v` modulo `2^32`. (Signed overflow has no
defined result in C++; the model takes the wrapped value.) -/
def wrap (v : Int) : Int :=
  if -2147483648 ≤ v ∧ v ≤ 2147483647 then v else (v + 2147483648) % 4294967296 - 2147483648

/-- The value is a C++ `int`. -/
def isInt (v : Int) : Bool := decide (-2147483648 ≤ v ∧ v ≤ 2147483647)

/-- The differences `b.x - a.x`, `b.y - a.y` and their absolute values are
`int`s: `createEdges` builds the record of the edge without overflow. -/
def fitsDelta (a b : Vertex) : Bool :=
  decide ((b.x - a.x).natAbs ≤ 2147483647 ∧ (b.y - a.y).natAbs ≤ 2147483647)

/-- The edge from `a` to `b` is built and scan-converted without overflow:
the coordinates are `int`s, the differences and their absolute values are
`int`s, `|dx| + |dy| ≤ 2^31` (so that `sum + dX`, with `sum < dY`, is an
`int`), and both `y` are below the largest `int` (so that `scanLine++` stays
an `int`). -/
def fitsEdge (a b : Vertex) : Bool :=
  fitsDelta a b && decide ((b.x - a.x).natAbs + (b.y - a.y).natAbs ≤ 2147483648) &&
    isInt a.x && isInt b.x && isInt a.y && isInt b.y &&
    decide (a.y ≤ 2147483646 ∧ b.y ≤ 2147483646)

/-- Every edge `(v[i-1], v[i])` of the input (cyclically) satisfies
`fitsDelta`. -/
def deltaFits (n : Nat) (x y : Nat → Int) : Bool :=
  (List.range n).all (fun i =>
    fitsDelta (vertexAt x y (if i = 0 then n - 1 else i - 1)) (vertexAt x y i))

/-- Every edge `(v[i-1], v[i])` of the input (cyclically) satisfies
`fitsEdge`: no `int` operation of `drawPolygon` on the input overflows. -/
def fits (n : Nat) (x y : Nat → Int) : Bool :=
  (List.range n).all (fun i =>
    fitsEdge (vertexAt x y (if i = 0 then n - 1 else i - 1)) (vertexAt x y i))

/-- What `fitsEdge` gives of the record of an edge: `dX + dY ≤ 2^31`, the x of
both endpoints are `int`s, and the rows of the edge are rows on which
`scanLine++` stays an `int`. -/
def Bucket.Safe (b : Bucket) : Prop :=
  b.dX + b.dY ≤ 2147483648 ∧ (-2147483648 ≤ b.x ∧ b.x ≤ 2147483647) ∧
    (-2147483648 ≤ b.x + b.sign * b.dX ∧ b.x + b.sign * b.dX ≤ 2147483647) ∧
    -2147483648 ≤ b.yMin ∧ b.yMax ≤ 2147483646

namespace Machine

/-- The body of the `for` loop of `createEdges` up to the test `dY != 0`, on
`int`: `v2.y - v1.y`, `v2.x - v1.x` and `abs` are `int` operations. -/
def makeBucket (a b : Vertex) : Option Bucket :=
  let v1 := if b.x < a.x then b else a
  let v2 := if b.x < a.x then a else b
  let yMax := if v1.y > v2.y then v1.y else v2.y
  let yMin := if v1.y < v2.y then v1.y else v2.y
  let initialX := if v1.y < v2.y then v1.x else v2.x
  let sign : Int := if wrap (v2.y - v1.y) < 0 then -1 else 1
  let dX : Int := wrap (wrap (v2.x - v1.x)).natAbs
  let dY : Int := wrap (wrap (v2.y - v1.y)).natAbs
  if dY ≠ 0 then
    some { yMax := yMax, yMin := yMin, x := initialX, sign := sign, dX := dX, dY := dY, sum := 0 }
  else none

/-- The `for (int i = 0; i < n; i++)` loop of `createEdges`, on `int`. -/
def createEdgesLoop (x y : Nat → Int) : Nat → Nat → Nat → Edges → Edges
  | 0, _, _, e => e
  | k + 1, i, startIndex, e =>
    match makeBucket ⟨x startIndex, y startIndex⟩ ⟨x i, y i⟩ with
    | some b =>
      createEdgesLoop x y k (i + 1) i
        { mem := Function.update e.mem e.next b, next := e.next + 1,
          edgeTable := e.edgeTable ++ [e.next] }
    | none => createEdgesLoop x y k (i + 1) i e

/-- The function `createEdges`, on `int`. -/
def createEdges (n : Nat) (x y : Nat → Int) : Edges :=
  createEdgesLoop x y n 0 (n - 1) { mem := fun _ => default, next := 0, edgeTable := [] }

/-- The loop `while (edge->sum >= edge->dY) { x += sign; sum -= dY; }`, on
`int`. -/
def advanceWhile : Nat → Bucket → Result Bucket
  | 0, b => if b.sum ≥ b.dY then Result.outOfFuel else Result.ok b
  | fuel + 1, b =>
    if b.sum ≥ b.dY then
      advanceWhile fuel { b with x := wrap (b.x + b.sign), sum := wrap (b.sum - b.dY) }
    else Result.ok b

/-- The body of the loop "increment the X variables based on the slope" for
one edge, on `int`: `edge->sum += edge->dX` is an `int` operation. -/
def advanceEdge (fuel : Nat) (b : Bucket) : Result Bucket :=
  if b.dX ≠ 0 then advanceWhile fuel { b with sum := wrap (b.sum + b.dX) } else Result.ok b

/-- The loop "increment the X variables based on the slope", on `int`. -/
def advanceAll (fuel : Nat) : Mem → List Ptr → Result Mem
  | mem, [] => Result.ok mem
  | mem, edge :: rest =>
    match advanceEdge fuel (mem edge) with
    | Result.ok b => advanceAll fuel (Function.update mem edge b) rest
    | Result.undefined => Result.undefined
    | Result.outOfFuel => Result.outOfFuel

/-- One execution of the body of `while (!edgeTable.empty())`, on `int`:
`scanLine++` is an `int` operation. Retiring, admitting, sorting and filling
compare and copy `int`s; the quotients of `xCompare` are `int`s whenever
`dX`, `dY` are (`dY` is never `-1`), and the `x++` of the span loop stays
below `b2.x`. -/
def scanBody (fuel : Nat) (s : Scan) : Result Scan :=
  let r := retire s.mem s.scanLine s.activeList s.edgeTable
  let activeList := listSort (xCompare s.mem) (admitEdges s.mem s.scanLine r.2 r.1)
  match fill s.mem s.scanLine activeList with
  | Result.ok px =>
    match advanceAll fuel s.mem activeList with
    | Result.ok mem =>
      Result.ok { mem := mem, edgeTable := r.2, activeList := activeList,
                  scanLine := wrap (s.scanLine + 1), pixels := s.pixels ++ px }
    | Result.undefined => Result.undefined
    | Result.outOfFuel => Result.outOfFuel
  | Result.undefined => Result.undefined
  | Result.outOfFuel => Result.outOfFuel

/-- The loop `while (!edgeTable.empty())`, on `int`. -/
def scanLoop (inner : Nat) : Nat → Scan → Result Scan
  | 0, s => if s.edgeTable.isEmpty then Result.ok s else Result.outOfFuel
  | fuel + 1, s =>
    if s.edgeTable.isEmpty then Result.ok s
    else
      match scanBody inner s with
      | Result.ok s1 => scanLoop inner fuel s1
      | r => r

/-- The state after at most `k` executions of the body of
`while (!edgeTable.empty())`, on `int`. -/
def scanIterate (inner : Nat) : Nat → Scan → Result Scan
  | 0, s => Result.ok s
  | k + 1, s =>
    if s.edgeTable.isEmpty then Result.ok s
    else
      match scanBody inner s with
      | Result.ok s1 => scanIterate inner k s1
      | r => r

/-- The function `processEdgeTable`, on `int`. -/
def processEdgeTable (fuel : Nat) (mem : Mem) (edgeTable : List Ptr) : Result Scan :=
  match edgeTable with
  | [] => Result.undefined
  | front :: _ => scanLoop fuel fuel (scanStart mem edgeTable front)

/-- The function `drawPolygon`, on `int`; the result is the sequence of
`setPixel` calls. -/
def drawPolygon (fuel : Nat) (n : Nat) (x y : Nat → Int) : Result (List Pixel) :=
  let e := createEdges n x y
  let finalEdgeTable := listSort (minYCompare e.mem) e.edgeTable
  match processEdgeTable fuel e.mem finalEdgeTable with
  | Result.ok s => Result.ok s.pixels
  | Result.undefined => Result.undefined
  | Result.outOfFuel => Result.outOfFuel

/-- The state of the scan loop of `drawPolygon`, on `int`, after at most `k`
executions of its body. -/
def drawPolygonAfter (fuel k : Nat) (n : Nat) (x y : Nat → Int) : Result Scan :=
  let e := createEdges n x y
  match listSort (minYCompare e.mem) e.edgeTable with
  | [] => Result.undefined
  | front :: rest => scanIterate fuel k (scanStart e.mem (front :: rest) front)

/-- The state in which the scan loop of `drawPolygon`, on `int`, stops. -/
def drawPolygonScan (fuel : Nat) (n : Nat) (x y : Nat → Int) : Result Scan :=
  processEdgeTable fuel (createEdges n x y).mem
    (listSort (minYCompare (createEdges n x y).mem) (createEdges n x y).edgeTable)

/-- The bucket after `k` executions of the advance step, on `int`. -/
def advanceTimes (fuel : Nat) : Nat → Bucket → Result Bucket
  | 0, b => Result.ok b
  | k + 1, b =>
    match advanceEdge fuel b with
    | Result.ok b1 => advanceTimes fuel k b1
    | r => r

/-- The edge records `createEdges` builds on `int`, in edge-table order. -/
def edgeRecords (n : Nat) (x y : Nat → Int) : List Bucket :=
  (createEdges n x y).edgeTable.map (createEdges n x y).mem

end Machine

end Slpfa

namespace Hershey

/-! ## The glyph header of the Hershey decoder -/

/-- The byte under the read pointer `c`: the buffer is followed by a NUL. -/
def peek (c : List Int) : Int := c.headD 0

/-- The test `*c == ' ' || *c == '\t' || *c == '\n' || *c == '\r'`. -/
def isBlank (v : Int) : Bool := v == 32 || v == 9 || v == 10 || v == 13

/-- The loop that skips whitespace and keeps the column: a newline or a
carriage return resets `col`, any other blank increments it. -/
def skipBlanksCol : List Int → Int → List Int × Int
  | [], col => ([], col)
  | v :: rest, col =>
    if isBlank v then
      (if v = 10 ∨ v = 13 then skipBlanksCol rest 0 else skipBlanksCol rest (col + 1))
    else (v :: rest, col)

/-- The loop `while (col < limit && *c >= '0' && *c <= '9')` that grabs a
decimal number; returns the read pointer, the column and the number. -/
def grabNumber (limit : Int) : List Int → Int → Int → List Int × Int × Int
  | [], col, acc => ([], col, acc)
  | v :: rest, col, acc =>
    if col < limit ∧ 48 ≤ v ∧ v ≤ 57 then grabNumber limit rest (col + 1) (acc * 10 + (v - 48))
    else (v :: rest, col, acc)

/-- The loop `while (*c == ' ' || ...) c++` that skips whitespace without
keeping the column. -/
def skipBlanks : List Int → List Int
  | [] => []
  | v :: rest => if isBlank v then skipBlanks rest else v :: rest

/-- The index `i - 10` of the read `c[i-10]` in the report of a parse error:
`i` is an `unsigned int`, so the difference is taken modulo `2^32` (and a
pointer is wider than 32 bits, so the index is not reduced again when it is
added to `c`). -/
def windowIndex (i : Nat) : Nat := (i + 4294967296 - 10) % 4294967296

/-- Every read `c[i-10]` of the loop `for (i = 0; i < 30; i++)` of the report
is inside the buffer, whose last byte (the terminating NUL) is `c[c.length]`. -/
def windowInside (c : List Int) : Bool :=
  (List.range 30).all (fun i => decide (windowIndex i ≤ c.length))

/-- What the decoder has after the header of one glyph. -/
inductive Header where
  | parseError (col : Int)
  | windowOutOfBounds
  | silentReturn
  | decoded (glyphno pairs left right width : Int) (c : List Int) (col : Int)
deriving DecidableEq, Repr

/-- The body of `while (*c)` from its start up to the point where the reported
width is stored: glyph number, number of pairs, left and right bearing.
The branch `glyphno == 0` prints the first line of the report and then the
window `c[i-10]`, `i = 0 .. 29`: with a read outside the buffer the result is
`windowOutOfBounds`, else the report is completed with the column
(`parseError`). `silentReturn` is one of the three `if (*c == 0) return 0;`. -/
def readHeader (c : List Int) (col : Int) : Header :=
  let s1 := skipBlanksCol c col
  let g := grabNumber 5 s1.1 s1.2 0
  if g.2.2 = 0 then
    (if windowInside g.1 then Header.parseError g.2.1 else Header.windowOutOfBounds)
  else
    let s2 := skipBlanksCol g.1 g.2.1
    let p := grabNumber 8 s2.1 s2.2 0
    let c5 := skipBlanks p.1
    if peek c5 = 0 then Header.silentReturn
    else
      let left := peek c5 - 82
      let c6 := c5.tail
      if peek c6 = 0 then Header.silentReturn
      else
        let right := peek c6 - 82
        let c7 := c6.tail
        if peek c7 = 0 then Header.silentReturn
        else
          Header.decoded g.2.2 p.2.2 left right
            ((right.natAbs : Int) + (left.natAbs : Int)) c7 p.2.1

/-- The number a string of decimal digits (most significant first) denotes,
continuing from `acc`. -/
def digitsValue (acc : Int) : List Nat → Int
  | [] => acc
  | d :: ds => digitsValue (acc * 10 + (d : Int)) ds

/-- A decimal field of the given width: the digits right-justified, padded
with spaces on the left. -/
def rightJustified (width : Nat) (ds : List Nat) : List Int :=
  List.replicate (width - ds.length) 32 ++ ds.map (fun (d : Nat) => 48 + (d : Int))

/-! ## The pair stream, the glyph tables and the normalization pass -/

/-- The conversion of an `int` to `char` (signed, 8 bits, wrapping). -/
def toChar (v : Int) : Int := (v + 128) % 256 - 128

/-- The loop `while (*c == '\n' || *c == '\r') { c++; col = 0; }`. -/
def skipNewlines : List Int → Int → List Int × Int
  | [], col => ([], col)
  | v :: rest, col => if v = 10 ∨ v = 13 then skipNewlines rest 0 else (v :: rest, col)

/-- The variables the pair loop of one glyph works on: `penup`, the last
coordinates `x`, `y`, the local `lminx`, `lmaxx`, the global `miny`, `maxy`
and the row `gd[gc]`. -/
structure Pen where
  penup : Int
  x : Int
  y : Int
  lminx : Int
  lmaxx : Int
  miny : Int
  maxy : Int
  data : List Int
deriving DecidableEq, Repr

/-- The assignments `x = first; y = second;` followed by the four updates
`if (miny > y) miny = y; ...`. -/
def moveTo (pen : Pen) (first second : Int) : Pen :=
  { pen with
    x := first, y := second,
    miny := if pen.miny > second then second else pen.miny,
    maxy := if pen.maxy < second then second else pen.maxy,
    lminx := if pen.lminx > first then first else pen.lminx,
    lmaxx := if pen.lmaxx < first then first else pen.lmaxx }

/-- The `if (penup == 0) ... else ...` at the end of the body of the pair
loop; `' ' - 'R'` is `-50` and `'R' - 'R'` is `0`. -/
def penStep (pen : Pen) (p : Int × Int) : Pen :=
  if pen.penup = 0 then
    if p.1 = 32 - 82 ∧ p.2 = 82 - 82 then { pen with penup := 1 }
    else moveTo { pen with data := pen.data ++ [pen.x, pen.y, p.1, p.2] } p.1 p.2
  else moveTo { pen with penup := 0 } p.1 p.2

/-- Outcome of the pair loop of one glyph. -/
inductive Pairs where
  | done (c : List Int) (col : Int) (pen : Pen)
  | silentReturn
  | undefined
deriving DecidableEq, Repr

/-- The loop `while (pairs > 0)`: `k` pairs remain. With the read pointer on
the terminating NUL the read of `first` is followed by `c++` and a read behind
the buffer (`undefined`); `silentReturn` is the `if (*c == 0) return 0;`. -/
def pairLoop : Nat → List Int → Int → Pen → Pairs
  | 0, c, col, pen => Pairs.done c col pen
  | _ + 1, [], _, _ => Pairs.undefined
  | k + 1, v :: c1, col, pen =>
    let first := toChar (v - 82)
    let s1 := skipNewlines c1 col
    if peek s1.1 = 0 then Pairs.silentReturn
    else
      let second := toChar (peek s1.1 - 82)
      let s2 := skipNewlines s1.1.tail s1.2
      pairLoop k s2.1 s2.2 (penStep pen (first, second))

/-- The pairs `(first, second)` the loop `while (pairs > 0)` reads from the
buffer, in order, `k` pairs remaining: the reads of `pairLoop` without the
pen. -/
def pairsRead : Nat → List Int → List (Int × Int)
  | 0, _ => []
  | _ + 1, [] => []
  | k + 1, v :: c1 =>
    if peek (skipNewlines c1 0).1 = 0 then []
    else
      (toChar (v - 82), toChar (peek (skipNewlines c1 0).1 - 82)) ::
        pairsRead k (skipNewlines (skipNewlines c1 0).1.tail 0).1

/-- The entries of one glyph in the vectors `glyph`, `width`, `realwidth`,
`minx` and `gd`. -/
structure RawGlyph where
  glyph : Int
  width : Int
  realwidth : Int
  minx : Int
  data : List Int
deriving DecidableEq, Repr

/-- The test `gd[gc].size() == 4 && gd[gc][0] == gd[gc][2] &&
gd[gc][1] == gd[gc][3]`. -/
def isDegenerate (data : List Int) : Bool :=
  data.length == 4 && data.getD 0 0 == data.getD 2 0 && data.getD 1 0 == data.getD 3 0

/-- The statements after the pair loop ("scanning done") up to
`realwidth.push_back`: the degenerate segment for an empty glyph, the
replacement of the extents of a degenerate glyph, the entries of the glyph. -/
def finishGlyph (glyphno width : Int) (pen : Pen) : RawGlyph :=
  let data := if pen.data.length < 4 then pen.data ++ [0, 0, 0, 0] else pen.data
  let lmaxx := if isDegenerate data then width else pen.lmaxx
  let lminx := if isDegenerate data then 0 else pen.lminx
  { glyph := glyphno, width := width,
    realwidth := (lmaxx.natAbs : Int) + (lminx.natAbs : Int), minx := lminx, data := data }

/-- The loop `while (*c != 0 && *c <= ' ')` behind a glyph. -/
def skipTrailing : List Int → Int → List Int × Int
  | [], col => ([], col)
  | v :: rest, col =>
    if v ≠ 0 ∧ v ≤ 32 then
      (if v = 10 ∨ v = 13 then skipTrailing rest 0 else skipTrailing rest (col + 1))
    else (v :: rest, col)

/-- The variables of `main` at the top of `while (*c)`; the parallel vectors
are one list of entries, `gc` is its length. -/
structure Decoder where
  c : List Int
  col : Int
  glyphs : List RawGlyph
  miny : Int
  maxy : Int
deriving DecidableEq, Repr

/-- Outcome of one execution of the body of `while (*c)`: `parseError` is the
completed report of the branch `glyphno == 0`, `windowOutOfBounds` that
report with a read `c[i-10]` outside the buffer. -/
inductive Step where
  | next (d : Decoder)
  | parseError (gc : Nat) (col : Int)
  | windowOutOfBounds (gc : Nat)
  | silentReturn
  | undefined
deriving DecidableEq, Repr

/-- The pen at the start of the pair loop of a glyph. -/
def penStart (miny maxy : Int) : Pen :=
  { penup := 1, x := 0, y := 0, lminx := 200, lmaxx := -200, miny := miny, maxy := maxy,
    data := [] }

/-- One execution of the body of `while (*c)`: the header, `pairs--`, the pair
loop, the entries of the glyph, the whitespace behind it, `gc++`. -/
def glyphStep (d : Decoder) : Step :=
  match readHeader d.c d.col with
  | Header.parseError col => Step.parseError d.glyphs.length col
  | Header.windowOutOfBounds => Step.windowOutOfBounds d.glyphs.length
  | Header.silentReturn => Step.silentReturn
  | Header.decoded glyphno pairs _ _ width c col =>
    match pairLoop (pairs - 1).toNat c col (penStart d.miny d.maxy) with
    | Pairs.silentReturn => Step.silentReturn
    | Pairs.undefined => Step.undefined
    | Pairs.done c1 col1 pen =>
      Step.next
        { c := (skipTrailing c1 col1).1, col := (skipTrailing c1 col1).2,
          glyphs := d.glyphs ++ [finishGlyph glyphno width pen],
          miny := pen.miny, maxy := pen.maxy }

/-- The loop `for (i = 0; i < gd[gc].size(); i += 2)` of the normalization
pass: `gd[gc][i] += -minx[gc]; gd[gc][i+1] += -miny;`. With one element left
the second write is behind the row. -/
def normalizeData (minx miny : Int) : List Int → Option (List Int)
  | [] => some []
  | [_] => none
  | x :: y :: rest =>
    match normalizeData minx miny rest with
    | some r => some ((x + -minx) :: (y + -miny) :: r)
    | none => none

/-- What is printed for one glyph: its number, the two widths and the data. -/
structure OutGlyph where
  glyph : Int
  width : Int
  realwidth : Int
  data : List Int
deriving DecidableEq, Repr

/-- The normalization pass and the output for one glyph. -/
def emitGlyph (miny : Int) (g : RawGlyph) : Option OutGlyph :=
  match normalizeData g.minx miny g.data with
  | some d => some { glyph := g.glyph, width := g.width, realwidth := g.realwidth, data := d }
  | none => none

/-- The normalization pass and the output for all glyphs. -/
def emitGlyphs (miny : Int) : List RawGlyph → Option (List OutGlyph)
  | [] => some []
  | g :: rest =>
    match emitGlyph miny g, emitGlyphs miny rest with
    | some o, some os => some (o :: os)
    | _, _ => none

/-- The decoded font: the glyph tables and the totals. -/
structure FontTable where
  glyphs : List OutGlyph
  count : Nat
  height : Int
deriving DecidableEq, Repr

/-- Outcome of the decoder. -/
inductive Outcome where
  | table (t : FontTable)
  | parseError (gc : Nat) (col : Int)
  | windowOutOfBounds (gc : Nat)
  | silentReturn
  | undefined
  | outOfFuel
deriving DecidableEq, Repr

/-- The part of `main` behind `while (*c)`: "scan all glyphs and modify data"
and the output. -/
def emitTable (d : Decoder) : Outcome :=
  match emitGlyphs d.miny d.glyphs with
  | some gs =>
    Outcome.table { glyphs := gs, count := d.glyphs.length,
                    height := (d.miny.natAbs : Int) + (d.maxy.natAbs : Int) }
  | none => Outcome.undefined

/-- The loop `while (*c)` followed by the output; `fuel` bounds the number of
glyphs. -/
def glyphLoop : Nat → Decoder → Outcome
  | 0, d => if peek d.c = 0 then emitTable d else Outcome.outOfFuel
  | fuel + 1, d =>
    if peek d.c = 0 then emitTable d
    else
      match glyphStep d with
      | Step.next d1 => glyphLoop fuel d1
      | Step.parseError gc col => Outcome.parseError gc col
      | Step.windowOutOfBounds gc => Outcome.windowOutOfBounds gc
      | Step.silentReturn => Outcome.silentReturn
      | Step.undefined => Outcome.undefined

/-- The decoder of `main` on the bytes of the font file. -/
def decode (fuel : Nat) (buf : List Int) : Outcome :=
  glyphLoop fuel { c := buf, col := 0, glyphs := [], miny := 200, maxy := -200 }

/-! ## Vocabulary of the statements on the decoder -/

/-- The pair `' ' - 'R'`, `'R' - 'R'`: the pen-up code. -/
def penUp : Int × Int := (-50, 0)

/-- The strokes of a pair stream: the stream split at every pen-up pair. -/
def strokesOf : List (Int × Int) → List (List (Int × Int))
  | [] => [[]]
  | p :: ps =>
    if p = penUp then [] :: strokesOf ps
    else
      match strokesOf ps with
      | s :: ss => (p :: s) :: ss
      | [] => [[p]]

/-- The line segments joining each two consecutive points of a stroke, as
four numbers `x0, y0, x1, y1` per segment. -/
def segmentsOf : List (Int × Int) → List Int
  | p :: q :: rest => [p.1, p.2, q.1, q.2] ++ segmentsOf (q :: rest)
  | _ => []

/-- No pen-up pair stands where a stroke starts: `atStart` tells whether the
next pair starts a stroke (at the start of the stream and behind a pen-up). -/
def separated : Bool → List (Int × Int) → Bool
  | _, [] => true
  | true, p :: rest => p ≠ penUp && separated false rest
  | false, p :: rest => if p = penUp then separated true rest else separated false rest

/-- The pairs of a stream the decoder takes as coordinates: every pair that
starts a stroke, and every pair behind it up to the next pen-up pair. -/
def strokePoints : Bool → List (Int × Int) → List (Int × Int)
  | _, [] => []
  | true, p :: rest => p :: strokePoints false rest
  | false, p :: rest =>
    if p = penUp then strokePoints true rest else p :: strokePoints false rest

/-- The x coordinates in a row of glyph data (the entries at even indices). -/
def xsOf : List Int → List Int
  | [] => []
  | [x] => [x]
  | x :: _ :: rest => x :: xsOf rest

/-- The y coordinates in a row of glyph data (the entries at odd indices). -/
def ysOf : List Int → List Int
  | [] => []
  | [_] => []
  | _ :: y :: rest => y :: ysOf rest

/-- A byte of the pair stream that is a plain character: not NUL, not a
newline or carriage return, and in the ASCII range. -/
def plainByte (b : Int) : Bool := decide (1 ≤ b ∧ b ≤ 127 ∧ b ≠ 10 ∧ b ≠ 13)

/-- A run of newline and carriage return bytes. -/
def newlineRun (l : List Int) : Bool := l.all (fun v => decide (v = 10 ∨ v = 13))

/-- One pair of the stream as it lies in the file: the two bytes, each
possibly followed by line breaks. -/
structure StreamPair where
  first : Int
  afterFirst : List Int
  second : Int
  afterSecond : List Int

/-- The bytes of a pair in the file. -/
def StreamPair.bytes (p : StreamPair) : List Int :=
  p.first :: (p.afterFirst ++ p.second :: p.afterSecond)

/-- The coordinates a pair encodes: each byte minus `'R'`. -/
def StreamPair.point (p : StreamPair) : Int × Int := (p.first - 82, p.second - 82)

/-- The pair is made of two plain bytes and line breaks. -/
def StreamPair.plain (p : StreamPair) : Bool :=
  plainByte p.first && newlineRun p.afterFirst && plainByte p.second &&
    newlineRun p.afterSecond

/-- The bytes of a pair stream in the file. -/
def streamBytes : List StreamPair → List Int
  | [] => []
  | p :: ps => p.bytes ++ streamBytes ps

/-- The test `*c >= '0' && *c <= '9'`. -/
def isDigit (v : Int) : Bool := decide (48 ≤ v ∧ v ≤ 57)

/-- The invariant of the pair loop on the pen: the row grows by four entries
at a time, the extents bound the coordinates in the row and, with the pen
down, the last coordinates. -/
structure PenInv (pen : Pen) : Prop where
  len : pen.data.length % 4 = 0
  xs : ∀ v ∈ xsOf pen.data, pen.lminx ≤ v ∧ v ≤ pen.lmaxx
  ys : ∀ v ∈ ysOf pen.data, pen.miny ≤ v ∧ v ≤ pen.maxy
  cur : pen.penup = 0 →
    pen.lminx ≤ pen.x ∧ pen.x ≤ pen.lmaxx ∧ pen.miny ≤ pen.y ∧ pen.y ≤ pen.maxy

/-- The entry of a glyph is in order for the normalization pass with the
global minimum `m`: the row has even length, and unless the row is a single
degenerate segment its x coordinates are at least `minx` and its y
coordinates at least `m`. -/
def RawGlyph.Ok (g : RawGlyph) (m : Int) : Prop :=
  g.data.length % 2 = 0 ∧
    (isDegenerate g.data = false →
      (∀ v ∈ xsOf g.data, g.minx ≤ v) ∧ (∀ v ∈ ysOf g.data, m ≤ v))

/-- The invariant of `while (*c)`: every entry so far is in order for the
current global minimum. -/
def Decoder.Inv (d : Decoder) : Prop := ∀ g ∈ d.glyphs, g.Ok d.miny

/-- The extents `lo`, `hi` kept for the values `S` seen so far, starting from
`lo = 200`, `hi = -200`: they bound the values and, once a value has been
seen, they are among them. -/
def Extents (lo hi : Int) (S : List Int) : Prop :=
  (∀ v ∈ S, lo ≤ v ∧ v ≤ hi) ∧ (S = [] → lo = 200 ∧ hi = -200) ∧
    (S ≠ [] → lo ∈ S ∧ hi ∈ S)

/-- No stroke the decoder reads consists of a single point; the state is `0`
with the pen up, `1` with the pen down behind the first point of a stroke, `2`
with the pen down behind a later point. -/
def noLonePoint : Nat → List (Int × Int) → Bool
  | 1, [] => false
  | _, [] => true
  | 0, _ :: rest => noLonePoint 1 rest
  | 1, p :: rest => if p = penUp then false else noLonePoint 2 rest
  | _ + 2, p :: rest => if p = penUp then noLonePoint 0 rest else noLonePoint 2 rest

end Hershey

namespace Slpfa

/-! ## The advance step -/

theorem advanceWhile_eq (fuel : Nat) (b : Bucket) (hd : 1 ≤ b.dY) (hs : 0 ≤ b.sum)
    (hf : (b.sum / b.dY).toNat ≤ fuel) :
    advanceWhile fuel b =
      Result.ok { b with x := b.x + b.sign * (b.sum / b.dY), sum := b.sum % b.dY } := by
  induction fuel generalizing b with
  | zero =>
    have h0 : b.sum / b.dY = 0 := by
      have := Int.ediv_nonneg hs (by omega : (0 : Int) ≤ b.dY)
      omega
    have hlt : b.sum < b.dY := by
      by_contra hc
      have : 1 ≤ b.sum / b.dY := by
        have := Int.ediv_le_ediv (by omega : (0 : Int) < b.dY) (not_lt.mp hc)
        rwa [Int.ediv_self (by omega)] at this
      omega
    simp only [advanceWhile, ge_iff_le, not_le.mpr hlt, if_false]
    rw [h0, Int.emod_eq_of_lt hs hlt]
    simp
  | succ f ih =>
    by_cases hlt : b.sum < b.dY
    · simp only [advanceWhile, ge_iff_le, not_le.mpr hlt, if_false]
      rw [Int.ediv_eq_zero_of_lt hs hlt, Int.emod_eq_of_lt hs hlt]
      simp
    · have hge : b.dY ≤ b.sum := not_lt.mp hlt
      have hq : b.sum / b.dY = (b.sum - b.dY) / b.dY + 1 := by
        have : b.sum = (b.sum - b.dY) + b.dY := by ring
        conv_lhs => rw [this]
        rw [Int.add_ediv_of_dvd_right (dvd_refl _), Int.ediv_self (by omega)]
      have hm : b.sum % b.dY = (b.sum - b.dY) % b.dY := by
        rw [Int.sub_emod, Int.emod_self]; simp
      have hq0 := Int.ediv_nonneg (by omega : (0 : Int) ≤ b.sum - b.dY) (by omega : (0 : Int) ≤ b.dY)
      simp only [advanceWhile, ge_iff_le, hge, if_true]
      rw [ih { b with x := b.x + b.sign, sum := b.sum - b.dY } hd
        (by show 0 ≤ b.sum - b.dY; omega) (by show ((b.sum - b.dY) / b.dY).toNat ≤ f; omega)]
      simp only [hq, hm]
      congr 2
      ring

theorem advanceEdge_eq (fuel : Nat) (b : Bucket) (hd : 1 ≤ b.dY) (hx : 0 ≤ b.dX)
    (hs : 0 ≤ b.sum) (hf : ((b.sum + b.dX) / b.dY).toNat ≤ fuel) :
    advanceEdge fuel b = Result.ok (stepBucket b) := by
  unfold advanceEdge stepBucket
  by_cases h0 : b.dX = 0
  · simp [h0]
  · simp only [ne_eq, h0, not_false_eq_true, if_true]
    rw [advanceWhile_eq fuel { b with sum := b.sum + b.dX } hd
      (by show 0 ≤ b.sum + b.dX; omega) hf]

theorem stateAt_zero (b : Bucket) (hs : b.sum = 0) : stateAt b 0 = b := by
  cases b
  simp only [stateAt] at *
  simp [hs]

theorem stepBucket_stateAt (b : Bucket) (k : Nat) (hd : 1 ≤ b.dY) :
    stepBucket (stateAt b k) = stateAt b (k + 1) := by
  unfold stepBucket
  by_cases h0 : b.dX = 0
  · simp [stateAt, h0]
  · have hne : (stateAt b k).dX ≠ 0 := h0
    rw [if_pos hne]
    simp only [stateAt]
    have hpos : b.dY ≠ 0 := by omega
    have e1 : ((k : Int) + 1) * b.dX = (k : Int) * b.dX % b.dY + b.dX + b.dY * ((k : Int) * b.dX / b.dY) := by
      have := Int.emod_add_ediv ((k : Int) * b.dX) b.dY
      linarith
    have hq : (((k + 1 : Nat) : Int) * b.dX) / b.dY
        = (k : Int) * b.dX / b.dY + ((k : Int) * b.dX % b.dY + b.dX) / b.dY := by
      push_cast
      rw [e1, Int.add_mul_ediv_left _ _ hpos]
      ring
    have hm : (((k + 1 : Nat) : Int) * b.dX) % b.dY = ((k : Int) * b.dX % b.dY + b.dX) % b.dY := by
      push_cast
      rw [e1, Int.add_mul_emod_self_left]
    rw [hq, hm]
    congr 1
    ring

theorem stateAt_fuel (b : Bucket) (k : Nat) (hd : 1 ≤ b.dY) (hx : 0 ≤ b.dX) :
    (((stateAt b k).sum + (stateAt b k).dX) / (stateAt b k).dY).toNat ≤ b.dX.toNat := by
  show ((((k : Int) * b.dX) % b.dY + b.dX) / b.dY).toNat ≤ b.dX.toNat
  have h1 : ((k : Int) * b.dX) % b.dY < b.dY := Int.emod_lt_of_pos _ (by omega)
  have h2 : 0 ≤ ((k : Int) * b.dX) % b.dY := Int.emod_nonneg _ (by omega)
  have h3 : (((k : Int) * b.dX) % b.dY + b.dX) / b.dY ≤ b.dX := by
    by_cases h0 : b.dX = 0
    · simp [h0]
    · apply Int.ediv_le_of_le_mul (by omega)
      nlinarith [mul_nonneg (by omega : (0 : Int) ≤ b.dX - 1) (by omega : (0 : Int) ≤ b.dY - 1)]
  omega

theorem advanceAll_eq (fuel : Nat) (al : List Ptr) (mem : Mem) (hn : al.Nodup)
    (h : ∀ p ∈ al, advanceEdge fuel (mem p) = Result.ok (stepBucket (mem p))) :
    advanceAll fuel mem al =
      Result.ok (fun p => if p ∈ al then stepBucket (mem p) else mem p) := by
  induction al generalizing mem with
  | nil => simp [advanceAll]
  | cons a l ih =>
    rw [List.nodup_cons] at hn
    simp only [advanceAll, h a (List.mem_cons_self _ _)]
    rw [ih _ hn.2]
    · congr 1
      funext p
      by_cases hp : p ∈ l
      · have : p ≠ a := fun e => hn.1 (e ▸ hp)
        simp [hp, Function.update_noteq this]
      · by_cases hpa : p = a
        · subst hpa; simp [hp]
        · simp [hp, hpa, Function.update_noteq hpa]
    · intro p hp
      have : p ≠ a := fun e => hn.1 (e ▸ hp)
      rw [Function.update_noteq this]
      exact h p (List.mem_cons_of_mem _ hp)

theorem retire_eq (mem : Mem) (y : Int) (al et : List Ptr) :
    retire mem y al et =
      (al.filter (fun p => decide ((mem p).yMax ≠ y)),
       et.filter (fun p => !(decide (p ∈ al) && decide ((mem p).yMax = y)))) := by
  induction al generalizing et with
  | nil => simp [retire]
  | cons a l ih =>
    by_cases h : (mem a).yMax = y
    · simp only [retire, h, if_true]
      rw [ih]
      simp only [List.filter_filter]
      refine Prod.ext ?_ ?_
      · simp [List.filter_cons, h]
      · simp only
        apply List.filter_congr
        intro p _
        by_cases hpa : p = a
        · subst hpa; simp [h]
        · simp [hpa]
    · simp only [retire, h, if_false]
      rw [ih]
      refine Prod.ext ?_ ?_
      · simp [List.filter_cons, h]
      · simp only
        apply List.filter_congr
        intro p _
        by_cases hpa : p = a
        · subst hpa; simp [h]
        · simp [hpa]

theorem fill_eq (mem : Mem) (y : Int) : ∀ (l : List Ptr), Even l.length →
    fill mem y l = Result.ok (pairSpans (l.map (fun p => (mem p).x)) y)
  | [], _ => by simp [fill, pairSpans]
  | [_], he => by simp at he
  | a :: b :: l, he => by
    have he2 : Even l.length := by
      simp only [List.length_cons] at he
      rcases he with ⟨r, hr⟩
      exact ⟨r - 1, by omega⟩
    simp [fill, fill_eq mem y l he2, pairSpans]

theorem fill_odd (mem : Mem) (y : Int) : ∀ (l : List Ptr), ¬ Even l.length →
    fill mem y l = Result.undefined
  | [], he => by simp at he
  | [_], _ => by simp [fill]
  | a :: b :: l, he => by
    have he2 : ¬ Even l.length := by
      intro h
      apply he
      simp only [List.length_cons]
      rcases h with ⟨r, hr⟩
      exact ⟨r + 1, by omega⟩
    simp [fill, fill_odd mem y l he2]


/-! ## Sorting -/

theorem notAfter_xCompare_iff (mem : Mem) (a b : Ptr) :
    notAfter (xCompare mem) a b ↔
      ((mem a).x < (mem b).x ∨ ((mem a).x = (mem b).x ∧
        Int.tdiv (mem a).dX (mem a).dY ≤ Int.tdiv (mem b).dX (mem b).dY)) := by
  unfold notAfter xCompare
  generalize Int.tdiv (mem a).dX (mem a).dY = qa
  generalize Int.tdiv (mem b).dX (mem b).dY = qb
  by_cases h1 : (mem b).x < (mem a).x
  · simp [h1]; omega
  · by_cases h2 : (mem b).x > (mem a).x
    · simp [h1, h2]
    · simp [h1, h2]; omega

theorem xTotal (mem : Mem) : IsTotal Ptr (notAfter (xCompare mem)) :=
  ⟨fun a b => by simp only [notAfter_xCompare_iff]; omega⟩

theorem xTrans (mem : Mem) : IsTrans Ptr (notAfter (xCompare mem)) :=
  ⟨fun a b c => by simp only [notAfter_xCompare_iff]; omega⟩

theorem notAfter_minYCompare_iff (mem : Mem) (a b : Ptr) :
    notAfter (minYCompare mem) a b ↔ (mem a).yMin ≤ (mem b).yMin := by
  simp [notAfter, minYCompare]

theorem yTotal (mem : Mem) : IsTotal Ptr (notAfter (minYCompare mem)) :=
  ⟨fun a b => by simp only [notAfter_minYCompare_iff]; omega⟩

theorem yTrans (mem : Mem) : IsTrans Ptr (notAfter (minYCompare mem)) :=
  ⟨fun a b c => by simp only [notAfter_minYCompare_iff]; omega⟩

theorem listSort_perm (cmp : Ptr → Ptr → Bool) (l : List Ptr) : (listSort cmp l).Perm l :=
  List.perm_insertionSort _ l

theorem sorted_perm_eq {l1 l2 : List Int} (hp : l1.Perm l2)
    (h1 : l1.Sorted (fun a b => a ≤ b)) : l1 = List.insertionSort (fun a b => a ≤ b) l2 := by
  haveI : IsAntisymm Int (fun a b => a ≤ b) := ⟨fun a b h1 h2 => Int.le_antisymm h1 h2⟩
  haveI : IsTotal Int (fun a b => a ≤ b) := ⟨fun a b => Int.le_total a b⟩
  haveI : IsTrans Int (fun a b => a ≤ b) := ⟨fun a b c h1 h2 => Int.le_trans h1 h2⟩
  exact List.eq_of_perm_of_sorted (hp.trans (List.perm_insertionSort _ l2).symm) h1
    (List.sorted_insertionSort _ l2)

theorem listSort_x (mem : Mem) (l : List Ptr) :
    (listSort (xCompare mem) l).map (fun p => (mem p).x) =
      List.insertionSort (fun a b => a ≤ b) (l.map (fun p => (mem p).x)) := by
  apply sorted_perm_eq ((listSort_perm _ l).map _)
  haveI := xTotal mem
  haveI := xTrans mem
  have hs : (listSort (xCompare mem) l).Sorted (notAfter (xCompare mem)) :=
    List.sorted_insertionSort _ l
  unfold List.Sorted at *
  rw [List.pairwise_map]
  refine hs.imp ?_
  intro a b hab
  rw [notAfter_xCompare_iff] at hab
  omega

theorem crossings_sorted (L : List Bucket) (s : Int) :
    (crossings L s).Sorted (fun a b => a ≤ b) := by
  haveI : IsTotal Int (fun a b => a ≤ b) := ⟨fun a b => Int.le_total a b⟩
  haveI : IsTrans Int (fun a b => a ≤ b) := ⟨fun a b c h1 h2 => Int.le_trans h1 h2⟩
  exact List.sorted_insertionSort _ _

theorem crossings_perm_raw (L : List Bucket) (s : Int) :
    (crossings L s).Perm ((L.filter (activeAt s)).map (trackedX s)) :=
  List.perm_insertionSort _ _

theorem crossings_congr {L1 L2 : List Bucket} (h : L1.Perm L2) (s : Int) :
    crossings L1 s = crossings L2 s := by
  apply sorted_perm_eq _ (crossings_sorted L1 s)
  exact (crossings_perm_raw L1 s).trans ((h.filter _).map _)

theorem crossings_length (L : List Bucket) (s : Int) :
    (crossings L s).length = (L.filter (activeAt s)).length := by
  rw [(crossings_perm_raw L s).length_eq, List.length_map]

theorem listSort_minY_head (mem : Mem) (l : List Ptr) (front : Ptr) (rest : List Ptr)
    (h : listSort (minYCompare mem) l = front :: rest) :
    ∀ p ∈ l, (mem front).yMin ≤ (mem p).yMin := by
  intro p hp
  haveI := yTotal mem
  haveI := yTrans mem
  have hs : (listSort (minYCompare mem) l).Sorted (notAfter (minYCompare mem)) :=
    List.sorted_insertionSort _ l
  rw [h] at hs
  have hp2 : p ∈ front :: rest := by
    rw [← h]; exact (listSort_perm _ l).mem_iff.mpr hp
  rcases List.mem_cons.mp hp2 with e | e
  · rw [e]
  · have := List.rel_of_sorted_cons hs p e
    rwa [notAfter_minYCompare_iff] at this


/-! ## Spans and rows -/

theorem mem_span (x1 x2 s a b : Int) :
    (a, b) ∈ span x1 x2 s ↔ b = s ∧ x1 ≤ a ∧ a < x2 := by
  unfold span
  simp only [List.mem_map, List.mem_range, Prod.mk.injEq]
  constructor
  · rintro ⟨k, hk, rfl, rfl⟩
    omega
  · rintro ⟨rfl, h1, h2⟩
    exact ⟨(a - x1).toNat, by omega, by omega, rfl⟩

theorem span_pairwise (x1 x2 s : Int) :
    (span x1 x2 s).Pairwise (fun p q => p.1 < q.1) := by
  unfold span
  rw [List.pairwise_map]
  have h := List.pairwise_lt_range (x2 - x1).toNat
  refine h.imp ?_
  intro a b hab
  simp only
  omega

theorem mem_pairSpans_row : ∀ (l : List Int) (s : Int) (p : Pixel),
    p ∈ pairSpans l s → p.2 = s ∧ ∃ c ∈ l, c ≤ p.1
  | [], s, p, h => by simp [pairSpans] at h
  | [_], s, p, h => by simp [pairSpans] at h
  | a :: b :: l, s, p, h => by
    simp only [pairSpans, List.mem_append] at h
    rcases h with h | h
    · obtain ⟨p1, p2⟩ := p
      rw [mem_span] at h
      exact ⟨h.1, a, by simp, h.2.1⟩
    · obtain ⟨h1, c, hc, hle⟩ := mem_pairSpans_row l s p h
      exact ⟨h1, c, by simp [hc], hle⟩

theorem pairSpans_pairwise : ∀ (l : List Int) (s : Int), l.Sorted (fun a b => a ≤ b) →
    (pairSpans l s).Pairwise (fun p q => p.1 < q.1)
  | [], s, _ => by simp [pairSpans]
  | [_], s, _ => by simp [pairSpans]
  | a :: b :: l, s, hs => by
    unfold List.Sorted at hs
    rw [List.pairwise_cons, List.pairwise_cons] at hs
    simp only [pairSpans]
    rw [List.pairwise_append]
    refine ⟨span_pairwise _ _ _, pairSpans_pairwise l s hs.2.2, ?_⟩
    intro p hp q hq
    obtain ⟨p1, p2⟩ := p
    rw [mem_span] at hp
    obtain ⟨_, c, hc, hle⟩ := mem_pairSpans_row l s q hq
    have := hs.2.1 c hc
    simp only
    omega

theorem mem_pairSpans : ∀ (l : List Int) (s a b : Int), l.Sorted (fun a b => a ≤ b) →
    Even l.length →
    ((a, b) ∈ pairSpans l s ↔ b = s ∧ Odd (l.countP (fun c => decide (c ≤ a))))
  | [], s, a, b, _, _ => by simp [pairSpans]
  | [_], s, a, b, _, he => by simp at he
  | c1 :: c2 :: l, s, a, b, hs, he => by
    have he2 : Even l.length := by
      simp only [List.length_cons] at he
      rcases he with ⟨r, hr⟩
      exact ⟨r - 1, by omega⟩
    unfold List.Sorted at hs
    rw [List.pairwise_cons, List.pairwise_cons] at hs
    have ih := mem_pairSpans l s a b hs.2.2 he2
    simp only [pairSpans, List.mem_append, mem_span, ih, List.countP_cons]
    have h12 : c1 ≤ c2 := hs.1 c2 (by simp)
    by_cases ha2 : c2 ≤ a
    · have ha1 : c1 ≤ a := by omega
      simp only [ha1, ha2, decide_True, if_true]
      have : ¬ a < c2 := by omega
      simp only [this, and_false, false_or]
      constructor
      · rintro ⟨h1, h2⟩
        refine ⟨h1, ?_⟩
        rcases h2 with ⟨r, hr⟩
        exact ⟨r + 1, by omega⟩
      · rintro ⟨h1, h2⟩
        refine ⟨h1, ?_⟩
        rcases h2 with ⟨r, hr⟩
        exact ⟨r - 1, by omega⟩
    · have hz : l.countP (fun c => decide (c ≤ a)) = 0 := by
        rw [List.countP_eq_zero]
        intro c hc
        have := hs.2.1 c hc
        simp only [decide_eq_true_eq]
        omega
      simp only [hz, ha2, decide_False]
      by_cases ha1 : c1 ≤ a
      · simp [ha1]; omega
      · simp [ha1]

theorem countP_crossings (L : List Bucket) (a b : Int) :
    (crossings L b).countP (fun c => decide (c ≤ a)) = countAtOrLeft L a b := by
  rw [(crossings_perm_raw L b).countP_eq, List.countP_map, List.countP_filter]
  unfold countAtOrLeft
  apply List.countP_congr
  intro e _
  simp [Function.comp, Bool.and_comm]

theorem mem_rows (L : List Bucket) (a b : Int) : ∀ (d : Nat) (y0 : Int),
    ((a, b) ∈ rows L y0 d ↔
      y0 ≤ b ∧ b < y0 + d ∧ (a, b) ∈ pairSpans (crossings L b) b)
  | 0, y0 => by simp [rows]; omega
  | d + 1, y0 => by
    simp only [rows, List.mem_append, mem_rows L a b d (y0 + 1)]
    constructor
    · rintro (h | h)
      · have := (mem_pairSpans_row _ _ _ h).1
        simp only at this
        subst this
        exact ⟨le_refl _, by push_cast; omega, h⟩
      · exact ⟨by omega, by push_cast; omega, h.2.2⟩
    · rintro ⟨h1, h2, h3⟩
      by_cases he : b = y0
      · subst he; exact Or.inl h3
      · exact Or.inr ⟨by omega, by push_cast at h2; omega, h3⟩

theorem rows_pairwise (L : List Bucket) : ∀ (d : Nat) (y0 : Int),
    (rows L y0 d).Pairwise rowMajorLt
  | 0, y0 => by simp [rows]
  | d + 1, y0 => by
    simp only [rows]
    rw [List.pairwise_append]
    refine ⟨?_, rows_pairwise L d (y0 + 1), ?_⟩
    · have h := pairSpans_pairwise (crossings L y0) y0 (crossings_sorted L y0)
      have hrow : ∀ p ∈ pairSpans (crossings L y0) y0, p.2 = y0 :=
        fun p hp => (mem_pairSpans_row _ _ _ hp).1
      refine (List.Pairwise.and_mem.mp h).imp ?_
      rintro p q ⟨hp, hq, hlt⟩
      exact Or.inr ⟨by rw [hrow p hp, hrow q hq], hlt⟩
    · intro p hp q hq
      have h1 := (mem_pairSpans_row _ _ _ hp).1
      obtain ⟨q1, q2⟩ := q
      have h2 := ((mem_rows L q1 q2 d (y0 + 1)).mp hq).1
      left
      simp only
      omega


/-! ## One iteration of the scan loop -/

theorem filter_split {α : Type} (p q r : α → Bool) : ∀ (l : List α),
    (∀ a ∈ l, r a = (p a || q a)) → (∀ a ∈ l, ¬ (p a = true ∧ q a = true)) →
    (l.filter p ++ l.filter q).Perm (l.filter r)
  | [], _, _ => by simp
  | a :: l, h1, h2 => by
    have ih := filter_split p q r l (fun b hb => h1 b (List.mem_cons_of_mem _ hb))
      (fun b hb => h2 b (List.mem_cons_of_mem _ hb))
    have ha := h1 a (List.mem_cons_self _ _)
    have hb := h2 a (List.mem_cons_self _ _)
    by_cases hp : p a = true
    · have hq : q a = false := by
        cases hqa : q a
        · rfl
        · exact absurd ⟨hp, hqa⟩ hb
      have hr : r a = true := by rw [ha, hp]; rfl
      simp only [List.filter_cons, hp, hq, hr, if_true, List.cons_append]
      simp [ih]
    · have hp' : p a = false := by simpa using hp
      by_cases hq : q a = true
      · have hr : r a = true := by rw [ha, hq]; simp
        simp only [List.filter_cons, hp', hq, hr, if_true]
        refine List.Perm.trans ?_ (List.Perm.cons a ih)
        simp
      · have hq' : q a = false := by simpa using hq
        have hr : r a = false := by rw [ha, hp', hq']; rfl
        simp only [List.filter_cons, hp', hq', hr]
        simpa using ih

theorem insertionSort_congr {l1 l2 : List Int} (h : l1.Perm l2) :
    List.insertionSort (fun a b => a ≤ b) l1 = List.insertionSort (fun a b => a ≤ b) l2 := by
  haveI : IsTotal Int (fun a b => a ≤ b) := ⟨fun a b => Int.le_total a b⟩
  haveI : IsTrans Int (fun a b => a ≤ b) := ⟨fun a b c h1 h2 => Int.le_trans h1 h2⟩
  exact sorted_perm_eq ((List.perm_insertionSort _ l1).trans h) (List.sorted_insertionSort _ l1)

theorem stateAt_x_active (b : Bucket) (y : Int) (h : b.yMin ≤ y) :
    (stateAt b (y - b.yMin).toNat).x = trackedX y b := by
  unfold stateAt trackedX
  have : (((y - b.yMin).toNat : Nat) : Int) = y - b.yMin := by omega
  simp only [this]

theorem scanBody_step (mem0 : Mem) (table : List Ptr) (hw : WellFormed mem0 table)
    (fuel : Nat) (hfuel : ∀ p ∈ table, (mem0 p).dX.toNat ≤ fuel)
    (s : Scan) (hinv : Inv mem0 table s) :
    (emissionList s).Perm (table.filter (fun p => activeAt s.scanLine (mem0 p))) ∧
    (emissionList s).map (fun p => (s.mem p).x) = crossings (table.map mem0) s.scanLine ∧
    ∃ s1, scanBody fuel s = Result.ok s1 ∧ Inv mem0 table s1 ∧
      s1.scanLine = s.scanLine + 1 ∧
      s1.pixels = s.pixels ++ pairSpans (crossings (table.map mem0) s.scanLine) s.scanLine := by
  obtain ⟨mem, et, al, y, px⟩ := s
  obtain ⟨hET, hAL, hMem⟩ := hinv
  simp only at hET hAL hMem
  -- facts about the buckets of the table
  have hfix : ∀ p ∈ table, y ≤ (mem0 p).yMax →
      (mem p).yMax = (mem0 p).yMax ∧ (mem p).yMin = (mem0 p).yMin := by
    intro p hp hy
    rw [hMem p hp hy]
    exact ⟨rfl, rfl⟩
  have hdy : ∀ p ∈ table, (mem0 p).yMin < (mem0 p).yMax := by
    intro p hp
    obtain ⟨h1, _, h3, _⟩ := hw.good p hp
    omega
  have hmemAL : ∀ p, p ∈ al ↔ p ∈ table ∧ (mem0 p).yMin < y ∧ y ≤ (mem0 p).yMax := by
    intro p
    rw [hAL.mem_iff]
    simp
  -- retire
  have hr1 : (al.filter (fun p => decide ((mem p).yMax ≠ y))).Perm
      (table.filter (fun p => decide ((mem0 p).yMin < y ∧ y < (mem0 p).yMax))) := by
    refine (hAL.filter _).trans ?_
    rw [List.filter_filter]
    apply List.Perm.of_eq
    apply List.filter_congr
    intro p hp
    by_cases hy : y ≤ (mem0 p).yMax
    · rw [(hfix p hp hy).1]
      by_cases h1 : (mem0 p).yMin < y <;> by_cases h2 : y < (mem0 p).yMax <;>
        simp [h1, h2, hy] <;> omega
    · have h2 : ¬ y < (mem0 p).yMax := by omega
      simp [hy, h2]
  have hr2 : et.filter (fun p => !(decide (p ∈ al) && decide ((mem p).yMax = y))) =
      table.filter (fun p => decide (y < (mem0 p).yMax)) := by
    rw [hET, List.filter_filter]
    apply List.filter_congr
    intro p hp
    by_cases hy : y ≤ (mem0 p).yMax
    · rw [(hfix p hp hy).1]
      have hd := hdy p hp
      have hiff := hmemAL p
      by_cases h2 : y < (mem0 p).yMax
      · have : (mem0 p).yMax ≠ y := by omega
        simp [h2, hy, this]
      · have he : (mem0 p).yMax = y := by omega
        have hin : p ∈ al := hiff.mpr ⟨hp, by omega, hy⟩
        simp [h2, hy, he, hin]
    · have h2 : ¬ y < (mem0 p).yMax := by omega
      simp [hy, h2]
  -- admit
  have had : (admitEdges mem y (table.filter (fun p => decide (y < (mem0 p).yMax)))
      (al.filter (fun p => decide ((mem p).yMax ≠ y)))).Perm
      (table.filter (fun p => activeAt y (mem0 p))) := by
    unfold admitEdges
    rw [List.filter_filter]
    refine (List.Perm.append hr1 (List.Perm.refl _)).trans ?_
    apply filter_split
    · intro p hp
      have hd := hdy p hp
      unfold activeAt
      by_cases hy : y < (mem0 p).yMax
      · rw [(hfix p hp (by omega)).2]
        by_cases h1 : (mem0 p).yMin < y
        · have : (mem0 p).yMin ≤ y := by omega
          have h3 : (mem0 p).yMin ≠ y := by omega
          simp [hy, h1, this, h3]
        · by_cases h3 : (mem0 p).yMin = y
          · simp [hy, h3]
          · have : ¬ (mem0 p).yMin ≤ y := by omega
            simp [hy, h1, this, h3]
      · simp [hy]
    · intro p hp
      by_cases hy : y < (mem0 p).yMax
      · rw [(hfix p hp (by omega)).2]
        simp only [decide_eq_true_eq, Bool.and_eq_true]
        omega
      · simp [hy]
  have hem : (emissionList ⟨mem, et, al, y, px⟩).Perm
      (table.filter (fun p => activeAt y (mem0 p))) := by
    unfold emissionList
    simp only [retire_eq, hr2]
    exact (listSort_perm _ _).trans had
  have hemdef : emissionList ⟨mem, et, al, y, px⟩ =
      listSort (xCompare mem) (admitEdges mem y (table.filter (fun p => decide (y < (mem0 p).yMax)))
        (al.filter (fun p => decide ((mem p).yMax ≠ y)))) := by
    unfold emissionList
    simp only [retire_eq, hr2]
  set A := table.filter (fun p => activeAt y (mem0 p)) with hA
  set E := emissionList ⟨mem, et, al, y, px⟩ with hE
  have hmemE : ∀ p, p ∈ E ↔ p ∈ table ∧ (mem0 p).yMin ≤ y ∧ y < (mem0 p).yMax := by
    intro p
    rw [hem.mem_iff, hA]
    simp [activeAt]
  have hEven : Even E.length := by
    rw [hem.length_eq]
    exact hw.even y
  have hEnodup : E.Nodup := hem.nodup_iff.mpr (hw.nodup.filter _)
  -- the x values at emission
  have hxs : E.map (fun p => (mem p).x) = crossings (table.map mem0) y := by
    rw [hemdef, listSort_x]
    unfold crossings
    apply insertionSort_congr
    refine (had.map _).trans ?_
    rw [List.filter_map, List.map_map]
    apply List.Perm.of_eq
    apply List.map_congr_left
    intro p hp
    have hp' := List.mem_filter.mp hp
    have hact : (mem0 p).yMin ≤ y ∧ y < (mem0 p).yMax := by
      simpa [activeAt] using hp'.2
    simp only [Function.comp]
    rw [hMem p hp'.1 (by omega)]
    exact stateAt_x_active _ _ hact.1
  -- advance
  have hadv : advanceAll fuel mem E =
      Result.ok (fun p => if p ∈ E then stepBucket (mem p) else mem p) := by
    apply advanceAll_eq _ _ _ hEnodup
    intro p hp
    obtain ⟨hpt, h1, h2⟩ := (hmemE p).mp hp
    obtain ⟨g1, g2, g3, g4⟩ := hw.good p hpt
    rw [hMem p hpt (by omega)]
    apply advanceEdge_eq
    · exact g1
    · exact g2
    · exact Int.emod_nonneg _ (by omega)
    · exact le_trans (stateAt_fuel _ _ g1 g2) (hfuel p hpt)
  refine ⟨hem, hxs, ⟨fun p => if p ∈ E then stepBucket (mem p) else mem p,
      table.filter (fun p => decide (y < (mem0 p).yMax)), E, y + 1,
      px ++ pairSpans (crossings (table.map mem0) y) y⟩, ?_, ?_, rfl, rfl⟩
  · unfold scanBody
    simp only [retire_eq, hr2]
    rw [← hemdef, fill_eq mem y E hEven, hadv, hxs]
  · refine ⟨?_, ?_, ?_⟩
    · simp only
      apply List.filter_congr
      intro p _
      simp only [decide_eq_decide]
      omega
    · simp only
      refine hem.trans (List.Perm.of_eq ?_)
      rw [hA]
      apply List.filter_congr
      intro p _
      simp only [activeAt, decide_eq_decide]
      omega
    · intro p hp hy
      simp only at hy ⊢
      obtain ⟨g1, g2, g3, g4⟩ := hw.good p hp
      by_cases hin : p ∈ E
      · obtain ⟨_, h1, h2⟩ := (hmemE p).mp hin
        rw [if_pos hin, hMem p hp (by omega), stepBucket_stateAt _ _ g1]
        congr 1
        omega
      · rw [if_neg hin, hMem p hp (by omega)]
        have : ¬ ((mem0 p).yMin ≤ y) := fun h => hin ((hmemE p).mpr ⟨hp, h, by omega⟩)
        congr 1
        omega


/-! ## The scan loop -/

theorem crossings_nil_of_le (L : List Bucket) (s : Int) (h : ∀ b ∈ L, b.yMax ≤ s) :
    crossings L s = [] := by
  unfold crossings
  have : L.filter (activeAt s) = [] := by
    rw [List.filter_eq_nil_iff]
    intro b hb
    have := h b hb
    simp only [activeAt, decide_eq_true_eq]
    omega
  rw [this]
  rfl

theorem rows_nil_of_le (L : List Bucket) : ∀ (d : Nat) (y0 : Int),
    (∀ b ∈ L, b.yMax ≤ y0) → rows L y0 d = []
  | 0, _, _ => rfl
  | d + 1, y0, h => by
    simp only [rows, crossings_nil_of_le L y0 h, pairSpans, List.nil_append]
    exact rows_nil_of_le L d (y0 + 1) (fun b hb => by have := h b hb; omega)

theorem rows_add (L : List Bucket) : ∀ (d k : Nat) (y0 : Int),
    (∀ b ∈ L, b.yMax ≤ y0 + d) → rows L y0 (d + k) = rows L y0 d
  | 0, k, y0, h => by
    simp only [Nat.zero_add, rows]
    exact rows_nil_of_le L k y0 (fun b hb => by have := h b hb; simpa using this)
  | d + 1, k, y0, h => by
    have e : d + 1 + k = (d + k) + 1 := by omega
    rw [e]
    simp only [rows]
    rw [rows_add L d k (y0 + 1) (fun b hb => by have := h b hb; push_cast at this; omega)]

theorem Inv.edgeTable_nil_iff {mem0 : Mem} {table : List Ptr} {s : Scan}
    (hinv : Inv mem0 table s) :
    s.edgeTable = [] ↔ ∀ p ∈ table, (mem0 p).yMax < s.scanLine := by
  rw [hinv.et, List.filter_eq_nil_iff]
  constructor
  · intro h p hp
    have := h p hp
    simp only [decide_eq_true_eq] at this
    omega
  · intro h p hp
    have := h p hp
    simp only [decide_eq_true_eq]
    omega

theorem isEmpty_eq_false_of_ne {l : List Ptr} (h : l ≠ []) : l.isEmpty = false := by
  cases l with
  | nil => exact absurd rfl h
  | cons a t => rfl

theorem scanLoop_run (mem0 : Mem) (table : List Ptr) (hw : WellFormed mem0 table)
    (inner : Nat) (hfuel : ∀ p ∈ table, (mem0 p).dX.toNat ≤ inner) :
    ∀ (d : Nat) (s : Scan), Inv mem0 table s →
      (∀ p ∈ table, (mem0 p).yMax < s.scanLine + d) → ∀ fuel, d ≤ fuel →
      ∃ s1, scanLoop inner fuel s = Result.ok s1 ∧
        s1.pixels = s.pixels ++ rows (table.map mem0) s.scanLine d ∧
        s1.edgeTable = [] ∧ Inv mem0 table s1 ∧
        (s.edgeTable ≠ [] → ∃ p ∈ table, s1.scanLine = (mem0 p).yMax + 1) := by
  intro d
  induction d with
  | zero =>
    intro s hinv hb fuel _
    have hnil : s.edgeTable = [] :=
      hinv.edgeTable_nil_iff.mpr (fun p hp => by have := hb p hp; simpa using this)
    refine ⟨s, ?_, by simp [rows], hnil, hinv, fun h => absurd hnil h⟩
    cases fuel <;> simp [scanLoop, hnil]
  | succ d ih =>
    intro s hinv hb fuel hf
    by_cases hnil : s.edgeTable = []
    · refine ⟨s, ?_, ?_, hnil, hinv, fun h => absurd hnil h⟩
      · cases fuel <;> simp [scanLoop, hnil]
      · rw [rows_nil_of_le]
        · simp
        · intro b hbm
          obtain ⟨p, hp, rfl⟩ := List.mem_map.mp hbm
          have := hinv.edgeTable_nil_iff.mp hnil p hp
          omega
    · obtain ⟨f, rfl⟩ : ∃ f, fuel = f + 1 := ⟨fuel - 1, by omega⟩
      obtain ⟨_, _, s1, hbody, hinv1, hy1, hpx1⟩ := scanBody_step mem0 table hw inner hfuel s hinv
      have hb1 : ∀ p ∈ table, (mem0 p).yMax < s1.scanLine + d := by
        intro p hp
        have := hb p hp
        rw [hy1]
        push_cast at this
        omega
      obtain ⟨s2, hrun, hpx2, hnil2, hinv2, hlast⟩ := ih s1 hinv1 hb1 f (by omega)
      refine ⟨s2, ?_, ?_, hnil2, hinv2, ?_⟩
      · simp only [scanLoop, isEmpty_eq_false_of_ne hnil, Bool.false_eq_true, if_false, hbody]
        exact hrun
      · rw [hpx2, hpx1, hy1]
        simp [rows]
      · intro _
        by_cases hnil1 : s1.edgeTable = []
        · have hs2 : s2 = s1 := by
            have : scanLoop inner f s1 = Result.ok s1 := by
              cases f <;> simp [scanLoop, hnil1]
            rw [this] at hrun
            exact (Result.ok.inj hrun).symm
          have hall := hinv1.edgeTable_nil_iff.mp hnil1
          have hex : ∃ p ∈ table, s.scanLine ≤ (mem0 p).yMax := by
            by_contra hc
            push_neg at hc
            exact hnil (hinv.edgeTable_nil_iff.mpr hc)
          obtain ⟨p, hp, hle⟩ := hex
          refine ⟨p, hp, ?_⟩
          have := hall p hp
          rw [hs2, hy1]
          rw [hy1] at this
          omega
        · exact hlast hnil1

theorem scanStart_inv (mem0 : Mem) (table : List Ptr) (front : Ptr)
    (hw : WellFormed mem0 table)
    (hmin : ∀ p ∈ table, (mem0 front).yMin ≤ (mem0 p).yMin) :
    Inv mem0 table (scanStart mem0 table front) := by
  have hdy : ∀ p ∈ table, (mem0 p).yMin < (mem0 p).yMax := by
    intro p hp
    obtain ⟨h1, _, h3, _⟩ := hw.good p hp
    omega
  refine ⟨?_, ?_, ?_⟩
  · simp only [scanStart]
    symm
    rw [List.filter_eq_self]
    intro p hp
    have := hmin p hp
    have := hdy p hp
    simp only [decide_eq_true_eq]
    omega
  · simp only [scanStart]
    have : table.filter (fun p => decide ((mem0 p).yMin < (mem0 front).yMin ∧
        (mem0 front).yMin ≤ (mem0 p).yMax)) = [] := by
      rw [List.filter_eq_nil_iff]
      intro p hp
      have := hmin p hp
      simp only [decide_eq_true_eq]
      omega
    rw [this]
  · intro p hp _
    simp only [scanStart]
    have := hmin p hp
    have h0 : ((mem0 front).yMin - (mem0 p).yMin).toNat = 0 := by omega
    rw [h0, stateAt_zero _ (hw.good p hp).2.2.2]

theorem processEdgeTable_run (mem0 : Mem) (front : Ptr) (rest : List Ptr)
    (hw : WellFormed mem0 (front :: rest))
    (hmin : ∀ p ∈ front :: rest, (mem0 front).yMin ≤ (mem0 p).yMin)
    (fuel : Nat) (hfuel : ∀ p ∈ front :: rest, (mem0 p).dX.toNat ≤ fuel)
    (d : Nat) (hd : ∀ p ∈ front :: rest, (mem0 p).yMax < (mem0 front).yMin + d)
    (hdf : d ≤ fuel) :
    ∃ s1, processEdgeTable fuel mem0 (front :: rest) = Result.ok s1 ∧
      s1.pixels = rows ((front :: rest).map mem0) (mem0 front).yMin d ∧
      ∃ p ∈ front :: rest, s1.scanLine = (mem0 p).yMax + 1 ∧
        ∀ q ∈ front :: rest, (mem0 q).yMax ≤ (mem0 p).yMax := by
  have hinv := scanStart_inv mem0 (front :: rest) front hw hmin
  obtain ⟨s1, hrun, hpx, hnil, hinv1, hlast⟩ :=
    scanLoop_run mem0 (front :: rest) hw fuel hfuel d _ hinv hd fuel hdf
  refine ⟨s1, hrun, by simpa [scanStart] using hpx, ?_⟩
  obtain ⟨p, hp, hsc⟩ := hlast (by simp [scanStart])
  refine ⟨p, hp, hsc, ?_⟩
  intro q hq
  have := hinv1.edgeTable_nil_iff.mp hnil q hq
  omega

theorem scanIterate_inv (mem0 : Mem) (table : List Ptr) (hw : WellFormed mem0 table)
    (inner : Nat) (hfuel : ∀ p ∈ table, (mem0 p).dX.toNat ≤ inner) :
    ∀ (k : Nat) (s s1 : Scan), Inv mem0 table s → scanIterate inner k s = Result.ok s1 →
      Inv mem0 table s1
  | 0, s, s1, hinv, h => by
    simp only [scanIterate] at h
    rw [← Result.ok.inj h]; exact hinv
  | k + 1, s, s1, hinv, h => by
    by_cases hnil : s.edgeTable = []
    · simp only [scanIterate, hnil, List.isEmpty_nil, if_true] at h
      rw [← Result.ok.inj h]; exact hinv
    · obtain ⟨_, _, s2, hbody, hinv2, _, _⟩ := scanBody_step mem0 table hw inner hfuel s hinv
      simp only [scanIterate, isEmpty_eq_false_of_ne hnil, Bool.false_eq_true, if_false,
        hbody] at h
      exact scanIterate_inv mem0 table hw inner hfuel k s2 s1 hinv2 h


/-! ## The edge table `createEdges` builds -/

theorem createEdgesLoop_records (x y : Nat → Int) : ∀ (k i s : Nat) (e : Edges),
    (∀ p ∈ e.edgeTable, p < e.next) → e.edgeTable.Nodup →
    (∀ p ∈ (createEdgesLoop x y k i s e).edgeTable, p < (createEdgesLoop x y k i s e).next) ∧
    (createEdgesLoop x y k i s e).edgeTable.Nodup ∧
    (createEdgesLoop x y k i s e).edgeTable.map (createEdgesLoop x y k i s e).mem =
      e.edgeTable.map e.mem ++
        edgesFrom (vertexAt x y s) ((List.range' i k).map (vertexAt x y))
  | 0, i, s, e, h1, h2 => by simp [createEdgesLoop, edgesFrom, h2]; exact h1
  | k + 1, i, s, e, h1, h2 => by
    cases hb : makeBucket ⟨x s, y s⟩ ⟨x i, y i⟩ with
    | none =>
      have ih := createEdgesLoop_records x y k (i + 1) i e h1 h2
      simp only [createEdgesLoop, hb, List.range'_succ, List.map_cons, edgesFrom, vertexAt,
        Option.toList, List.nil_append]
      exact ih
    | some b =>
      have h1' : ∀ p ∈ e.edgeTable ++ [e.next], p < e.next + 1 := by
        intro p hp
        rcases List.mem_append.mp hp with h | h
        · exact Nat.lt_succ_of_lt (h1 p h)
        · simp only [List.mem_singleton] at h; rw [h]; exact Nat.lt_succ_self _
      have h2' : (e.edgeTable ++ [e.next]).Nodup := by
        rw [List.nodup_append]
        refine ⟨h2, List.nodup_singleton _, ?_⟩
        intro a ha hb'
        simp only [List.mem_singleton] at hb'
        have := h1 a ha
        rw [hb'] at this
        exact absurd this (Nat.lt_irrefl _)
      have ih := createEdgesLoop_records x y k (i + 1) i
        { mem := Function.update e.mem e.next b, next := e.next + 1,
          edgeTable := e.edgeTable ++ [e.next] } h1' h2'
      simp only [createEdgesLoop, hb, List.range'_succ, List.map_cons, edgesFrom, vertexAt,
        Option.toList]
      refine ⟨ih.1, ih.2.1, ?_⟩
      rw [ih.2.2]
      simp only [List.map_append, List.map_cons, List.map_nil, Function.update_same,
        List.append_assoc, List.singleton_append, vertexAt]
      congr 1
      apply List.map_congr_left
      intro p hp
      have := h1 p hp
      rw [Function.update_noteq (Nat.ne_of_lt this)]

theorem edgeRecords_eq (n : Nat) (x y : Nat → Int) :
    edgeRecords n x y =
      edgesFrom (vertexAt x y (n - 1)) ((List.range n).map (vertexAt x y)) := by
  unfold edgeRecords createEdges
  have h := createEdgesLoop_records x y n 0 (n - 1)
    { mem := fun _ => default, next := 0, edgeTable := [] } (by simp) (by simp)
  rw [h.2.2, List.range_eq_range']
  simp

theorem createEdges_nodup (n : Nat) (x y : Nat → Int) :
    (createEdges n x y).edgeTable.Nodup := by
  unfold createEdges
  exact (createEdgesLoop_records x y n 0 (n - 1)
    { mem := fun _ => default, next := 0, edgeTable := [] } (by simp) (by simp)).2.1

theorem makeBucket_none_iff (a b : Vertex) : makeBucket a b = none ↔ a.y = b.y := by
  unfold makeBucket
  by_cases hx : b.x < a.x <;> simp [hx] <;> omega

theorem makeBucket_good (a b : Vertex) (bk : Bucket) (h : makeBucket a b = some bk) :
    bk.Good := by
  unfold makeBucket at h
  have e1 := Int.natAbs_eq (a.y - b.y)
  have e2 := Int.natAbs_eq (b.y - a.y)
  have e3 := Int.ofNat_nonneg (a.x - b.x).natAbs
  have e4 := Int.ofNat_nonneg (b.x - a.x).natAbs
  by_cases hx : b.x < a.x
  · simp only [hx, if_true] at h
    split at h
    · cases h
      refine ⟨?_, ?_, ?_, rfl⟩ <;> simp only <;> (try split_ifs) <;> omega
    · cases h
  · simp only [hx, if_false] at h
    split at h
    · cases h
      refine ⟨?_, ?_, ?_, rfl⟩ <;> simp only <;> (try split_ifs) <;> omega
    · cases h

theorem makeBucket_active (a b : Vertex) (bk : Bucket) (s : Int)
    (h : makeBucket a b = some bk) :
    activeAt s bk = xor (decide (a.y ≤ s)) (decide (b.y ≤ s)) := by
  unfold makeBucket at h
  by_cases hx : b.x < a.x
  · simp only [hx, if_true] at h
    split at h
    · cases h
      unfold activeAt
      simp only
      by_cases h1 : a.y ≤ s <;> by_cases h2 : b.y ≤ s <;> simp [h1, h2] <;>
        split_ifs <;> omega
    · cases h
  · simp only [hx, if_false] at h
    split at h
    · cases h
      unfold activeAt
      simp only
      by_cases h1 : a.y ≤ s <;> by_cases h2 : b.y ≤ s <;> simp [h1, h2] <;>
        split_ifs <;> omega
    · cases h

theorem edgesFrom_good : ∀ (V : List Vertex) (prev : Vertex), ∀ bk ∈ edgesFrom prev V, bk.Good
  | [], _, bk, h => by simp [edgesFrom] at h
  | v :: rest, prev, bk, h => by
    simp only [edgesFrom, List.mem_append] at h
    rcases h with h | h
    · cases hm : makeBucket prev v with
      | none => simp [hm] at h
      | some b0 =>
        simp only [hm, Option.toList, List.mem_singleton] at h
        rw [h]; exact makeBucket_good _ _ _ hm
    · exact edgesFrom_good rest v bk h

theorem edgesFrom_parity (s : Int) : ∀ (V : List Vertex) (prev : Vertex),
    ((edgesFrom prev V).countP (activeAt s) +
      (if xor (decide (prev.y ≤ s)) (decide ((V.getLastD prev).y ≤ s)) then 1 else 0)) % 2 = 0
  | [], prev => by simp [edgesFrom]
  | v :: rest, prev => by
    have ih := edgesFrom_parity s rest v
    have hl : (v :: rest).getLastD prev = rest.getLastD v := by
      cases rest <;> simp [List.getLastD]
    rw [hl]
    simp only [edgesFrom, List.countP_append]
    have hfirst : (makeBucket prev v).toList.countP (activeAt s) =
        if xor (decide (prev.y ≤ s)) (decide (v.y ≤ s)) then 1 else 0 := by
      cases hm : makeBucket prev v with
      | none =>
        have := (makeBucket_none_iff prev v).mp hm
        simp [Option.toList, this]
      | some b0 =>
        simp only [Option.toList, List.countP_cons, List.countP_nil, Nat.zero_add,
          makeBucket_active _ _ _ s hm]
    rw [hfirst]
    generalize (edgesFrom v rest).countP (activeAt s) = c at ih ⊢
    generalize decide (prev.y ≤ s) = p0 at ih ⊢
    generalize decide (v.y ≤ s) = p1 at ih ⊢
    generalize decide ((rest.getLastD v).y ≤ s) = p2 at ih ⊢
    cases p0 <;> cases p1 <;> cases p2 <;> simp at ih ⊢ <;> omega

theorem getLastD_range_map (f : Nat → Vertex) (n : Nat) (d : Vertex) (hn : 1 ≤ n) :
    ((List.range n).map f).getLastD d = f (n - 1) := by
  obtain ⟨m, rfl⟩ : ∃ m, n = m + 1 := ⟨n - 1, by omega⟩
  rw [List.range_succ, List.map_append]
  simp [List.getLastD_concat]

theorem edgeRecords_even (n : Nat) (x y : Nat → Int) (s : Int) :
    Even ((edgeRecords n x y).countP (activeAt s)) := by
  rw [edgeRecords_eq]
  by_cases hn : 1 ≤ n
  · have h := edgesFrom_parity s ((List.range n).map (vertexAt x y)) (vertexAt x y (n - 1))
    rw [getLastD_range_map _ _ _ hn] at h
    simp only [Bool.xor_self, Bool.false_eq_true, if_false, Nat.add_zero] at h
    exact Nat.even_iff.mpr h
  · have : n = 0 := by omega
    subst this
    simp [edgesFrom]

theorem edgeRecords_good (n : Nat) (x y : Nat → Int) :
    ∀ bk ∈ edgeRecords n x y, bk.Good := by
  rw [edgeRecords_eq]
  exact edgesFrom_good _ _

theorem edgesFrom_nil_flat (x y : Nat → Int) : ∀ (k i s : Nat),
    edgesFrom (vertexAt x y s) ((List.range' i k).map (vertexAt x y)) = [] →
    ∀ j, i ≤ j → j < i + k → y (if j = i then s else j - 1) = y j
  | 0, i, s, _, j, h1, h2 => by omega
  | k + 1, i, s, h, j, h1, h2 => by
    simp only [List.range'_succ, List.map_cons, edgesFrom, List.append_eq_nil] at h
    by_cases hj : j = i
    · subst hj
      simp only [if_true]
      have : makeBucket (vertexAt x y s) (vertexAt x y j) = none := by
        cases hm : makeBucket (vertexAt x y s) (vertexAt x y j) with
        | none => rfl
        | some b0 => rw [hm] at h; simp [Option.toList] at h
      exact (makeBucket_none_iff _ _).mp this
    · have ih := edgesFrom_nil_flat x y k (i + 1) i h.2 j (by omega) (by omega)
      rw [if_neg hj]
      by_cases hj1 : j = i + 1
      · subst hj1; simpa using ih
      · rw [if_neg hj1] at ih; exact ih

theorem edgeRecords_ne_nil (n : Nat) (x y : Nat → Int) (h : hasSlantedEdge n y) :
    edgeRecords n x y ≠ [] := by
  intro hnil
  rw [edgeRecords_eq, List.range_eq_range'] at hnil
  obtain ⟨i, hi, hne⟩ := h
  have := edgesFrom_nil_flat x y n 0 (n - 1) hnil i (by omega) (by omega)
  exact hne this


/-! ## `drawPolygon` -/

theorem yLow_le : ∀ (L : List Bucket), ∀ b ∈ L, yLow L ≤ b.yMin
  | [], b, h => by simp at h
  | [a], b, h => by simp at h; simp [yLow, h]
  | a :: c :: l, b, h => by
    have ih := yLow_le (c :: l)
    simp only [yLow]
    rcases List.mem_cons.mp h with e | e
    · rw [e]; exact min_le_left _ _
    · exact le_trans (min_le_right _ _) (ih b e)

theorem yLow_mem : ∀ (L : List Bucket), L ≠ [] → ∃ b ∈ L, b.yMin = yLow L
  | [], h => absurd rfl h
  | [a], _ => ⟨a, by simp, by simp [yLow]⟩
  | a :: c :: l, _ => by
    obtain ⟨b, hb, he⟩ := yLow_mem (c :: l) (by simp)
    simp only [yLow]
    by_cases hm : a.yMin ≤ yLow (c :: l)
    · exact ⟨a, by simp, by rw [min_eq_left hm]⟩
    · exact ⟨b, List.mem_cons_of_mem _ hb, by rw [min_eq_right (by omega)]; exact he⟩

theorem le_yHigh : ∀ (L : List Bucket), ∀ b ∈ L, b.yMax ≤ yHigh L
  | [], b, h => by simp at h
  | [a], b, h => by simp at h; simp [yHigh, h]
  | a :: c :: l, b, h => by
    have ih := le_yHigh (c :: l)
    simp only [yHigh]
    rcases List.mem_cons.mp h with e | e
    · rw [e]; exact le_max_left _ _
    · exact le_trans (ih b e) (le_max_right _ _)

theorem yHigh_mem : ∀ (L : List Bucket), L ≠ [] → ∃ b ∈ L, b.yMax = yHigh L
  | [], h => absurd rfl h
  | [a], _ => ⟨a, by simp, by simp [yHigh]⟩
  | a :: c :: l, _ => by
    obtain ⟨b, hb, he⟩ := yHigh_mem (c :: l) (by simp)
    simp only [yHigh]
    by_cases hm : yHigh (c :: l) ≤ a.yMax
    · exact ⟨a, by simp, by rw [max_eq_left hm]⟩
    · exact ⟨b, List.mem_cons_of_mem _ hb, by rw [max_eq_right (by omega)]; exact he⟩

theorem rows_congr {L1 L2 : List Bucket} (h : L1.Perm L2) : ∀ (d : Nat) (y0 : Int),
    rows L1 y0 d = rows L2 y0 d
  | 0, _ => rfl
  | d + 1, y0 => by simp only [rows, crossings_congr h, rows_congr h d (y0 + 1)]

theorem dX_le_fuelFor (L : List Bucket) (b : Bucket) (hb : b ∈ L) :
    b.dX.toNat ≤ fuelFor L := by
  have h1 : b.dX.toNat ≤ (L.map (fun b => b.dX.toNat)).sum :=
    List.single_le_sum (fun _ _ => Nat.zero_le _) _ (List.mem_map_of_mem _ hb)
  unfold fuelFor
  omega

theorem sortedTable_perm (n : Nat) (x y : Nat → Int) :
    ((listSort (minYCompare (createEdges n x y).mem) (createEdges n x y).edgeTable).map
      (createEdges n x y).mem).Perm (edgeRecords n x y) :=
  (listSort_perm _ _).map _

theorem sortedTable_wellFormed (n : Nat) (x y : Nat → Int) :
    WellFormed (createEdges n x y).mem
      (listSort (minYCompare (createEdges n x y).mem) (createEdges n x y).edgeTable) := by
  refine ⟨?_, ?_, ?_⟩
  · exact (listSort_perm _ _).nodup_iff.mpr (createEdges_nodup n x y)
  · intro p hp
    apply edgeRecords_good n x y
    exact List.mem_map_of_mem _ ((listSort_perm _ _).mem_iff.mp hp)
  · intro s
    rw [← List.countP_eq_length_filter, (listSort_perm _ _).countP_eq]
    have := edgeRecords_even n x y s
    unfold edgeRecords at this
    rw [List.countP_map] at this
    exact this

theorem drawPolygon_painting (n : Nat) (x y : Nat → Int) (h : hasSlantedEdge n y)
    (fuel : Nat) (hf : fuelFor (edgeRecords n x y) ≤ fuel) :
    drawPolygon fuel n x y = Result.ok (painting (edgeRecords n x y)) := by
  have hne := edgeRecords_ne_nil n x y h
  have hperm := sortedTable_perm n x y
  have hw := sortedTable_wellFormed n x y
  unfold drawPolygon
  simp only
  generalize hL : edgeRecords n x y = L at hne hperm hf
  generalize hm : (createEdges n x y).mem = mem0 at hperm hw
  generalize ht : listSort (minYCompare mem0) (createEdges n x y).edgeTable = table at hperm hw
  cases table with
  | nil =>
    have := hperm.length_eq
    simp only [List.map_nil, List.length_nil] at this
    exact absurd (List.length_eq_zero.mp this.symm) hne
  | cons front rest =>
    have hmin := listSort_minY_head mem0 _ front rest ht
    have hmin2 : ∀ p ∈ front :: rest, (mem0 front).yMin ≤ (mem0 p).yMin := by
      intro p hp
      apply hmin
      rw [← ht] at hp
      exact (listSort_perm _ _).mem_iff.mp hp
    have hinL : ∀ p ∈ front :: rest, mem0 p ∈ L :=
      fun p hp => hperm.mem_iff.mp (List.mem_map_of_mem _ hp)
    have hlow : (mem0 front).yMin = yLow L := by
      apply le_antisymm
      · obtain ⟨b, hb, he⟩ := yLow_mem L hne
        obtain ⟨p, hp, hpb⟩ := List.mem_map.mp (hperm.mem_iff.mpr hb)
        rw [← he, ← hpb]
        exact hmin2 p hp
      · exact yLow_le L _ (hinL front (by simp))
    have hhi : yLow L ≤ yHigh L := by
      have h1 := yLow_le L _ (hinL front (by simp))
      have h2 := le_yHigh L _ (hinL front (by simp))
      have h3 := (hw.good front (by simp))
      obtain ⟨g1, _, g3, _⟩ := h3
      omega
    obtain ⟨s1, hrun, hpx, _⟩ := processEdgeTable_run mem0 front rest hw hmin2 fuel
      (fun p hp => le_trans (dX_le_fuelFor L _ (hinL p hp)) hf)
      ((yHigh L - yLow L).toNat + 1)
      (fun p hp => by
        have := le_yHigh L _ (hinL p hp)
        rw [hlow]; push_cast; omega)
      (by unfold fuelFor at hf; omega)
    rw [hrun]
    simp only [hpx]
    congr 1
    rw [rows_congr hperm, hlow, rows_add]
    · rfl
    · intro b hb
      have := le_yHigh L b hb
      omega


/-! ## The painted set -/

theorem mem_painting_iff_odd (L : List Bucket)
    (heven : ∀ s : Int, Even (L.countP (activeAt s))) (a b : Int) :
    (a, b) ∈ painting L ↔ Odd (countAtOrLeft L a b) := by
  have hev : Even (crossings L b).length := by
    rw [crossings_length, ← List.countP_eq_length_filter]
    exact heven b
  unfold painting
  rw [mem_rows, mem_pairSpans _ _ _ _ (crossings_sorted L b) hev, countP_crossings]
  constructor
  · rintro ⟨_, _, _, h⟩
    exact h
  · intro h
    have hpos : 0 < countAtOrLeft L a b := by
      rcases h with ⟨r, hr⟩
      omega
    unfold countAtOrLeft at hpos
    obtain ⟨e, he, hact⟩ := List.countP_pos_iff.mp hpos
    simp only [activeAt, Bool.and_eq_true, decide_eq_true_eq] at hact
    have h1 := yLow_le L e he
    have h2 := le_yHigh L e he
    exact ⟨by omega, by omega, rfl, h⟩

theorem rowMajorLt_irrefl (p : Pixel) : ¬ rowMajorLt p p := by
  unfold rowMajorLt
  omega

theorem painting_pairwise (L : List Bucket) : (painting L).Pairwise rowMajorLt :=
  rows_pairwise L _ _

theorem painting_nodup (L : List Bucket) : (painting L).Nodup := by
  unfold List.Nodup
  refine (painting_pairwise L).imp ?_
  intro p q h e
  rw [e] at h
  exact rowMajorLt_irrefl q h

/-- C4 (the code at the failing inputs): with `n = 0`, `n = 1` and with the
three collinear vertices `x = [0,4,2]`, `y = [0,0,0]` the edge table is empty
and `processEdgeTable` reads `edgeTable.front()` of the empty list, whatever
the fuel. -/
theorem C4_front_of_empty_table (fuel : Nat) (x y : Nat → Int) :
    (createEdges 0 x y).edgeTable = [] ∧
    drawPolygon fuel 0 x y = Result.undefined ∧
    (createEdges 1 x y).edgeTable = [] ∧
    drawPolygon fuel 1 x y = Result.undefined ∧
    (createEdges 3 (arr [0, 4, 2]) (arr [0, 0, 0])).edgeTable = [] ∧
    drawPolygon fuel 3 (arr [0, 4, 2]) (arr [0, 0, 0]) = Result.undefined := by
  have h1 : makeBucket ⟨x 0, y 0⟩ ⟨x 0, y 0⟩ = none := (makeBucket_none_iff _ _).mpr rfl
  refine ⟨rfl, rfl, ?_, ?_, by decide, ?_⟩
  · simp [createEdges, createEdgesLoop, h1]
  · simp [drawPolygon, createEdges, createEdgesLoop, h1, listSort, processEdgeTable]
  · have : (createEdges 3 (arr [0, 4, 2]) (arr [0, 0, 0])).edgeTable = [] := by decide
    simp [drawPolygon, this, listSort, processEdgeTable]

theorem foldr_min_le (l : List Int) (d : Int) :
    l.foldr min d ≤ d ∧ ∀ v ∈ l, l.foldr min d ≤ v := by
  induction l with
  | nil => simp
  | cons a t ih =>
    simp only [List.foldr_cons, List.mem_cons, forall_eq_or_imp]
    refine ⟨le_trans (min_le_right _ _) ih.1, min_le_left _ _, ?_⟩
    intro v hv
    exact le_trans (min_le_right _ _) (ih.2 v hv)

theorem le_foldr_max (l : List Int) (d : Int) :
    d ≤ l.foldr max d ∧ ∀ v ∈ l, v ≤ l.foldr max d := by
  induction l with
  | nil => simp
  | cons a t ih =>
    simp only [List.foldr_cons, List.mem_cons, forall_eq_or_imp]
    refine ⟨le_trans ih.1 (le_max_right _ _), le_max_left _ _, ?_⟩
    intro v hv
    exact le_trans (ih.2 v hv) (le_max_right _ _)

theorem polyYMin_le (n : Nat) (y : Nat → Int) (i : Nat) (hi : i < n) : polyYMin n y ≤ y i :=
  (foldr_min_le _ _).2 _ (List.mem_map_of_mem _ (List.mem_range.mpr hi))

theorem le_polyYMax (n : Nat) (y : Nat → Int) (i : Nat) (hi : i < n) : y i ≤ polyYMax n y :=
  (le_foldr_max _ _).2 _ (List.mem_map_of_mem _ (List.mem_range.mpr hi))

theorem makeBucket_bounds (a b : Vertex) (bk : Bucket) (lo hi : Int)
    (h : makeBucket a b = some bk) (ha : lo ≤ a.y ∧ a.y ≤ hi) (hb : lo ≤ b.y ∧ b.y ≤ hi) :
    lo ≤ bk.yMin ∧ bk.yMax ≤ hi := by
  unfold makeBucket at h
  by_cases hx : b.x < a.x
  · simp only [hx, if_true] at h
    split at h
    · cases h
      constructor <;> simp only <;> split_ifs <;> omega
    · cases h
  · simp only [hx, if_false] at h
    split at h
    · cases h
      constructor <;> simp only <;> split_ifs <;> omega
    · cases h

theorem edgesFrom_bounds (lo hi : Int) : ∀ (V : List Vertex) (prev : Vertex),
    (lo ≤ prev.y ∧ prev.y ≤ hi) → (∀ v ∈ V, lo ≤ v.y ∧ v.y ≤ hi) →
    ∀ bk ∈ edgesFrom prev V, lo ≤ bk.yMin ∧ bk.yMax ≤ hi
  | [], _, _, _, bk, h => by simp [edgesFrom] at h
  | v :: rest, prev, hp, hV, bk, h => by
    simp only [edgesFrom, List.mem_append] at h
    have hv := hV v (List.mem_cons_self _ _)
    rcases h with h | h
    · cases hm : makeBucket prev v with
      | none => simp [hm] at h
      | some b0 =>
        simp only [hm, Option.toList, List.mem_singleton] at h
        rw [h]; exact makeBucket_bounds _ _ _ lo hi hm hp hv
    · exact edgesFrom_bounds lo hi rest v hv
        (fun u hu => hV u (List.mem_cons_of_mem _ hu)) bk h

theorem edgeRecords_bounds (n : Nat) (x y : Nat → Int) :
    ∀ bk ∈ edgeRecords n x y, polyYMin n y ≤ bk.yMin ∧ bk.yMax ≤ polyYMax n y := by
  intro bk hbk
  rw [edgeRecords_eq] at hbk
  have hn : 1 ≤ n := by
    by_contra hc
    have : n = 0 := by omega
    subst this
    simp [edgesFrom] at hbk
  apply edgesFrom_bounds _ _ _ _ _ _ bk hbk
  · exact ⟨polyYMin_le n y (n - 1) (by omega), le_polyYMax n y (n - 1) (by omega)⟩
  · intro v hv
    obtain ⟨i, hi, rfl⟩ := List.mem_map.mp hv
    have hi' := List.mem_range.mp hi
    exact ⟨polyYMin_le n y i hi', le_polyYMax n y i hi'⟩

/-- On unbounded integers: for an input with a non-horizontal edge and enough fuel,
the painted set is exactly the set of `(a, b)` with
`y_min(P) ≤ b < y_max(P)` for which an odd number of edge records on row `b`
have their tracked x at or to the left of `a` (tracked x `≤ a`). -/
theorem painted_set_at_or_left (n : Nat) (x y : Nat → Int)
    (h : hasSlantedEdge n y) (fuel : Nat) (hf : fuelFor (edgeRecords n x y) ≤ fuel) :
    ∃ px, drawPolygon fuel n x y = Result.ok px ∧
      ∀ a b, (a, b) ∈ px ↔
        (polyYMin n y ≤ b ∧ b < polyYMax n y ∧
          Odd (countAtOrLeft (edgeRecords n x y) a b)) := by
  refine ⟨painting (edgeRecords n x y), drawPolygon_painting n x y h fuel hf, ?_⟩
  intro a b
  rw [mem_painting_iff_odd _ (edgeRecords_even n x y)]
  constructor
  · intro hodd
    have hpos : 0 < countAtOrLeft (edgeRecords n x y) a b := by
      rcases hodd with ⟨r, hr⟩
      omega
    unfold countAtOrLeft at hpos
    obtain ⟨e, he, hact⟩ := List.countP_pos_iff.mp hpos
    simp only [activeAt, Bool.and_eq_true, decide_eq_true_eq] at hact
    have := edgeRecords_bounds n x y e he
    exact ⟨by omega, by omega, hodd⟩
  · exact fun h => h.2.2

/-! ## Translation -/

theorem makeBucket_shift (dx dy : Int) (a b : Vertex) :
    makeBucket ⟨a.x + dx, a.y + dy⟩ ⟨b.x + dx, b.y + dy⟩ =
      (makeBucket a b).map (shiftBucket dx dy) := by
  unfold makeBucket shiftBucket
  have e1 : b.x + dx < a.x + dx ↔ b.x < a.x := by omega
  by_cases hx : b.x < a.x
  · have hx' : b.x + dx < a.x + dx := e1.mpr hx
    simp only [hx, hx', if_true]
    have ey : a.y + dy - (b.y + dy) = a.y - b.y := by ring
    have ex : a.x + dx - (b.x + dx) = a.x - b.x := by ring
    rw [ey, ex]
    by_cases hd : ((a.y - b.y).natAbs : Int) ≠ 0
    · simp only [hd, if_true, Option.map_some', ne_eq, not_false_eq_true]
      congr 1
      by_cases h1 : b.y > a.y <;> by_cases h2 : b.y < a.y <;>
        simp [h1, h2]
    · simp only [hd, if_false, Option.map_none']
  · have hx' : ¬ b.x + dx < a.x + dx := fun h => hx (e1.mp h)
    simp only [hx, hx', if_false]
    have ey : b.y + dy - (a.y + dy) = b.y - a.y := by ring
    have ex : b.x + dx - (a.x + dx) = b.x - a.x := by ring
    rw [ey, ex]
    by_cases hd : ((b.y - a.y).natAbs : Int) ≠ 0
    · simp only [hd, if_true, Option.map_some', ne_eq, not_false_eq_true]
      congr 1
      by_cases h1 : a.y > b.y <;> by_cases h2 : a.y < b.y <;>
        simp [h1, h2]
    · simp only [hd, if_false, Option.map_none']

theorem edgesFrom_shift (dx dy : Int) : ∀ (V : List Vertex) (prev : Vertex),
    edgesFrom ⟨prev.x + dx, prev.y + dy⟩ (V.map (fun v => ⟨v.x + dx, v.y + dy⟩)) =
      (edgesFrom prev V).map (shiftBucket dx dy)
  | [], _ => rfl
  | v :: rest, prev => by
    simp only [List.map_cons, edgesFrom, List.map_append, makeBucket_shift,
      edgesFrom_shift dx dy rest v]
    cases makeBucket prev v <;> rfl

theorem edgeRecords_shift (dx dy : Int) (n : Nat) (x y : Nat → Int) :
    edgeRecords n (fun i => x i + dx) (fun i => y i + dy) =
      (edgeRecords n x y).map (shiftBucket dx dy) := by
  rw [edgeRecords_eq, edgeRecords_eq, ← edgesFrom_shift]
  simp only [List.map_map]
  rfl

theorem hasSlantedEdge_shift (dy : Int) (n : Nat) (y : Nat → Int) (h : hasSlantedEdge n y) :
    hasSlantedEdge n (fun i => y i + dy) := by
  obtain ⟨i, hi, hne⟩ := h
  exact ⟨i, hi, fun e => hne (by simpa using e)⟩

theorem activeAt_shift (dx dy s : Int) (e : Bucket) :
    activeAt (s + dy) (shiftBucket dx dy e) = activeAt s e := by
  simp only [activeAt, shiftBucket, decide_eq_decide]
  omega

theorem trackedX_shift (dx dy s : Int) (e : Bucket) :
    trackedX (s + dy) (shiftBucket dx dy e) = trackedX s e + dx := by
  simp only [trackedX, shiftBucket]
  have : s + dy - (e.yMin + dy) = s - e.yMin := by ring
  rw [this]
  ring

theorem crossings_shift (dx dy s : Int) (L : List Bucket) :
    crossings (L.map (shiftBucket dx dy)) (s + dy) = (crossings L s).map (fun c => c + dx) := by
  symm
  unfold crossings
  apply sorted_perm_eq
  · refine ((List.perm_insertionSort _ _).map _).trans (List.Perm.of_eq ?_)
    rw [List.filter_map, List.map_map, List.map_map]
    have hf : (activeAt (s + dy) ∘ shiftBucket dx dy) = activeAt s := by
      funext e; exact activeAt_shift dx dy s e
    rw [hf]
    apply List.map_congr_left
    intro e _
    simp only [Function.comp, trackedX_shift]
  · have hs := crossings_sorted L s
    unfold crossings at hs
    unfold List.Sorted at *
    rw [List.pairwise_map]
    refine hs.imp ?_
    intro a b hab
    omega

theorem span_shift (dx dy a b s : Int) :
    span (a + dx) (b + dx) (s + dy) = (span a b s).map (shiftPixel dx dy) := by
  unfold span
  have : b + dx - (a + dx) = b - a := by ring
  rw [this, List.map_map]
  apply List.map_congr_left
  intro k _
  simp only [Function.comp, shiftPixel, Prod.mk.injEq, and_true]
  ring

theorem pairSpans_shift (dx dy s : Int) : ∀ (l : List Int),
    pairSpans (l.map (fun c => c + dx)) (s + dy) = (pairSpans l s).map (shiftPixel dx dy)
  | [] => rfl
  | [_] => rfl
  | a :: b :: l => by
    simp only [List.map_cons, pairSpans, span_shift, List.map_append]
    rw [← pairSpans_shift dx dy s l]

theorem rows_shift (dx dy : Int) (L : List Bucket) : ∀ (d : Nat) (y0 : Int),
    rows (L.map (shiftBucket dx dy)) (y0 + dy) d = (rows L y0 d).map (shiftPixel dx dy)
  | 0, _ => rfl
  | d + 1, y0 => by
    simp only [rows, crossings_shift, pairSpans_shift, List.map_append]
    have : y0 + dy + 1 = (y0 + 1) + dy := by ring
    rw [this, rows_shift dx dy L d (y0 + 1)]

theorem yLow_shift (dx dy : Int) : ∀ (L : List Bucket), L ≠ [] →
    yLow (L.map (shiftBucket dx dy)) = yLow L + dy
  | [], h => absurd rfl h
  | [a], _ => rfl
  | a :: c :: l, _ => by
    have ih := yLow_shift dx dy (c :: l) (by simp)
    simp only [List.map_cons] at ih ⊢
    simp only [yLow, ih]
    simp only [shiftBucket]
    omega

theorem yHigh_shift (dx dy : Int) : ∀ (L : List Bucket), L ≠ [] →
    yHigh (L.map (shiftBucket dx dy)) = yHigh L + dy
  | [], h => absurd rfl h
  | [a], _ => rfl
  | a :: c :: l, _ => by
    have ih := yHigh_shift dx dy (c :: l) (by simp)
    simp only [List.map_cons] at ih ⊢
    simp only [yHigh, ih]
    simp only [shiftBucket]
    omega

theorem painting_shift (dx dy : Int) (L : List Bucket) (h : L ≠ []) :
    painting (L.map (shiftBucket dx dy)) = (painting L).map (shiftPixel dx dy) := by
  unfold painting
  rw [yLow_shift dx dy L h, yHigh_shift dx dy L h]
  have : yHigh L + dy - (yLow L + dy) = yHigh L - yLow L := by ring
  rw [this, rows_shift]

theorem fuelFor_shift (dx dy : Int) (L : List Bucket) (h : L ≠ []) :
    fuelFor (L.map (shiftBucket dx dy)) = fuelFor L := by
  unfold fuelFor
  rw [yLow_shift dx dy L h, yHigh_shift dx dy L h, List.map_map]
  have : yHigh L + dy - (yLow L + dy) = yHigh L - yLow L := by ring
  rw [this]
  rfl

/-- C7: for an input with a non-horizontal edge, all integers `dx`, `dy` and
enough fuel, `drawPolygon` on the vertices translated by `(dx, dy)` issues
exactly the `setPixel` calls of the untranslated run, each translated by
`(dx, dy)`, in the same order. -/
theorem C7_translation (n : Nat) (x y : Nat → Int) (dx dy : Int)
    (h : hasSlantedEdge n y) (fuel : Nat) (hf : fuelFor (edgeRecords n x y) ≤ fuel) :
    ∃ px, drawPolygon fuel n x y = Result.ok px ∧
      drawPolygon fuel n (fun i => x i + dx) (fun i => y i + dy) =
        Result.ok (px.map (shiftPixel dx dy)) := by
  have hne := edgeRecords_ne_nil n x y h
  refine ⟨painting (edgeRecords n x y), drawPolygon_painting n x y h fuel hf, ?_⟩
  rw [drawPolygon_painting n _ _ (hasSlantedEdge_shift dy n y h) fuel
    (by rw [edgeRecords_shift, fuelFor_shift dx dy _ hne]; exact hf)]
  rw [edgeRecords_shift, painting_shift dx dy _ hne]

/-- Witness of C7: the triangle `(0,0),(4,0),(0,4)` moved by `(-7, 3)`. -/
theorem C7_translation_witness :
    ∃ px, drawPolygon 10 3 (arr [0, 4, 0]) (arr [0, 0, 4]) = Result.ok px ∧
      drawPolygon 10 3 (fun i => arr [0, 4, 0] i + (-7)) (fun i => arr [0, 0, 4] i + 3) =
        Result.ok (px.map (shiftPixel (-7) 3)) :=
  C7_translation 3 (arr [0, 4, 0]) (arr [0, 0, 4]) (-7) 3 ⟨2, by decide, by decide⟩ 10
    (by decide)


/-! ## Rectangles and right triangles -/

theorem odd_count_pair (e1 e2 : Bucket) (a b : Int) :
    Odd (countAtOrLeft [e1, e2] a b) ↔
      (((activeAt b e1 = true ∧ trackedX b e1 ≤ a) ∧ ¬ (activeAt b e2 = true ∧ trackedX b e2 ≤ a)) ∨
       (¬ (activeAt b e1 = true ∧ trackedX b e1 ≤ a) ∧ (activeAt b e2 = true ∧ trackedX b e2 ≤ a))) := by
  unfold countAtOrLeft
  simp only [List.countP_cons, List.countP_nil, Bool.and_eq_true, decide_eq_true_eq, Nat.zero_add]
  by_cases h1 : (activeAt b e1 = true ∧ trackedX b e1 ≤ a) <;>
    by_cases h2 : (activeAt b e2 = true ∧ trackedX b e2 ≤ a) <;>
    simp [h1, h2]

theorem makeBucket_of_ne (a b : Vertex) (h : a.y ≠ b.y) :
    makeBucket a b = some
      { yMax := max a.y b.y, yMin := min a.y b.y,
        x := if a.y < b.y then a.x else b.x,
        sign := if b.x < a.x then (if a.y < b.y then -1 else 1)
                else (if a.y < b.y then 1 else -1),
        dX := ((b.x - a.x).natAbs : Int), dY := ((b.y - a.y).natAbs : Int), sum := 0 } := by
  unfold makeBucket
  by_cases hx : b.x < a.x
  · have hd : ((a.y - b.y).natAbs : Int) ≠ 0 := by omega
    simp only [hx, if_true, hd, ne_eq, not_false_eq_true]
    congr 2
    · by_cases h1 : a.y < b.y
      · simp [h1, max_eq_right (le_of_lt h1)]
      · have h2 : b.y < a.y := by omega
        simp [h2, max_eq_left (le_of_lt h2)]; omega
    · by_cases h1 : a.y < b.y
      · have : ¬ b.y < a.y := by omega
        simp [h1, this, min_eq_left (le_of_lt h1)]
      · have h2 : b.y < a.y := by omega
        simp [h2, h1, min_eq_right (le_of_lt h2)]
    · by_cases h1 : a.y < b.y
      · have : ¬ b.y < a.y := by omega
        simp [h1, this]
      · have h2 : b.y < a.y := by omega
        simp [h2, h1]
    · by_cases h1 : a.y < b.y
      · simp [h1]
      · simp [h1]
    · omega
    · omega
  · have hd : ((b.y - a.y).natAbs : Int) ≠ 0 := by omega
    simp only [hx, if_false, hd, ne_eq, not_false_eq_true, if_true]
    congr 2
    · by_cases h1 : a.y < b.y
      · have : ¬ a.y > b.y := by omega
        simp [h1, this, max_eq_right (le_of_lt h1)]
      · have h2 : b.y < a.y := by omega
        simp [h2, max_eq_left (le_of_lt h2)]
    · by_cases h1 : a.y < b.y
      · simp [h1, min_eq_left (le_of_lt h1)]
      · have h2 : b.y < a.y := by omega
        simp [h1, min_eq_right (le_of_lt h2)]
    · by_cases h1 : a.y < b.y
      · simp [h1]
        omega
      · have h2 : b.y < a.y := by omega
        simp [h1]; omega

theorem rectangle_records (x0 x1 y0 y1 : Int) (hy : y0 < y1) :
    edgeRecords 4 (arr [x0, x1, x1, x0]) (arr [y0, y0, y1, y1]) =
      [{ yMax := y1, yMin := y0, x := x0, sign := -1, dX := 0, dY := y1 - y0, sum := 0 },
       { yMax := y1, yMin := y0, x := x1, sign := 1, dX := 0, dY := y1 - y0, sum := 0 }] := by
  rw [edgeRecords_eq]
  have m1 : makeBucket ⟨x0, y1⟩ ⟨x0, y0⟩ =
      some { yMax := y1, yMin := y0, x := x0, sign := -1, dX := 0, dY := y1 - y0, sum := 0 } := by
    rw [makeBucket_of_ne _ _ (by show y1 ≠ y0; omega)]
    have e1 : ((y0 - y1).natAbs : Int) = y1 - y0 := by omega
    have n1 : ¬ (y1 < y0) := by omega
    simp [e1, n1, max_eq_left (le_of_lt hy), min_eq_right (le_of_lt hy)]
  have m2 : makeBucket ⟨x0, y0⟩ ⟨x1, y0⟩ = none := (makeBucket_none_iff _ _).mpr rfl
  have m3 : makeBucket ⟨x1, y0⟩ ⟨x1, y1⟩ =
      some { yMax := y1, yMin := y0, x := x1, sign := 1, dX := 0, dY := y1 - y0, sum := 0 } := by
    rw [makeBucket_of_ne _ _ (by show y0 ≠ y1; omega)]
    have e1 : ((y1 - y0).natAbs : Int) = y1 - y0 := by omega
    simp [e1, hy, max_eq_right (le_of_lt hy), min_eq_left (le_of_lt hy)]
  have m4 : makeBucket ⟨x1, y1⟩ ⟨x0, y1⟩ = none := (makeBucket_none_iff _ _).mpr rfl
  simp [List.range, List.range.loop, vertexAt, arr, edgesFrom, m1, m2, m3, m4]


theorem rectangle_painting (x0 x1 y0 y1 : Int) (hy : y0 < y1)
    (fuel : Nat) (hf : (y1 - y0).toNat + 1 ≤ fuel) :
    drawPolygon fuel 4 (arr [x0, x1, x1, x0]) (arr [y0, y0, y1, y1]) =
      Result.ok (painting (edgeRecords 4 (arr [x0, x1, x1, x0]) (arr [y0, y0, y1, y1]))) := by
  apply drawPolygon_painting
  · exact ⟨2, by decide, by simp [arr]; omega⟩
  · rw [rectangle_records x0 x1 y0 y1 hy]
    simp only [fuelFor, yHigh, yLow, List.map_cons, List.map_nil, List.sum_cons, List.sum_nil,
      max_self, min_self]
    simpa using hf

theorem mem_rectangle_painting (x0 x1 y0 y1 : Int) (hx : x0 < x1) (hy : y0 < y1) (a b : Int) :
    (a, b) ∈ painting (edgeRecords 4 (arr [x0, x1, x1, x0]) (arr [y0, y0, y1, y1])) ↔
      (x0 ≤ a ∧ a < x1 ∧ y0 ≤ b ∧ b < y1) := by
  rw [mem_painting_iff_odd _ (edgeRecords_even _ _ _), rectangle_records x0 x1 y0 y1 hy,
    odd_count_pair]
  simp only [activeAt, trackedX, decide_eq_true_eq, mul_zero, Int.zero_ediv, add_zero]
  omega

/-- C8: for `x0 < x1`, `y0 < y1` and enough fuel, `drawPolygon` on the
rectangle `(x0,y0),(x1,y0),(x1,y1),(x0,y1)` paints exactly the pixels with
`x0 ≤ x < x1` and `y0 ≤ y < y1`, each once: `(x1-x0)*(y1-y0)` calls. -/
theorem C8_rectangle (x0 x1 y0 y1 : Int) (hx : x0 < x1) (hy : y0 < y1)
    (fuel : Nat) (hf : (y1 - y0).toNat + 1 ≤ fuel) :
    ∃ px, drawPolygon fuel 4 (arr [x0, x1, x1, x0]) (arr [y0, y0, y1, y1]) = Result.ok px ∧
      (∀ a b, (a, b) ∈ px ↔ (x0 ≤ a ∧ a < x1 ∧ y0 ≤ b ∧ b < y1)) ∧
      px.Nodup ∧ (px.length : Int) = (x1 - x0) * (y1 - y0) := by
  refine ⟨_, rectangle_painting x0 x1 y0 y1 hy fuel hf,
    mem_rectangle_painting x0 x1 y0 y1 hx hy, painting_nodup _, ?_⟩
  have hfin : (painting (edgeRecords 4 (arr [x0, x1, x1, x0]) (arr [y0, y0, y1, y1]))).toFinset =
      Finset.Ico x0 x1 ×ˢ Finset.Ico y0 y1 := by
    ext ⟨a, b⟩
    rw [List.mem_toFinset, mem_rectangle_painting x0 x1 y0 y1 hx hy]
    simp only [Finset.mem_product, Finset.mem_Ico]
    omega
  rw [← List.toFinset_card_of_nodup (painting_nodup _), hfin, Finset.card_product,
    Int.card_Ico, Int.card_Ico]
  push_cast
  rw [Int.toNat_of_nonneg (by omega), Int.toNat_of_nonneg (by omega)]

/-- Witness of C8: the square `x = [0,4,4,0]`, `y = [0,0,4,4]` with fuel 5. -/
theorem C8_rectangle_witness :
    ∃ px, drawPolygon 5 4 (arr [0, 4, 4, 0]) (arr [0, 0, 4, 4]) = Result.ok px ∧
      (∀ a b, (a, b) ∈ px ↔ ((0 : Int) ≤ a ∧ a < 4 ∧ (0 : Int) ≤ b ∧ b < 4)) ∧
      px.Nodup ∧ (px.length : Int) = (4 - 0) * (4 - 0) :=
  C8_rectangle 0 4 0 4 (by decide) (by decide) 5 (by decide)


theorem lowerTriangle_records (w h : Int) (hw : 1 ≤ w) (hh : 1 ≤ h) :
    edgeRecords 3 (arr [0, w, 0]) (arr [0, 0, h]) =
      [{ yMax := h, yMin := 0, x := 0, sign := -1, dX := 0, dY := h, sum := 0 },
       { yMax := h, yMin := 0, x := w, sign := -1, dX := w, dY := h, sum := 0 }] := by
  rw [edgeRecords_eq]
  have q1 : (0 : Int) ≤ h := by omega
  have q2 : (0 : Int) ≤ w := by omega
  have m1 : makeBucket ⟨0, h⟩ ⟨0, 0⟩ =
      some { yMax := h, yMin := 0, x := 0, sign := -1, dX := 0, dY := h, sum := 0 } := by
    rw [makeBucket_of_ne _ _ (by show h ≠ 0; omega)]
    have e1 : ((0 - h).natAbs : Int) = h := by omega
    have n1 : ¬ (h < 0) := by omega
    simp [q1, q2, e1, n1, max_eq_left (by omega : (0 : Int) ≤ h), min_eq_right (by omega : (0 : Int) ≤ h)]
  have m2 : makeBucket ⟨0, 0⟩ ⟨w, 0⟩ = none := (makeBucket_none_iff _ _).mpr rfl
  have m3 : makeBucket ⟨w, 0⟩ ⟨0, h⟩ =
      some { yMax := h, yMin := 0, x := w, sign := -1, dX := w, dY := h, sum := 0 } := by
    rw [makeBucket_of_ne _ _ (by show (0 : Int) ≠ h; omega)]
    have e1 : ((h - 0).natAbs : Int) = h := by omega
    have e2 : ((0 - w).natAbs : Int) = w := by omega
    have p1 : (0 : Int) < h := by omega
    have p2 : (0 : Int) < w := by omega
    simp [q1, q2, e1, e2, p1, p2, max_eq_right (by omega : (0 : Int) ≤ h),
      min_eq_left (by omega : (0 : Int) ≤ h)]
  simp [List.range, List.range.loop, vertexAt, arr, edgesFrom, m1, m2, m3]

theorem slope_quotient_bounds (w h b : Int) (hw : 1 ≤ w) (h0 : 0 ≤ b) (hb : b < h) :
    0 ≤ b * w / h ∧ b * w / h < w := by
  constructor
  · exact Int.ediv_nonneg (mul_nonneg h0 (by omega)) (by omega)
  · apply Int.ediv_lt_of_lt_mul (by omega)
    nlinarith

theorem lowerTriangle_painting (w h : Int) (hw : 1 ≤ w) (hh : 1 ≤ h)
    (fuel : Nat) (hf : (w + h).toNat + 1 ≤ fuel) :
    drawPolygon fuel 3 (arr [0, w, 0]) (arr [0, 0, h]) =
      Result.ok (painting (edgeRecords 3 (arr [0, w, 0]) (arr [0, 0, h]))) := by
  apply drawPolygon_painting
  · exact ⟨2, by decide, by simp [arr]; omega⟩
  · rw [lowerTriangle_records w h hw hh]
    simp only [fuelFor, yHigh, yLow, List.map_cons, List.map_nil, List.sum_cons, List.sum_nil,
      max_self, min_self]
    simp only [Int.toNat_zero, sub_zero, Nat.zero_add, Nat.add_zero]
    omega

theorem mem_lowerTriangle (w h : Int) (hw : 1 ≤ w) (hh : 1 ≤ h) (a b : Int) :
    (a, b) ∈ painting (edgeRecords 3 (arr [0, w, 0]) (arr [0, 0, h])) ↔
      (0 ≤ b ∧ b < h ∧ 0 ≤ a ∧ a < w - b * w / h) := by
  rw [mem_painting_iff_odd _ (edgeRecords_even _ _ _), lowerTriangle_records w h hw hh,
    odd_count_pair]
  simp only [activeAt, trackedX, decide_eq_true_eq, mul_zero, Int.zero_ediv, add_zero, sub_zero]
  by_cases hb : 0 ≤ b ∧ b < h
  · have := slope_quotient_bounds w h b hw hb.1 hb.2
    omega
  · omega

theorem rightTriangle_row (a s : Int) (ha : 1 ≤ a) (h0 : 0 ≤ s) (hs : s < a) :
    pairSpans (crossings (edgeRecords 3 (arr [0, a, 0]) (arr [0, 0, a])) s) s =
      span 0 (a - s) s := by
  rw [lowerTriangle_records a a ha ha]
  have hq : s * a / a = s := Int.mul_ediv_cancel s (by omega)
  have hle : (0 : Int) ≤ a - s := by omega
  have hle2 : (0 : Int) ≤ a + -s := by omega
  simp [crossings, List.filter_cons, activeAt, trackedX, h0, hs, hq, List.insertionSort,
    List.orderedInsert, hle, hle2, pairSpans]
  rfl

theorem rightTriangle_rows_length (a : Int) (ha : 1 ≤ a) : ∀ (d : Nat) (s0 : Int),
    0 ≤ s0 → s0 + d = a →
    2 * (rows (edgeRecords 3 (arr [0, a, 0]) (arr [0, 0, a])) s0 d).length = d * (d + 1)
  | 0, _, _, _ => by simp [rows]
  | d + 1, s0, h0, hs => by
    have ih := rightTriangle_rows_length a ha d (s0 + 1) (by omega) (by push_cast at hs; omega)
    have hrow := rightTriangle_row a s0 ha h0 (by push_cast at hs; omega)
    simp only [rows, hrow, List.length_append]
    have hlen : (span 0 (a - s0) s0).length = d + 1 := by
      simp only [span, List.length_map, List.length_range]
      push_cast at hs
      omega
    rw [hlen, Nat.mul_add, ih]
    ring

/-- C9: for `a ≥ 1` and enough fuel, `drawPolygon` on the right triangle
`x = [0,a,0]`, `y = [0,0,a]` paints on each row `y` with `0 ≤ y < a` exactly
the pixels with `0 ≤ x < a - y`, nothing on any other row, no pixel twice,
`a*(a+1)/2` pixels in total. -/
theorem C9_right_triangle (a : Int) (ha : 1 ≤ a) (fuel : Nat)
    (hf : (a + a).toNat + 1 ≤ fuel) :
    ∃ px, drawPolygon fuel 3 (arr [0, a, 0]) (arr [0, 0, a]) = Result.ok px ∧
      (∀ c r, (c, r) ∈ px ↔ (0 ≤ r ∧ r < a ∧ 0 ≤ c ∧ c < a - r)) ∧
      px.Nodup ∧ (px.length : Int) = a * (a + 1) / 2 := by
  refine ⟨_, lowerTriangle_painting a a ha ha fuel hf, ?_, painting_nodup _, ?_⟩
  · intro c r
    rw [mem_lowerTriangle a a ha ha]
    by_cases hr : r = r * a / a
    · rw [← hr]
    · exact absurd (Int.mul_ediv_cancel r (by omega : a ≠ 0)).symm hr
  · have hlow : yLow (edgeRecords 3 (arr [0, a, 0]) (arr [0, 0, a])) = 0 := by
      rw [lowerTriangle_records a a ha ha]; simp [yLow]
    have hhigh : yHigh (edgeRecords 3 (arr [0, a, 0]) (arr [0, 0, a])) = a := by
      rw [lowerTriangle_records a a ha ha]; simp [yHigh]
    have h2 := rightTriangle_rows_length a ha a.toNat 0 (le_refl _) (by omega)
    have hp : painting (edgeRecords 3 (arr [0, a, 0]) (arr [0, 0, a])) =
        rows (edgeRecords 3 (arr [0, a, 0]) (arr [0, 0, a])) 0 a.toNat := by
      unfold painting
      rw [hlow, hhigh, sub_zero]
    rw [hp]
    have h3 : (2 : Int) * ((rows (edgeRecords 3 (arr [0, a, 0]) (arr [0, 0, a])) 0
        a.toNat).length : Int) = a * (a + 1) := by
      have := congrArg (fun (t : Nat) => (t : Int)) h2
      simp only [Nat.cast_mul, Nat.cast_add, Nat.cast_ofNat, Nat.cast_one] at this
      rw [this, Int.toNat_of_nonneg (by omega)]
    omega

/-- Witness of C9: `a = 4` with fuel 9 (rows 0..3 paint `[0,4)`, `[0,3)`,
`[0,2)`, `[0,1)`, 10 pixels). -/
theorem C9_right_triangle_witness :
    ∃ px, drawPolygon 9 3 (arr [0, 4, 0]) (arr [0, 0, 4]) = Result.ok px ∧
      (∀ c r, (c, r) ∈ px ↔ ((0 : Int) ≤ r ∧ r < 4 ∧ (0 : Int) ≤ c ∧ c < 4 - r)) ∧
      px.Nodup ∧ (px.length : Int) = 4 * (4 + 1) / 2 :=
  C9_right_triangle 4 (by decide) 9 (by decide)

/-! ## The accumulator, the records and the comparator -/

theorem edgesFrom_filterMap (x y : Nat → Int) : ∀ (k i s : Nat),
    edgesFrom (vertexAt x y s) ((List.range' i k).map (vertexAt x y)) =
      (List.range' i k).filterMap (fun j =>
        makeBucket (vertexAt x y (if j = i then s else j - 1)) (vertexAt x y j))
  | 0, _, _ => rfl
  | k + 1, i, s => by
    rw [List.range'_succ, List.map_cons, edgesFrom, edgesFrom_filterMap x y k (i + 1) i,
      List.filterMap_cons]
    have hrest : (List.range' (i + 1) k).filterMap (fun j =>
          makeBucket (vertexAt x y (if j = i + 1 then i else j - 1)) (vertexAt x y j)) =
        (List.range' (i + 1) k).filterMap (fun j =>
          makeBucket (vertexAt x y (if j = i then s else j - 1)) (vertexAt x y j)) := by
      apply List.filterMap_congr
      intro j hj
      have hj1 : i + 1 ≤ j := (List.mem_range'_1.mp hj).1
      have hne : j ≠ i := by omega
      by_cases he : j = i + 1
      · subst he; simp
      · rw [if_neg he, if_neg hne]
    rw [hrest]
    simp only [if_true]
    cases makeBucket (vertexAt x y s) (vertexAt x y i) <;> rfl

/-- C17 (the code at a failing input): for the records with equal `x` and
slopes `dX/dY = 1/2` and `2/3`, built for the edges `(0,0)-(1,2)` and
`(0,0)-(2,3)` of the triangle `x = [0,2,1]`, `y = [0,3,2]`, the exact
comparison `1*3 < 2*2` holds but `xCompare` is false: both truncated quotients
are `0`. -/
theorem C17_xCompare_truncates :
    edgeRecords 3 (arr [0, 2, 1]) (arr [0, 3, 2]) =
      [⟨2, 0, 0, 1, 1, 2, 0⟩, ⟨3, 0, 0, 1, 2, 3, 0⟩, ⟨3, 2, 1, 1, 1, 1, 0⟩] ∧
    xCompare (createEdges 3 (arr [0, 2, 1]) (arr [0, 3, 2])).mem 0 1 = false ∧
    ((createEdges 3 (arr [0, 2, 1]) (arr [0, 3, 2])).mem 0).x =
      ((createEdges 3 (arr [0, 2, 1]) (arr [0, 3, 2])).mem 1).x ∧
    ((createEdges 3 (arr [0, 2, 1]) (arr [0, 3, 2])).mem 0).dX *
        ((createEdges 3 (arr [0, 2, 1]) (arr [0, 3, 2])).mem 1).dY <
      ((createEdges 3 (arr [0, 2, 1]) (arr [0, 3, 2])).mem 1).dX *
        ((createEdges 3 (arr [0, 2, 1]) (arr [0, 3, 2])).mem 0).dY := by
  refine ⟨by decide, by decide, by decide, by decide⟩

/-! ## Where the scan loop stops -/

theorem drawPolygonScan_final (n : Nat) (x y : Nat → Int) (h : hasSlantedEdge n y)
    (fuel : Nat) (hf : fuelFor (edgeRecords n x y) ≤ fuel) :
    ∃ s, drawPolygonScan fuel n x y = Result.ok s ∧ s.edgeTable = [] ∧
      s.scanLine = yHigh (edgeRecords n x y) + 1 := by
  have hne := edgeRecords_ne_nil n x y h
  have hperm := sortedTable_perm n x y
  have hw := sortedTable_wellFormed n x y
  unfold drawPolygonScan
  generalize hL : edgeRecords n x y = L at hne hperm hf
  generalize hm : (createEdges n x y).mem = mem0 at hperm hw
  generalize ht : listSort (minYCompare mem0) (createEdges n x y).edgeTable = table at hperm hw
  cases table with
  | nil =>
    have := hperm.length_eq
    simp only [List.map_nil, List.length_nil] at this
    exact absurd (List.length_eq_zero.mp this.symm) hne
  | cons front rest =>
    have hmin := listSort_minY_head mem0 _ front rest ht
    have hmin2 : ∀ p ∈ front :: rest, (mem0 front).yMin ≤ (mem0 p).yMin := by
      intro p hp
      apply hmin
      rw [← ht] at hp
      exact (listSort_perm _ _).mem_iff.mp hp
    have hinL : ∀ p ∈ front :: rest, mem0 p ∈ L :=
      fun p hp => hperm.mem_iff.mp (List.mem_map_of_mem _ hp)
    have hlowle : yLow L ≤ (mem0 front).yMin := yLow_le L _ (hinL front (by simp))
    have hinv := scanStart_inv mem0 (front :: rest) front hw hmin2
    obtain ⟨s1, hrun, _, hnil, hinv1, hlast⟩ :=
      scanLoop_run mem0 (front :: rest) hw fuel
        (fun p hp => le_trans (dX_le_fuelFor L _ (hinL p hp)) hf)
        ((yHigh L - yLow L).toNat + 1) _ hinv
        (fun p hp => by
          have := le_yHigh L _ (hinL p hp)
          simp only [scanStart]
          push_cast
          omega)
        fuel (by unfold fuelFor at hf; omega)
    refine ⟨s1, hrun, hnil, ?_⟩
    obtain ⟨p, hp, hsc⟩ := hlast (by simp [scanStart])
    rw [hsc]
    congr 1
    apply le_antisymm (le_yHigh L _ (hinL p hp))
    obtain ⟨b, hb, he⟩ := yHigh_mem L hne
    obtain ⟨q, hq, hqb⟩ := List.mem_map.mp (hperm.mem_iff.mpr hb)
    have := hinv1.edgeTable_nil_iff.mp hnil q hq
    rw [← he, ← hqb]
    omega

theorem drawPolygonAfter_active (n : Nat) (x y : Nat → Int)
    (fuel : Nat) (hf : fuelFor (edgeRecords n x y) ≤ fuel) (k : Nat) (s : Scan)
    (hs : drawPolygonAfter fuel k n x y = Result.ok s) :
    ((emissionList s).map (createEdges n x y).mem).Perm
      ((edgeRecords n x y).filter (activeAt s.scanLine)) := by
  have hperm := sortedTable_perm n x y
  have hw := sortedTable_wellFormed n x y
  unfold drawPolygonAfter at hs
  simp only at hs
  generalize hm : (createEdges n x y).mem = mem0 at hperm hw hs ⊢
  generalize ht : listSort (minYCompare mem0) (createEdges n x y).edgeTable = table
    at hperm hw hs
  cases table with
  | nil => simp at hs
  | cons front rest =>
    simp only at hs
    have hmin := listSort_minY_head mem0 _ front rest ht
    have hmin2 : ∀ p ∈ front :: rest, (mem0 front).yMin ≤ (mem0 p).yMin := by
      intro p hp
      apply hmin
      rw [← ht] at hp
      exact (listSort_perm _ _).mem_iff.mp hp
    have hfuel : ∀ p ∈ front :: rest, (mem0 p).dX.toNat ≤ fuel := fun p hp =>
      le_trans (dX_le_fuelFor _ _ (hperm.mem_iff.mp (List.mem_map_of_mem _ hp))) hf
    have hinv := scanIterate_inv mem0 _ hw fuel hfuel k _ s
      (scanStart_inv mem0 _ front hw hmin2) hs
    obtain ⟨h1, _, _⟩ := scanBody_step mem0 _ hw fuel hfuel s hinv
    refine (h1.map mem0).trans ?_
    have h2 := hperm.filter (activeAt s.scanLine)
    rw [List.filter_map] at h2
    exact h2

/-- On unbounded integers: for an input with a non-horizontal edge and enough
fuel, the scan loop of `processEdgeTable` on the sorted edge table of
`createEdges` terminates with the edge table emptied; at every iteration the
active list at span emission holds exactly the records with
`yMin ≤ scanLine < yMax`; and `scanLine` when the loop stops equals the
maximum `yMax` over all original edges plus one. -/
theorem scan_stops_above_top (n : Nat) (x y : Nat → Int) (h : hasSlantedEdge n y)
    (fuel : Nat) (hf : fuelFor (edgeRecords n x y) ≤ fuel) :
    (∃ s, drawPolygonScan fuel n x y = Result.ok s ∧ s.edgeTable = [] ∧
      s.scanLine = yHigh (edgeRecords n x y) + 1) ∧
    (∀ b ∈ edgeRecords n x y, b.yMax ≤ yHigh (edgeRecords n x y)) ∧
    (∃ b ∈ edgeRecords n x y, b.yMax = yHigh (edgeRecords n x y)) ∧
    ∀ k s, drawPolygonAfter fuel k n x y = Result.ok s →
      ((emissionList s).map (createEdges n x y).mem).Perm
        ((edgeRecords n x y).filter (activeAt s.scanLine)) :=
  ⟨drawPolygonScan_final n x y h fuel hf, le_yHigh _,
    yHigh_mem _ (edgeRecords_ne_nil n x y h),
    fun k s hs => drawPolygonAfter_active n x y fuel hf k s hs⟩

/-! ## Reversing and rotating the vertex sequence -/

theorem wrap_eq (v : Int) (h1 : -2147483648 ≤ v) (h2 : v ≤ 2147483647) : wrap v = v := by
  unfold wrap
  rw [if_pos ⟨h1, h2⟩]

theorem wrap_mod (v : Int) : wrap v = (v + 2147483648) % 4294967296 - 2147483648 := by
  unfold wrap
  split_ifs with h
  · omega
  · rfl

theorem natAbs_bound (v : Int) (h : v.natAbs ≤ 2147483647) :
    (-2147483647 ≤ v ∧ v ≤ 2147483647) ∧ (0 ≤ (v.natAbs : Int) ∧ (v.natAbs : Int) ≤ 2147483647) := by
  have := Int.natAbs_eq v
  omega

theorem machine_makeBucket_eq (a b : Vertex) (h : fitsDelta a b = true) :
    Machine.makeBucket a b = makeBucket a b := by
  simp only [fitsDelta, decide_eq_true_eq] at h
  obtain ⟨⟨x1, x2⟩, x3, x4⟩ := natAbs_bound _ h.1
  obtain ⟨⟨y1, y2⟩, y3, y4⟩ := natAbs_bound _ h.2
  have ex : (a.x - b.x).natAbs = (b.x - a.x).natAbs := by
    rw [← Int.natAbs_neg]; congr 1; ring
  have ey : (a.y - b.y).natAbs = (b.y - a.y).natAbs := by
    rw [← Int.natAbs_neg]; congr 1; ring
  have w1 : wrap (b.x - a.x) = b.x - a.x := wrap_eq _ (by omega) (by omega)
  have w2 : wrap (b.y - a.y) = b.y - a.y := wrap_eq _ (by omega) (by omega)
  have w3 : wrap (a.x - b.x) = a.x - b.x := wrap_eq _ (by omega) (by omega)
  have w4 : wrap (a.y - b.y) = a.y - b.y := wrap_eq _ (by omega) (by omega)
  have w5 : wrap ((b.x - a.x).natAbs : Int) = (b.x - a.x).natAbs := wrap_eq _ (by omega) x4
  have w6 : wrap ((b.y - a.y).natAbs : Int) = (b.y - a.y).natAbs := wrap_eq _ (by omega) y4
  unfold Machine.makeBucket makeBucket
  by_cases hx : b.x < a.x
  · simp only [hx, if_true, w3, w4, ex, ey, w5, w6]
  · simp only [hx, if_false, w1, w2, w5, w6]

theorem deltaFits_iff (n : Nat) (x y : Nat → Int) :
    deltaFits n x y = true ↔ ∀ i, i < n →
      fitsDelta (vertexAt x y (if i = 0 then n - 1 else i - 1)) (vertexAt x y i) = true := by
  simp [deltaFits, List.all_eq_true]

theorem fits_iff (n : Nat) (x y : Nat → Int) :
    fits n x y = true ↔ ∀ i, i < n →
      fitsEdge (vertexAt x y (if i = 0 then n - 1 else i - 1)) (vertexAt x y i) = true := by
  simp [fits, List.all_eq_true]

theorem fitsEdge_delta (a b : Vertex) (h : fitsEdge a b = true) : fitsDelta a b = true := by
  simp only [fitsEdge, Bool.and_eq_true] at h
  exact h.1.1.1.1.1.1

theorem deltaFits_of_fits (n : Nat) (x y : Nat → Int) (h : fits n x y = true) :
    deltaFits n x y = true :=
  (deltaFits_iff n x y).mpr (fun i hi => fitsEdge_delta _ _ ((fits_iff n x y).mp h i hi))

theorem machine_createEdgesLoop_eq (x y : Nat → Int) : ∀ (k i s : Nat) (e : Edges),
    (∀ j, i ≤ j → j < i + k →
      fitsDelta (vertexAt x y (if j = i then s else j - 1)) (vertexAt x y j) = true) →
    Machine.createEdgesLoop x y k i s e = createEdgesLoop x y k i s e
  | 0, _, _, _, _ => rfl
  | k + 1, i, s, e, h => by
    have h0 := h i (le_refl _) (by omega)
    simp only [if_true, vertexAt] at h0
    have hrest : ∀ e1, Machine.createEdgesLoop x y k (i + 1) i e1 =
        createEdgesLoop x y k (i + 1) i e1 := by
      intro e1
      apply machine_createEdgesLoop_eq x y k (i + 1) i e1
      intro j h1 h2
      have := h j (by omega) (by omega)
      have hne : j ≠ i := by omega
      rw [if_neg hne] at this
      by_cases he : j = i + 1
      · subst he
        simpa using this
      · rw [if_neg he]
        exact this
    simp only [Machine.createEdgesLoop, createEdgesLoop, machine_makeBucket_eq _ _ h0]
    cases makeBucket ⟨x s, y s⟩ ⟨x i, y i⟩ with
    | none => exact hrest _
    | some b => exact hrest _

theorem machine_createEdges_eq (n : Nat) (x y : Nat → Int) (h : deltaFits n x y = true) :
    Machine.createEdges n x y = createEdges n x y := by
  unfold Machine.createEdges createEdges
  apply machine_createEdgesLoop_eq
  intro j _ h2
  have := (deltaFits_iff n x y).mp h j (by omega)
  by_cases hj : j = 0
  · subst hj
    simpa using this
  · simpa [hj] using this

theorem machine_edgeRecords_eq (n : Nat) (x y : Nat → Int) (h : deltaFits n x y = true) :
    Machine.edgeRecords n x y = edgeRecords n x y := by
  unfold Machine.edgeRecords edgeRecords
  rw [machine_createEdges_eq n x y h]

/-! ### The advance step -/

theorem machine_advanceWhile_eq : ∀ (fuel : Nat) (b : Bucket), 1 ≤ b.dY →
    0 ≤ b.sum → b.sum ≤ 2147483647 →
    (-2147483648 ≤ b.x ∧ b.x ≤ 2147483647) →
    (-2147483648 ≤ b.x + b.sign * (b.sum / b.dY) ∧
      b.x + b.sign * (b.sum / b.dY) ≤ 2147483647) →
    Machine.advanceWhile fuel b = advanceWhile fuel b
  | 0, b, _, _, _, _, _ => rfl
  | fuel + 1, b, hd, hs, hs2, hx, hxq => by
    simp only [Machine.advanceWhile, advanceWhile]
    by_cases hge : b.sum ≥ b.dY
    · rw [if_pos hge, if_pos hge]
      have hq : b.sum / b.dY = (b.sum - b.dY) / b.dY + 1 := by
        have : b.sum = (b.sum - b.dY) + b.dY := by ring
        conv_lhs => rw [this]
        rw [Int.add_ediv_of_dvd_right (dvd_refl _), Int.ediv_self (by omega)]
      have hq0 : 0 ≤ (b.sum - b.dY) / b.dY :=
        Int.ediv_nonneg (by omega) (by omega)
      have hmul : b.sign * (b.sum / b.dY) = b.sign * ((b.sum - b.dY) / b.dY) + b.sign := by
        rw [hq]; ring
      have hbet : (-2147483648 ≤ b.x + b.sign ∧ b.x + b.sign ≤ 2147483647) := by
        rw [hmul] at hxq
        by_cases hsg : 0 ≤ b.sign
        · have := mul_nonneg hsg hq0
          constructor <;> omega
        · have : b.sign * ((b.sum - b.dY) / b.dY) ≤ 0 :=
            mul_nonpos_of_nonpos_of_nonneg (by omega) hq0
          constructor <;> omega
      rw [wrap_eq _ hbet.1 hbet.2, wrap_eq (b.sum - b.dY) (by omega) (by omega)]
      have hx2 : -2147483648 ≤ b.x + b.sign + b.sign * ((b.sum - b.dY) / b.dY) ∧
          b.x + b.sign + b.sign * ((b.sum - b.dY) / b.dY) ≤ 2147483647 := by
        rw [hmul] at hxq
        constructor <;> omega
      exact machine_advanceWhile_eq fuel { b with x := b.x + b.sign, sum := b.sum - b.dY } hd
        (by show 0 ≤ b.sum - b.dY; omega) (by show b.sum - b.dY ≤ 2147483647; omega) hbet hx2
    · rw [if_neg hge, if_neg hge]

theorem machine_advanceEdge_eq (fuel : Nat) (b : Bucket) (hd : 1 ≤ b.dY) (hdx : 0 ≤ b.dX)
    (hs : 0 ≤ b.sum) (hs2 : b.sum + b.dX ≤ 2147483647)
    (hx : -2147483648 ≤ b.x ∧ b.x ≤ 2147483647)
    (hxq : -2147483648 ≤ b.x + b.sign * ((b.sum + b.dX) / b.dY) ∧
      b.x + b.sign * ((b.sum + b.dX) / b.dY) ≤ 2147483647) :
    Machine.advanceEdge fuel b = advanceEdge fuel b := by
  unfold Machine.advanceEdge advanceEdge
  by_cases h0 : b.dX = 0
  · simp [h0]
  · simp only [ne_eq, h0, not_false_eq_true, if_true]
    rw [wrap_eq (b.sum + b.dX) (by omega) (by omega)]
    exact machine_advanceWhile_eq fuel _ hd (by show 0 ≤ b.sum + b.dX; omega) hs2 hx hxq

theorem quotient_le (k : Nat) (dX dY : Int) (hd : 1 ≤ dY) (hx : 0 ≤ dX) (hk : (k : Int) ≤ dY) :
    0 ≤ (k : Int) * dX / dY ∧ (k : Int) * dX / dY ≤ dX := by
  constructor
  · exact Int.ediv_nonneg (mul_nonneg (by omega) hx) (by omega)
  · apply Int.ediv_le_of_le_mul (by omega)
    nlinarith

theorem between (x s q dX : Int) (h0 : 0 ≤ q) (h1 : q ≤ dX)
    (hx : -2147483648 ≤ x ∧ x ≤ 2147483647)
    (hxe : -2147483648 ≤ x + s * dX ∧ x + s * dX ≤ 2147483647) :
    -2147483648 ≤ x + s * q ∧ x + s * q ≤ 2147483647 := by
  by_cases hs : 0 ≤ s
  · have a1 := mul_nonneg hs h0
    have a2 : s * q ≤ s * dX := mul_le_mul_of_nonneg_left h1 hs
    constructor <;> omega
  · have a1 : s * q ≤ 0 := mul_nonpos_of_nonpos_of_nonneg (by omega) h0
    have a2 : s * dX ≤ s * q := mul_le_mul_of_nonpos_left h1 (by omega)
    constructor <;> omega

theorem machine_advanceEdge_stateAt (fuel : Nat) (b : Bucket) (k : Nat) (hg : b.Good)
    (hsafe : b.Safe) (hk : (k : Int) + 1 ≤ b.dY) :
    Machine.advanceEdge fuel (stateAt b k) = advanceEdge fuel (stateAt b k) := by
  obtain ⟨g1, g2, g3, g4⟩ := hg
  obtain ⟨s1, s2, s3, s4, s5⟩ := hsafe
  have hm1 : 0 ≤ ((k : Int) * b.dX) % b.dY := Int.emod_nonneg _ (by omega)
  have hm2 : ((k : Int) * b.dX) % b.dY < b.dY := Int.emod_lt_of_pos _ (by omega)
  have hstep := stepBucket_stateAt b k g1
  apply machine_advanceEdge_eq fuel (stateAt b k)
  · exact g1
  · exact g2
  · exact hm1
  · show ((k : Int) * b.dX) % b.dY + b.dX ≤ 2147483647
    omega
  · show -2147483648 ≤ b.x + b.sign * ((k : Int) * b.dX / b.dY) ∧
      b.x + b.sign * ((k : Int) * b.dX / b.dY) ≤ 2147483647
    obtain ⟨q0, q1⟩ := quotient_le k b.dX b.dY g1 g2 (by omega)
    exact between b.x b.sign _ b.dX q0 q1 s2 s3
  · by_cases h0 : b.dX = 0
    · show -2147483648 ≤ b.x + b.sign * ((k : Int) * b.dX / b.dY) +
          b.sign * ((((k : Int) * b.dX) % b.dY + b.dX) / b.dY) ∧
        b.x + b.sign * ((k : Int) * b.dX / b.dY) +
          b.sign * ((((k : Int) * b.dX) % b.dY + b.dX) / b.dY) ≤ 2147483647
      simp only [h0, mul_zero, Int.zero_ediv, Int.zero_emod, add_zero]
      omega
    · have hx : (stepBucket (stateAt b k)).x = (stateAt b (k + 1)).x := by rw [hstep]
      have hne : (stateAt b k).dX ≠ 0 := h0
      simp only [stepBucket, hne, ne_eq, not_false_eq_true, if_true] at hx
      rw [hx]
      show -2147483648 ≤ b.x + b.sign * (((k + 1 : Nat) : Int) * b.dX / b.dY) ∧
        b.x + b.sign * (((k + 1 : Nat) : Int) * b.dX / b.dY) ≤ 2147483647
      obtain ⟨q0, q1⟩ := quotient_le (k + 1) b.dX b.dY g1 g2 (by push_cast; omega)
      exact between b.x b.sign _ b.dX q0 q1 s2 s3

theorem machine_advanceAll_eq (fuel : Nat) : ∀ (al : List Ptr) (mem : Mem), al.Nodup →
    (∀ p ∈ al, Machine.advanceEdge fuel (mem p) = advanceEdge fuel (mem p)) →
    Machine.advanceAll fuel mem al = advanceAll fuel mem al
  | [], _, _, _ => rfl
  | a :: l, mem, hn, h => by
    rw [List.nodup_cons] at hn
    simp only [Machine.advanceAll, advanceAll, h a (List.mem_cons_self _ _)]
    cases advanceEdge fuel (mem a) with
    | ok b =>
      simp only
      apply machine_advanceAll_eq fuel l _ hn.2
      intro p hp
      have : p ≠ a := fun e => hn.1 (e ▸ hp)
      rw [Function.update_noteq this]
      exact h p (List.mem_cons_of_mem _ hp)
    | undefined => rfl
    | outOfFuel => rfl

/-! ### The records of an input that fits -/

theorem fitsEdge_facts (a b : Vertex) (h : fitsEdge a b = true) :
    ((b.x - a.x).natAbs : Int) + ((b.y - a.y).natAbs : Int) ≤ 2147483648 ∧
    (-2147483648 ≤ a.x ∧ a.x ≤ 2147483647) ∧ (-2147483648 ≤ b.x ∧ b.x ≤ 2147483647) ∧
    (-2147483648 ≤ a.y ∧ a.y ≤ 2147483646) ∧ (-2147483648 ≤ b.y ∧ b.y ≤ 2147483646) := by
  simp only [fitsEdge, fitsDelta, isInt, Bool.and_eq_true, decide_eq_true_eq] at h
  obtain ⟨⟨⟨⟨⟨⟨_, h2⟩, h3⟩, h4⟩, h5⟩, h6⟩, h7⟩ := h
  refine ⟨by exact_mod_cast h2, h3, h4, ⟨h5.1, h7.1⟩, ⟨h6.1, h7.2⟩⟩

theorem makeBucket_safe (a b : Vertex) (bk : Bucket) (hf : fitsEdge a b = true)
    (h : makeBucket a b = some bk) : bk.Safe := by
  obtain ⟨f1, f2, f3, f4, f5⟩ := fitsEdge_facts a b hf
  have hy : a.y ≠ b.y := fun e => by
    rw [(makeBucket_none_iff a b).mpr e] at h
    cases h
  rw [makeBucket_of_ne a b hy] at h
  cases h
  have hdx : ((b.x - a.x).natAbs : Int) = if b.x < a.x then a.x - b.x else b.x - a.x := by
    have := Int.natAbs_eq (b.x - a.x)
    split_ifs <;> omega
  have hdy0 : 0 ≤ ((b.y - a.y).natAbs : Int) := Int.ofNat_nonneg _
  unfold Bucket.Safe
  simp only
  refine ⟨f1, ?_, ?_, ?_, ?_⟩
  · split_ifs <;> omega
  · rw [hdx]
    by_cases h1 : b.x < a.x <;> by_cases h2 : a.y < b.y <;>
      simp only [h1, h2, if_true, if_false] <;> constructor <;> omega
  · rcases min_choice a.y b.y with e | e <;> rw [e] <;> omega
  · rcases max_choice a.y b.y with e | e <;> rw [e] <;> omega

theorem edgeRecords_safe (n : Nat) (x y : Nat → Int) (h : fits n x y = true) :
    ∀ bk ∈ edgeRecords n x y, bk.Safe := by
  intro bk hbk
  rw [edgeRecords_eq, List.range_eq_range', edgesFrom_filterMap] at hbk
  obtain ⟨j, hj, hm⟩ := List.mem_filterMap.mp hbk
  have hjn : j < n := by simpa using (List.mem_range'_1.mp hj).2
  exact makeBucket_safe _ _ bk ((fits_iff n x y).mp h j hjn) hm

/-! ### The scan loop -/

theorem machine_scanBody_eq (mem0 : Mem) (table : List Ptr) (hw : WellFormed mem0 table)
    (hsafe : ∀ p ∈ table, (mem0 p).Safe)
    (fuel : Nat) (hfuel : ∀ p ∈ table, (mem0 p).dX.toNat ≤ fuel)
    (s : Scan) (hinv : Inv mem0 table s) (hne : s.edgeTable ≠ [])
    (hlo : -2147483648 ≤ s.scanLine) :
    Machine.scanBody fuel s = scanBody fuel s := by
  obtain ⟨hperm, _, _⟩ := scanBody_step mem0 table hw fuel hfuel s hinv
  have hE : emissionList s = listSort (xCompare s.mem)
      (admitEdges s.mem s.scanLine (retire s.mem s.scanLine s.activeList s.edgeTable).2
        (retire s.mem s.scanLine s.activeList s.edgeTable).1) := rfl
  have hnodup : (emissionList s).Nodup := hperm.nodup_iff.mpr (hw.nodup.filter _)
  have hadv : Machine.advanceAll fuel s.mem (emissionList s) =
      advanceAll fuel s.mem (emissionList s) := by
    apply machine_advanceAll_eq fuel _ _ hnodup
    intro p hp
    obtain ⟨hpt, hact⟩ := List.mem_filter.mp (hperm.mem_iff.mp hp)
    simp only [activeAt, decide_eq_true_eq] at hact
    have hg := hw.good p hpt
    rw [hinv.mem p hpt (by omega)]
    apply machine_advanceEdge_stateAt fuel _ _ hg (hsafe p hpt)
    obtain ⟨_, _, g3, _⟩ := hg
    omega
  have hhi : s.scanLine ≤ 2147483646 := by
    by_contra hc
    apply hne
    rw [hinv.edgeTable_nil_iff]
    intro p hp
    have := (hsafe p hp).2.2.2.2
    omega
  unfold Machine.scanBody scanBody
  simp only
  rw [← hE, hadv, wrap_eq (s.scanLine + 1) (by omega) (by omega)]

theorem machine_scanLoop_eq (mem0 : Mem) (table : List Ptr) (hw : WellFormed mem0 table)
    (hsafe : ∀ p ∈ table, (mem0 p).Safe)
    (inner : Nat) (hfuel : ∀ p ∈ table, (mem0 p).dX.toNat ≤ inner) :
    ∀ (fuel : Nat) (s : Scan), Inv mem0 table s → -2147483648 ≤ s.scanLine →
      Machine.scanLoop inner fuel s = scanLoop inner fuel s
  | 0, s, _, _ => rfl
  | fuel + 1, s, hinv, hlo => by
    by_cases hnil : s.edgeTable = []
    · simp only [Machine.scanLoop, scanLoop, hnil, List.isEmpty_nil, if_true]
    · obtain ⟨_, _, s1, hbody, hinv1, hy1, _⟩ :=
        scanBody_step mem0 table hw inner hfuel s hinv
      have hm := machine_scanBody_eq mem0 table hw hsafe inner hfuel s hinv hnil hlo
      simp only [Machine.scanLoop, scanLoop, isEmpty_eq_false_of_ne hnil, Bool.false_eq_true,
        if_false, hm, hbody]
      exact machine_scanLoop_eq mem0 table hw hsafe inner hfuel fuel s1 hinv1
        (by rw [hy1]; omega)

theorem machine_scanIterate_eq (mem0 : Mem) (table : List Ptr) (hw : WellFormed mem0 table)
    (hsafe : ∀ p ∈ table, (mem0 p).Safe)
    (inner : Nat) (hfuel : ∀ p ∈ table, (mem0 p).dX.toNat ≤ inner) :
    ∀ (k : Nat) (s : Scan), Inv mem0 table s → -2147483648 ≤ s.scanLine →
      Machine.scanIterate inner k s = scanIterate inner k s
  | 0, s, _, _ => rfl
  | k + 1, s, hinv, hlo => by
    by_cases hnil : s.edgeTable = []
    · simp only [Machine.scanIterate, scanIterate, hnil, List.isEmpty_nil, if_true]
    · obtain ⟨_, _, s1, hbody, hinv1, hy1, _⟩ :=
        scanBody_step mem0 table hw inner hfuel s hinv
      have hm := machine_scanBody_eq mem0 table hw hsafe inner hfuel s hinv hnil hlo
      simp only [Machine.scanIterate, scanIterate, isEmpty_eq_false_of_ne hnil,
        Bool.false_eq_true, if_false, hm, hbody]
      exact machine_scanIterate_eq mem0 table hw hsafe inner hfuel k s1 hinv1
        (by rw [hy1]; omega)

/-! ### `drawPolygon` -/

theorem sortedTable_facts (n : Nat) (x y : Nat → Int) (h : fits n x y = true)
    (fuel : Nat) (hf : fuelFor (edgeRecords n x y) ≤ fuel) (front : Ptr) (rest : List Ptr)
    (ht : listSort (minYCompare (createEdges n x y).mem) (createEdges n x y).edgeTable =
      front :: rest) :
    WellFormed (createEdges n x y).mem (front :: rest) ∧
    (∀ p ∈ front :: rest, ((createEdges n x y).mem p).Safe) ∧
    (∀ p ∈ front :: rest, ((createEdges n x y).mem p).dX.toNat ≤ fuel) ∧
    Inv (createEdges n x y).mem (front :: rest)
      (scanStart (createEdges n x y).mem (front :: rest) front) ∧
    -2147483648 ≤ (scanStart (createEdges n x y).mem (front :: rest) front).scanLine := by
  have hperm := sortedTable_perm n x y
  have hw := sortedTable_wellFormed n x y
  rw [ht] at hperm hw
  have hinL : ∀ p ∈ front :: rest, (createEdges n x y).mem p ∈ edgeRecords n x y :=
    fun p hp => hperm.mem_iff.mp (List.mem_map_of_mem _ hp)
  have hsafe : ∀ p ∈ front :: rest, ((createEdges n x y).mem p).Safe :=
    fun p hp => edgeRecords_safe n x y h _ (hinL p hp)
  have hmin := listSort_minY_head (createEdges n x y).mem _ front rest ht
  have hmin2 : ∀ p ∈ front :: rest,
      ((createEdges n x y).mem front).yMin ≤ ((createEdges n x y).mem p).yMin := by
    intro p hp
    apply hmin
    rw [← ht] at hp
    exact (listSort_perm _ _).mem_iff.mp hp
  refine ⟨hw, hsafe, fun p hp => le_trans (dX_le_fuelFor _ _ (hinL p hp)) hf,
    scanStart_inv _ _ front hw hmin2, ?_⟩
  exact (hsafe front (List.mem_cons_self _ _)).2.2.2.1

theorem machine_drawPolygonScan_eq (n : Nat) (x y : Nat → Int) (h : fits n x y = true)
    (fuel : Nat) (hf : fuelFor (edgeRecords n x y) ≤ fuel) :
    Machine.drawPolygonScan fuel n x y = drawPolygonScan fuel n x y := by
  unfold Machine.drawPolygonScan drawPolygonScan
  rw [machine_createEdges_eq n x y (deltaFits_of_fits n x y h)]
  cases ht : listSort (minYCompare (createEdges n x y).mem) (createEdges n x y).edgeTable with
  | nil => rfl
  | cons front rest =>
    obtain ⟨hw, hsafe, hfuel, hinv, hlo⟩ := sortedTable_facts n x y h fuel hf front rest ht
    simp only [Machine.processEdgeTable, processEdgeTable]
    exact machine_scanLoop_eq _ _ hw hsafe fuel hfuel fuel _ hinv hlo

theorem machine_drawPolygon_eq (n : Nat) (x y : Nat → Int) (h : fits n x y = true)
    (fuel : Nat) (hf : fuelFor (edgeRecords n x y) ≤ fuel) :
    Machine.drawPolygon fuel n x y = drawPolygon fuel n x y := by
  have := machine_drawPolygonScan_eq n x y h fuel hf
  unfold Machine.drawPolygonScan drawPolygonScan at this
  unfold Machine.drawPolygon drawPolygon
  simp only [this]

theorem machine_drawPolygonAfter_eq (n : Nat) (x y : Nat → Int) (h : fits n x y = true)
    (fuel : Nat) (hf : fuelFor (edgeRecords n x y) ≤ fuel) (k : Nat) :
    Machine.drawPolygonAfter fuel k n x y = drawPolygonAfter fuel k n x y := by
  unfold Machine.drawPolygonAfter drawPolygonAfter
  rw [machine_createEdges_eq n x y (deltaFits_of_fits n x y h)]
  simp only
  cases ht : listSort (minYCompare (createEdges n x y).mem) (createEdges n x y).edgeTable with
  | nil => rfl
  | cons front rest =>
    obtain ⟨hw, hsafe, hfuel, hinv, hlo⟩ := sortedTable_facts n x y h fuel hf front rest ht
    simp only
    exact machine_scanIterate_eq _ _ hw hsafe fuel hfuel k _ hinv hlo

/-! ### Inputs that fit -/

/-- C2 (as amended): for an input that fits with a non-horizontal edge, and
enough fuel, the set painted by `drawPolygon` on `int` is exactly the set of
`(a, b)` with `y_min(P) ≤ b < y_max(P)` for which an odd number of edge
records on row `b` have their tracked x at or to the left of `a` (tracked x
`≤ a`). -/
theorem C2_painted_set_at_or_left (n : Nat) (x y : Nat → Int) (hfit : fits n x y = true)
    (h : hasSlantedEdge n y) (fuel : Nat) (hf : fuelFor (Machine.edgeRecords n x y) ≤ fuel) :
    ∃ px, Machine.drawPolygon fuel n x y = Result.ok px ∧
      ∀ a b, (a, b) ∈ px ↔
        (polyYMin n y ≤ b ∧ b < polyYMax n y ∧
          Odd (countAtOrLeft (Machine.edgeRecords n x y) a b)) := by
  have he := machine_edgeRecords_eq n x y (deltaFits_of_fits n x y hfit)
  rw [he] at hf ⊢
  rw [machine_drawPolygon_eq n x y hfit fuel hf]
  exact painted_set_at_or_left n x y h fuel hf

/-- Witness of C2 (as amended): the square `(0,0),(4,0),(4,4),(0,4)`. -/
theorem C2_painted_set_at_or_left_witness :
    ∃ px, Machine.drawPolygon 10 4 (arr [0, 4, 4, 0]) (arr [0, 0, 4, 4]) = Result.ok px ∧
      ∀ a b, (a, b) ∈ px ↔
        (polyYMin 4 (arr [0, 0, 4, 4]) ≤ b ∧ b < polyYMax 4 (arr [0, 0, 4, 4]) ∧
          Odd (countAtOrLeft (Machine.edgeRecords 4 (arr [0, 4, 4, 0]) (arr [0, 0, 4, 4]))
            a b)) :=
  C2_painted_set_at_or_left 4 (arr [0, 4, 4, 0]) (arr [0, 0, 4, 4]) (by decide)
    ⟨2, by decide, by decide⟩ 10 (by decide)

/-- C2 (as stated) fails on the square `(0,0),(4,0),(4,4),(0,4)`: the painted
set is not the set of `(a, b)` in the rows of the polygon with an odd number
of records strictly to the left of `a`. Pixel `(0, 0)` is painted although no
record lies strictly to its left. -/
theorem C2_strictly_left_counterexample :
    ¬ (∀ px, Machine.drawPolygon 10 4 (arr [0, 4, 4, 0]) (arr [0, 0, 4, 4]) = Result.ok px →
      ∀ a b, (a, b) ∈ px ↔
        (polyYMin 4 (arr [0, 0, 4, 4]) ≤ b ∧ b < polyYMax 4 (arr [0, 0, 4, 4]) ∧
          Odd (countStrictlyLeft
            (Machine.edgeRecords 4 (arr [0, 4, 4, 0]) (arr [0, 0, 4, 4])) a b))) := by
  intro H
  have h1 := (H _ (by decide :
    Machine.drawPolygon 10 4 (arr [0, 4, 4, 0]) (arr [0, 0, 4, 4]) =
    Result.ok [(0, 0), (1, 0), (2, 0), (3, 0), (0, 1), (1, 1), (2, 1), (3, 1),
      (0, 2), (1, 2), (2, 2), (3, 2), (0, 3), (1, 3), (2, 3), (3, 3)]) 0 0).mp (by decide)
  have h2 : countStrictlyLeft
      (Machine.edgeRecords 4 (arr [0, 4, 4, 0]) (arr [0, 0, 4, 4])) 0 0 = 0 := by
    decide
  rw [h2] at h1
  exact absurd h1.2.2 (by decide)

/-- C18 (as amended): for an input that fits with a non-horizontal edge, and
enough fuel, the scan loop of `processEdgeTable` on `int`, on the sorted edge
table of `createEdges`, terminates with the edge table emptied; at every
iteration the active list at span emission holds exactly the records with
`yMin ≤ scanLine < yMax`; and `scanLine` when the loop stops equals the
maximum `yMax` over all original edges plus one. -/
theorem C18_scan_stops_above_top (n : Nat) (x y : Nat → Int) (hfit : fits n x y = true)
    (h : hasSlantedEdge n y) (fuel : Nat) (hf : fuelFor (Machine.edgeRecords n x y) ≤ fuel) :
    (∃ s, Machine.drawPolygonScan fuel n x y = Result.ok s ∧ s.edgeTable = [] ∧
      s.scanLine = yHigh (Machine.edgeRecords n x y) + 1) ∧
    (∀ b ∈ Machine.edgeRecords n x y, b.yMax ≤ yHigh (Machine.edgeRecords n x y)) ∧
    (∃ b ∈ Machine.edgeRecords n x y, b.yMax = yHigh (Machine.edgeRecords n x y)) ∧
    ∀ k s, Machine.drawPolygonAfter fuel k n x y = Result.ok s →
      ((emissionList s).map (Machine.createEdges n x y).mem).Perm
        ((Machine.edgeRecords n x y).filter (activeAt s.scanLine)) := by
  have he := machine_edgeRecords_eq n x y (deltaFits_of_fits n x y hfit)
  rw [he] at hf ⊢
  rw [machine_drawPolygonScan_eq n x y hfit fuel hf,
    machine_createEdges_eq n x y (deltaFits_of_fits n x y hfit)]
  simp only [machine_drawPolygonAfter_eq n x y hfit fuel hf]
  exact scan_stops_above_top n x y h fuel hf

/-- Witness of C18 (as amended): the square `(0,0),(4,0),(4,4),(0,4)`. -/
theorem C18_scan_stops_above_top_witness :
    (∃ s, Machine.drawPolygonScan 10 4 (arr [0, 4, 4, 0]) (arr [0, 0, 4, 4]) = Result.ok s ∧
      s.edgeTable = [] ∧
      s.scanLine = yHigh (Machine.edgeRecords 4 (arr [0, 4, 4, 0]) (arr [0, 0, 4, 4])) + 1) ∧
    (∀ b ∈ Machine.edgeRecords 4 (arr [0, 4, 4, 0]) (arr [0, 0, 4, 4]),
      b.yMax ≤ yHigh (Machine.edgeRecords 4 (arr [0, 4, 4, 0]) (arr [0, 0, 4, 4]))) ∧
    (∃ b ∈ Machine.edgeRecords 4 (arr [0, 4, 4, 0]) (arr [0, 0, 4, 4]),
      b.yMax = yHigh (Machine.edgeRecords 4 (arr [0, 4, 4, 0]) (arr [0, 0, 4, 4]))) ∧
    ∀ k s, Machine.drawPolygonAfter 10 k 4 (arr [0, 4, 4, 0]) (arr [0, 0, 4, 4]) =
        Result.ok s →
      ((emissionList s).map
          (Machine.createEdges 4 (arr [0, 4, 4, 0]) (arr [0, 0, 4, 4])).mem).Perm
        ((Machine.edgeRecords 4 (arr [0, 4, 4, 0]) (arr [0, 0, 4, 4])).filter
          (activeAt s.scanLine)) :=
  C18_scan_stops_above_top 4 (arr [0, 4, 4, 0]) (arr [0, 0, 4, 4]) (by decide)
    ⟨2, by decide, by decide⟩ 10 (by decide)

/-- C18 (as stated) fails on the square `(0,0),(4,0),(4,4),(0,4)`: the
maximum `yMax` is 4, the scan loop stops with `scanLine = 5`. -/
theorem C18_counterexample :
    yHigh (Machine.edgeRecords 4 (arr [0, 4, 4, 0]) (arr [0, 0, 4, 4])) = 4 ∧
    ¬ (∀ s, Machine.drawPolygonScan 10 4 (arr [0, 4, 4, 0]) (arr [0, 0, 4, 4]) = Result.ok s →
      s.scanLine = yHigh (Machine.edgeRecords 4 (arr [0, 4, 4, 0]) (arr [0, 0, 4, 4]))) := by
  refine ⟨by decide, ?_⟩
  intro H
  have hfit : fits 4 (arr [0, 4, 4, 0]) (arr [0, 0, 4, 4]) = true := by decide
  have hf : fuelFor (edgeRecords 4 (arr [0, 4, 4, 0]) (arr [0, 0, 4, 4])) ≤ 10 := by decide
  obtain ⟨s, hs, _, hsc⟩ := drawPolygonScan_final 4 (arr [0, 4, 4, 0]) (arr [0, 0, 4, 4])
    ⟨2, by decide, by decide⟩ 10 hf
  rw [← machine_drawPolygonScan_eq _ _ _ hfit 10 hf] at hs
  have := H s hs
  rw [machine_edgeRecords_eq _ _ _ (deltaFits_of_fits _ _ _ hfit)] at this
  omega

/-- Outside `fits` the program on `int` is not the program on unbounded
integers. For the edge from `(-2147483648, 0)` to `(2147483647, 1)` the
difference of the x is not an `int`: the record on `int` has `dX = 1`, on
unbounded integers `dX = 4294967295`. For the record of the edge
`(0,0)-(2147483647,3)` the second `sum += dX` is `1 + 2147483647`: on `int`
the accumulator becomes `-2147483648` and the `while` adds nothing to `x`. -/
theorem machine_overflow_examples :
    fitsDelta ⟨-2147483648, 0⟩ ⟨2147483647, 1⟩ = false ∧
    Machine.makeBucket ⟨-2147483648, 0⟩ ⟨2147483647, 1⟩ =
      some ⟨1, 0, -2147483648, 1, 1, 1, 0⟩ ∧
    makeBucket ⟨-2147483648, 0⟩ ⟨2147483647, 1⟩ =
      some ⟨1, 0, -2147483648, 1, 4294967295, 1, 0⟩ ∧
    fits 3 (arr [0, 2147483647, 0]) (arr [0, 3, 6]) = false ∧
    Machine.makeBucket ⟨0, 0⟩ ⟨2147483647, 3⟩ = some ⟨3, 0, 0, 1, 2147483647, 3, 0⟩ ∧
    Machine.advanceEdge 0 ⟨3, 0, 715827882, 1, 2147483647, 3, 1⟩ =
      Result.ok ⟨3, 0, 715827882, 1, 2147483647, 3, -2147483648⟩ := by
  refine ⟨by decide, by decide, by decide, by decide, by decide, by decide⟩

end Slpfa

namespace Hershey

/-! ## Reading a laid-out glyph header -/

theorem skipBlanksCol_spaces (k : Nat) (c : List Int) (col : Int) :
    skipBlanksCol (List.replicate k 32 ++ c) col = skipBlanksCol c (col + k) := by
  induction k generalizing col with
  | zero => simp
  | succ k ih =>
    simp only [List.replicate_succ, List.cons_append, skipBlanksCol]
    have h1 : isBlank 32 = true := by decide
    have h2 : ¬ ((32 : Int) = 10 ∨ (32 : Int) = 13) := by decide
    rw [if_pos h1, if_neg h2, List.append_eq, ih]
    congr 1
    push_cast
    ring

theorem skipBlanksCol_stop (v : Int) (c : List Int) (col : Int) (h : isBlank v = false) :
    skipBlanksCol (v :: c) col = (v :: c, col) := by
  simp [skipBlanksCol, h]

theorem skipBlanks_stop (v : Int) (c : List Int) (h : isBlank v = false) :
    skipBlanks (v :: c) = v :: c := by
  simp [skipBlanks, h]

theorem isBlank_digit (d : Nat) : isBlank (48 + (d : Int)) = false := by
  simp only [isBlank, Bool.or_eq_false_iff, beq_eq_false_iff_ne, ne_eq]
  omega

theorem grabNumber_full (limit : Int) (c : List Int) (col acc : Int) (h : limit ≤ col) :
    grabNumber limit c col acc = (c, col, acc) := by
  cases c with
  | nil => rfl
  | cons v rest =>
    have : ¬ (col < limit ∧ 48 ≤ v ∧ v ≤ 57) := by omega
    simp only [grabNumber, this, if_false]

theorem grabNumber_digits (limit : Int) (c : List Int) : ∀ (ds : List Nat) (col acc : Int),
    (∀ d ∈ ds, d < 10) → col + ds.length ≤ limit →
    grabNumber limit (ds.map (fun (d : Nat) => 48 + (d : Int)) ++ c) col acc =
      grabNumber limit c (col + ds.length) (digitsValue acc ds)
  | [], col, acc, _, _ => by simp [digitsValue]
  | d :: ds, col, acc, hd, hc => by
    have hd0 := hd d (List.mem_cons_self _ _)
    simp only [List.length_cons, Nat.cast_add, Nat.cast_one] at hc
    have hcond : col < limit ∧ (48 : Int) ≤ 48 + (d : Int) ∧ 48 + (d : Int) ≤ 57 := by omega
    simp only [List.map_cons, List.cons_append, grabNumber, hcond, and_self, if_true,
      List.append_eq]
    rw [grabNumber_digits limit c ds (col + 1) _ (fun e he => hd e (List.mem_cons_of_mem _ he))
      (by omega)]
    have e1 : col + 1 + (ds.length : Int) = col + ((ds.length : Int) + 1) := by ring
    have e2 : acc * 10 + (48 + (d : Int) - 48) = acc * 10 + (d : Int) := by ring
    simp only [digitsValue, List.length_cons, Nat.cast_add, Nat.cast_one, e1, e2]

theorem field_read (limit : Int) (width : Nat) (ds : List Nat) (c : List Int) (col : Int)
    (hne : ds ≠ []) (hlen : ds.length ≤ width) (hd : ∀ d ∈ ds, d < 10)
    (hcol : col + width = limit) :
    grabNumber limit (skipBlanksCol (rightJustified width ds ++ c) col).1
      (skipBlanksCol (rightJustified width ds ++ c) col).2 0 = (c, limit, digitsValue 0 ds) := by
  unfold rightJustified
  rw [List.append_assoc, skipBlanksCol_spaces]
  obtain ⟨d, t, rfl⟩ : ∃ d t, ds = d :: t := by
    cases ds with
    | nil => exact absurd rfl hne
    | cons d t => exact ⟨d, t, rfl⟩
  rw [List.map_cons, List.cons_append, skipBlanksCol_stop _ _ _ (isBlank_digit d)]
  simp only
  rw [← List.cons_append, ← List.map_cons (fun (d : Nat) => 48 + (d : Int))]
  have hsum : col + ((width - (d :: t).length : Nat) : Int) + ((d :: t).length : Int) = limit := by
    rw [Nat.cast_sub hlen]
    omega
  rw [grabNumber_digits limit c (d :: t) _ 0 hd (le_of_eq hsum), hsum,
    grabNumber_full limit c limit _ (le_refl _)]

/-- C10 (as amended): for a glyph record that starts at column 0 and consists
of a 5-column right-justified decimal glyph number `≥ 1`, a 3-column
right-justified decimal pair count, a left bearing byte that is neither
whitespace nor NUL, a right bearing byte that is not NUL, and at least one
further byte that is not NUL, the decoder reads that glyph number and that pair
count, the bearings `byte - 'R'`, and the width `|right| + |left|`; it is then
at column 8, just behind the bearings. -/
theorem C10_header_of_laid_out_record (gd pd : List Nat) (l r : Int) (rest : List Int)
    (hg1 : gd ≠ []) (hg2 : gd.length ≤ 5) (hg3 : ∀ d ∈ gd, d < 10)
    (hg4 : 1 ≤ digitsValue 0 gd)
    (hp1 : pd ≠ []) (hp2 : pd.length ≤ 3) (hp3 : ∀ d ∈ pd, d < 10)
    (hl : isBlank l = false) (hl0 : l ≠ 0) (hr : r ≠ 0) (hrest : peek rest ≠ 0) :
    readHeader (rightJustified 5 gd ++ (rightJustified 3 pd ++ l :: r :: rest)) 0 =
      Header.decoded (digitsValue 0 gd) (digitsValue 0 pd) (l - 82) (r - 82)
        (|r - 82| + |l - 82|) rest 8 := by
  unfold readHeader
  simp only
  rw [field_read 5 5 gd _ 0 hg1 hg2 hg3 (by norm_num)]
  simp only
  rw [if_neg (by omega : ¬ digitsValue 0 gd = 0)]
  rw [field_read 8 3 pd _ 5 hp1 hp2 hp3 (by norm_num)]
  simp only
  rw [skipBlanks_stop l _ hl]
  simp only [peek, List.headD_cons, List.tail_cons, hl0, hr, if_false]
  rw [if_neg (by simpa [peek] using hrest)]
  simp only [Int.natCast_natAbs]

/-- Witness of C10 (as amended): the line `    1  9MWRFRT RRYQZR[SZRY` gives
glyph 1, 9 pairs, left -5, right 5, width 10. -/
theorem C10_header_of_laid_out_record_witness :
    readHeader (rightJustified 5 [1] ++ (rightJustified 3 [9] ++
        77 :: 87 :: [82, 70, 82, 84, 32, 82, 82, 89, 81, 90, 82, 91, 83, 90, 82, 89])) 0 =
      Header.decoded (digitsValue 0 [1]) (digitsValue 0 [9]) (77 - 82) (87 - 82)
        (|87 - 82| + |77 - 82|)
        [82, 70, 82, 84, 32, 82, 82, 89, 81, 90, 82, 91, 83, 90, 82, 89] 8 :=
  C10_header_of_laid_out_record [1] [9] 77 87
    [82, 70, 82, 84, 32, 82, 82, 89, 81, 90, 82, 91, 83, 90, 82, 89]
    (by decide) (by decide) (by decide) (by decide) (by decide) (by decide) (by decide)
    (by decide) (by decide) (by decide) (by decide)

/-- C10 (as stated) fails: the record `    1  1MW` at the very end of the
buffer is laid out as the claim asks, yet the decoder returns without
recording a width; and in `    1  2 WRF` the left bearing byte is a space,
which the decoder skips, reading left bearing `'W' - 'R' = 5` instead of
`' ' - 'R' = -50`. -/
theorem C10_counterexample :
    readHeader (rightJustified 5 [1] ++ (rightJustified 3 [1] ++ [77, 87])) 0 =
        Header.silentReturn ∧
      readHeader (rightJustified 5 [1] ++ (rightJustified 3 [2] ++ [32, 87, 82, 70])) 0 =
        Header.decoded 1 2 5 0 5 [70] 8 := by
  constructor <;> decide

/-! ## The pair loop -/

theorem toChar_plain (b : Int) (h : plainByte b = true) : toChar (b - 82) = b - 82 := by
  simp only [plainByte, decide_eq_true_eq] at h
  unfold toChar
  omega

theorem skipNewlines_run : ∀ (nl : List Int) (v : Int) (rest : List Int) (col : Int),
    newlineRun nl = true → plainByte v = true →
    ∃ col1, skipNewlines (nl ++ v :: rest) col = (v :: rest, col1)
  | [], v, rest, col, _, hv => by
    simp only [plainByte, decide_eq_true_eq] at hv
    have : ¬ (v = 10 ∨ v = 13) := by omega
    exact ⟨col, by simp [skipNewlines, this]⟩
  | w :: nl, v, rest, col, hnl, hv => by
    simp only [newlineRun, List.all_cons, Bool.and_eq_true, decide_eq_true_eq] at hnl
    obtain ⟨col1, h⟩ := skipNewlines_run nl v rest 0 hnl.2 hv
    exact ⟨col1, by simp only [List.cons_append, skipNewlines, hnl.1, if_true]; exact h⟩

theorem pairLoop_stream : ∀ (ps : List StreamPair) (nl rest : List Int) (col : Int) (pen : Pen),
    ps.all StreamPair.plain = true → newlineRun nl = true →
    ∃ c1 col1, pairLoop ps.length (skipNewlines (nl ++ (streamBytes ps ++ rest)) col).1
        (skipNewlines (nl ++ (streamBytes ps ++ rest)) col).2 pen =
      Pairs.done c1 col1 ((ps.map StreamPair.point).foldl penStep pen)
  | [], nl, rest, col, pen, _, _ => ⟨_, _, rfl⟩
  | p :: ps, nl, rest, col, pen, hps, hnl => by
    simp only [List.all_cons, Bool.and_eq_true, StreamPair.plain] at hps
    obtain ⟨⟨⟨⟨hf, hnf⟩, hs⟩, hns⟩, hrest⟩ := hps
    have hbytes : streamBytes (p :: ps) ++ rest =
        p.first :: (p.afterFirst ++ p.second :: (p.afterSecond ++ (streamBytes ps ++ rest))) := by
      simp [streamBytes, StreamPair.bytes]
    rw [hbytes]
    obtain ⟨col1, h1⟩ := skipNewlines_run nl p.first _ col hnl hf
    obtain ⟨col2, h2⟩ := skipNewlines_run p.afterFirst p.second
      (p.afterSecond ++ (streamBytes ps ++ rest)) col1 hnf hs
    obtain ⟨c3, col3, h3⟩ := pairLoop_stream ps p.afterSecond rest col2
      (penStep pen p.point) hrest hns
    refine ⟨c3, col3, ?_⟩
    rw [h1]
    simp only [List.length_cons, pairLoop, h2, peek, List.headD_cons, List.tail_cons]
    have hs0 : p.second ≠ 0 := by
      simp only [plainByte, decide_eq_true_eq] at hs
      omega
    rw [if_neg hs0, toChar_plain _ hf, toChar_plain _ hs]
    simpa [StreamPair.point] using h3

theorem pairLoop_stream_start (ps : List StreamPair) (rest : List Int) (col : Int) (pen : Pen)
    (hps : ps.all StreamPair.plain = true) :
    ∃ c1 col1, pairLoop ps.length (streamBytes ps ++ rest) col pen =
      Pairs.done c1 col1 ((ps.map StreamPair.point).foldl penStep pen) := by
  cases ps with
  | nil => exact ⟨_, _, rfl⟩
  | cons p ps =>
    obtain ⟨c1, col1, h⟩ := pairLoop_stream (p :: ps) [] rest col pen hps rfl
    refine ⟨c1, col1, ?_⟩
    have hf : plainByte p.first = true := by
      simp only [List.all_cons, Bool.and_eq_true, StreamPair.plain] at hps
      exact hps.1.1.1.1
    simp only [plainByte, decide_eq_true_eq] at hf
    have hn : ¬ (p.first = 10 ∨ p.first = 13) := by omega
    have hsk : skipNewlines ([] ++ (streamBytes (p :: ps) ++ rest)) col =
        (streamBytes (p :: ps) ++ rest, col) := by
      simp [streamBytes, StreamPair.bytes, skipNewlines, hn]
    rw [hsk] at h
    exact h

/-! ## Strokes and segments -/

theorem moveTo_data (pen : Pen) (a b : Int) : (moveTo pen a b).data = pen.data := rfl

theorem moveTo_penup (pen : Pen) (a b : Int) : (moveTo pen a b).penup = pen.penup := rfl

theorem moveTo_xy (pen : Pen) (a b : Int) : (moveTo pen a b).x = a ∧ (moveTo pen a b).y = b :=
  ⟨rfl, rfl⟩

theorem strokesOf_ne_nil : ∀ (pts : List (Int × Int)), strokesOf pts ≠ []
  | [] => by simp [strokesOf]
  | p :: ps => by
    unfold strokesOf
    split_ifs
    · simp
    · cases strokesOf ps <;> simp

theorem strokesOf_cons_point (q : Int × Int) (pts : List (Int × Int)) (hq : q ≠ penUp) :
    ∃ s ss, strokesOf pts = s :: ss ∧ strokesOf (q :: pts) = (q :: s) :: ss := by
  cases h : strokesOf pts with
  | nil => exact absurd h (strokesOf_ne_nil pts)
  | cons s ss => exact ⟨s, ss, rfl, by simp [strokesOf, hq, h]⟩

theorem fold_segments : ∀ (pts : List (Int × Int)) (pen : Pen),
    (pen.penup ≠ 0 → separated true pts = true →
      (pts.foldl penStep pen).data = pen.data ++ (strokesOf pts).flatMap segmentsOf) ∧
    (pen.penup = 0 → (pen.x, pen.y) ≠ penUp → separated false pts = true →
      (pts.foldl penStep pen).data =
        pen.data ++ (strokesOf ((pen.x, pen.y) :: pts)).flatMap segmentsOf)
  | [], pen => by
    constructor
    · intro _ _
      simp [strokesOf, segmentsOf]
    · intro _ hq _
      simp [strokesOf, hq, segmentsOf]
  | p :: rest, pen => by
    constructor
    · intro hup hsep
      simp only [separated, Bool.and_eq_true, decide_eq_true_eq] at hsep
      have hstep : penStep pen p = moveTo { pen with penup := 0 } p.1 p.2 := by
        simp [penStep, hup]
      rw [List.foldl_cons, hstep]
      have ih := (fold_segments rest (moveTo { pen with penup := 0 } p.1 p.2)).2 rfl
        (by simpa [moveTo] using hsep.1) hsep.2
      rw [ih]
      simp [moveTo]
    · intro hdown hq hsep
      by_cases hp : p = penUp
      · simp only [separated, hp, if_true] at hsep
        have hstep : penStep pen p = { pen with penup := 1 } := by
          simp [penStep, hdown, hp, penUp]
        rw [List.foldl_cons, hstep]
        have ih := (fold_segments rest { pen with penup := 1 }).1 (by simp) hsep
        rw [ih, hp]
        obtain ⟨s, ss, h1, h2⟩ := strokesOf_cons_point (pen.x, pen.y) (penUp :: rest) hq
        have h3 : strokesOf (penUp :: rest) = [] :: strokesOf rest := by simp [strokesOf]
        rw [h3] at h1
        injection h1 with e1 e2
        rw [h2, ← e1, ← e2]
        simp [segmentsOf]
      · simp only [separated, hp, if_false] at hsep
        have hne : ¬ (p.1 = 32 - 82 ∧ p.2 = 82 - 82) := by
          intro h
          apply hp
          rcases p with ⟨a, b⟩
          simp only at h
          simp [penUp, h.1, h.2]
        have hstep : penStep pen p =
            moveTo { pen with data := pen.data ++ [pen.x, pen.y, p.1, p.2] } p.1 p.2 := by
          simp only [penStep, hdown, if_true, hne, if_false]
        rw [List.foldl_cons, hstep]
        have ih := (fold_segments rest
          (moveTo { pen with data := pen.data ++ [pen.x, pen.y, p.1, p.2] } p.1 p.2)).2
          hdown (by simpa [moveTo] using hp) hsep
        rw [ih]
        obtain ⟨s, ss, h1, h2⟩ := strokesOf_cons_point p rest hp
        have h4 : strokesOf ((pen.x, pen.y) :: p :: rest) = ((pen.x, pen.y) :: p :: s) :: ss := by
          obtain ⟨s', ss', h1', h2'⟩ := strokesOf_cons_point (pen.x, pen.y) (p :: rest) hq
          rw [h2] at h1'
          injection h1' with e1 e2
          rw [h2', ← e1, ← e2]
        rw [h4]
        simp only [moveTo]
        rw [h2]
        simp [segmentsOf]

/-- C11 (as amended): for a pair stream of plain bytes, possibly broken by
line breaks, in which no space-R pair stands first or directly behind another
space-R pair, the pair loop ends, and the segment data of the glyph is
exactly, in order, the line segments joining each two consecutive points of
each stroke obtained by splitting the stream at the space-R pairs: a space-R
pair contributes no coordinates and the pair behind it starts a new stroke. -/
theorem C11_segments_of_strokes (ps : List StreamPair) (rest : List Int)
    (col miny maxy : Int) (hplain : ps.all StreamPair.plain = true)
    (hsep : separated true (ps.map StreamPair.point) = true) :
    ∃ c1 col1 pen,
      pairLoop ps.length (streamBytes ps ++ rest) col (penStart miny maxy) =
        Pairs.done c1 col1 pen ∧
      pen.data = (strokesOf (ps.map StreamPair.point)).flatMap segmentsOf := by
  obtain ⟨c1, col1, h⟩ := pairLoop_stream_start ps rest col (penStart miny maxy) hplain
  refine ⟨c1, col1, _, h, ?_⟩
  have := (fold_segments (ps.map StreamPair.point) (penStart miny maxy)).1
    (by simp [penStart]) hsep
  simpa [penStart] using this

/-- Witness of C11 (as amended): the stream `RF RT`, space-R, `RY QZ R[ SZ RY`
gives the 5 segments `(0,-12)-(0,2)`, `(0,7)-(-1,8)`, `(-1,8)-(0,9)`,
`(0,9)-(1,8)`, `(1,8)-(0,7)`. -/
theorem C11_segments_of_strokes_witness :
    (strokesOf ([⟨82, [], 70, []⟩, ⟨82, [], 84, []⟩, ⟨32, [], 82, []⟩, ⟨82, [], 89, []⟩,
        ⟨81, [], 90, []⟩, ⟨82, [], 91, []⟩, ⟨83, [], 90, []⟩,
        ⟨82, [], 89, []⟩].map StreamPair.point)).flatMap segmentsOf =
      [0, -12, 0, 2, 0, 7, -1, 8, -1, 8, 0, 9, 0, 9, 1, 8, 1, 8, 0, 7] ∧
    ∃ c1 col1 pen,
      pairLoop ([⟨82, [], 70, []⟩, ⟨82, [], 84, []⟩, ⟨32, [], 82, []⟩, ⟨82, [], 89, []⟩,
          ⟨81, [], 90, []⟩, ⟨82, [], 91, []⟩, ⟨83, [], 90, []⟩,
          ⟨82, [], 89, []⟩] : List StreamPair).length
        (streamBytes [⟨82, [], 70, []⟩, ⟨82, [], 84, []⟩, ⟨32, [], 82, []⟩, ⟨82, [], 89, []⟩,
          ⟨81, [], 90, []⟩, ⟨82, [], 91, []⟩, ⟨83, [], 90, []⟩, ⟨82, [], 89, []⟩] ++ [10]) 8
        (penStart 200 (-200)) = Pairs.done c1 col1 pen ∧
      pen.data = (strokesOf ([⟨82, [], 70, []⟩, ⟨82, [], 84, []⟩, ⟨32, [], 82, []⟩,
        ⟨82, [], 89, []⟩, ⟨81, [], 90, []⟩, ⟨82, [], 91, []⟩, ⟨83, [], 90, []⟩,
        ⟨82, [], 89, []⟩].map StreamPair.point)).flatMap segmentsOf :=
  ⟨by decide, C11_segments_of_strokes _ [10] 8 200 (-200) (by decide) (by decide)⟩

/-- C11 (as stated) fails on the stream space-R, `RF`, `RT`: the space-R pair
comes with the pen up and is taken as the point `(-50, 0)`, so the glyph gets
the segment `(-50,0)-(0,-12)` in front of `(0,-12)-(0,2)`, while splitting
the stream at the space-R pair gives the one segment `(0,-12)-(0,2)`. -/
theorem C11_counterexample :
    pairLoop 3 [32, 82, 82, 70, 82, 84] 8 (penStart 200 (-200)) =
      Pairs.done [] 8 ⟨0, 0, 2, -50, 0, -12, 2, [-50, 0, 0, -12, 0, -12, 0, 2]⟩ ∧
    (strokesOf [(-50, 0), (0, -12), (0, 2)]).flatMap segmentsOf = [0, -12, 0, 2] := by
  constructor <;> decide

/-! ## Rows of glyph data -/

theorem xsOf_append : ∀ (l1 l2 : List Int), l1.length % 2 = 0 →
    xsOf (l1 ++ l2) = xsOf l1 ++ xsOf l2
  | [], l2, _ => rfl
  | [_], _, h => by simp at h
  | a :: b :: l, l2, h => by
    have h2 : l.length % 2 = 0 := by simp only [List.length_cons] at h; omega
    simp only [List.cons_append, xsOf, List.append_eq, xsOf_append l l2 h2]

theorem ysOf_append : ∀ (l1 l2 : List Int), l1.length % 2 = 0 →
    ysOf (l1 ++ l2) = ysOf l1 ++ ysOf l2
  | [], l2, _ => rfl
  | [_], _, h => by simp at h
  | a :: b :: l, l2, h => by
    have h2 : l.length % 2 = 0 := by simp only [List.length_cons] at h; omega
    simp only [List.cons_append, ysOf, List.append_eq, ysOf_append l l2 h2]

theorem mem_xs_or_ys : ∀ (l : List Int) (v : Int), v ∈ l → v ∈ xsOf l ∨ v ∈ ysOf l
  | [], v, h => by simp at h
  | [a], v, h => by left; simpa [xsOf] using h
  | a :: b :: l, v, h => by
    simp only [List.mem_cons] at h
    simp only [xsOf, ysOf, List.mem_cons]
    rcases h with h | h | h
    · exact Or.inl (Or.inl h)
    · exact Or.inr (Or.inl h)
    · rcases mem_xs_or_ys l v h with h1 | h1
      · exact Or.inl (Or.inr h1)
      · exact Or.inr (Or.inr h1)

theorem normalizeData_even (mx my : Int) : ∀ (l : List Int), l.length % 2 = 0 →
    ∃ nd, normalizeData mx my l = some nd ∧ nd.length = l.length ∧
      xsOf nd = (xsOf l).map (fun v => v + -mx) ∧ ysOf nd = (ysOf l).map (fun v => v + -my)
  | [], _ => ⟨[], rfl, rfl, rfl, rfl⟩
  | [_], h => by simp at h
  | a :: b :: l, h => by
    have h2 : l.length % 2 = 0 := by simp only [List.length_cons] at h; omega
    obtain ⟨nd, e1, e2, e3, e4⟩ := normalizeData_even mx my l h2
    exact ⟨(a + -mx) :: (b + -my) :: nd, by simp [normalizeData, e1], by simp [e2],
      by simp [xsOf, e3], by simp [ysOf, e4]⟩

theorem normalizeData_some (mx my : Int) : ∀ (l nd : List Int),
    normalizeData mx my l = some nd →
    l.length % 2 = 0 ∧ nd.length = l.length ∧
      xsOf nd = (xsOf l).map (fun v => v + -mx) ∧ ysOf nd = (ysOf l).map (fun v => v + -my)
  | [], nd, h => by
    simp only [normalizeData, Option.some.injEq] at h
    subst h
    exact ⟨rfl, rfl, rfl, rfl⟩
  | [_], nd, h => by simp [normalizeData] at h
  | a :: b :: l, nd, h => by
    simp only [normalizeData] at h
    cases hr : normalizeData mx my l with
    | none => rw [hr] at h; simp at h
    | some r =>
      rw [hr] at h
      simp only [Option.some.injEq] at h
      subst h
      obtain ⟨e1, e2, e3, e4⟩ := normalizeData_some mx my l r hr
      refine ⟨by simp only [List.length_cons]; omega, by simp [e2], by simp [xsOf, e3],
        by simp [ysOf, e4]⟩

theorem isDegenerate_normalize (mx my : Int) (l nd : List Int)
    (h : normalizeData mx my l = some nd) : isDegenerate nd = isDegenerate l := by
  match l, h with
  | [a, b, c, d], h =>
    simp only [normalizeData, Option.some.injEq] at h
    subst h
    simp only [isDegenerate, List.length_cons, List.length_nil, List.getD_cons_zero,
      List.getD_cons_succ]
    have e1 : (a + -mx == c + -mx) = (a == c) := by
      by_cases hac : a = c
      · simp [hac]
      · have : ¬ (a + -mx = c + -mx) := by omega
        simp [hac, this]
    have e2 : (b + -my == d + -my) = (b == d) := by
      by_cases hbd : b = d
      · simp [hbd]
      · have : ¬ (b + -my = d + -my) := by omega
        simp [hbd, this]
    rw [e1, e2]
  | [], h =>
    simp only [normalizeData, Option.some.injEq] at h
    subst h
    rfl
  | [_], h => simp [normalizeData] at h
  | [a, b], h =>
    simp only [normalizeData, Option.some.injEq] at h
    subst h
    rfl
  | [a, b, c], h => simp [normalizeData] at h
  | a :: b :: c :: d :: e :: l, h =>
    obtain ⟨_, e2, _, _⟩ := normalizeData_some mx my _ nd h
    have h1 : nd.length ≠ 4 := by rw [e2]; simp
    have h2 : (a :: b :: c :: d :: e :: l).length ≠ 4 := by simp
    simp [isDegenerate, h1, h2]

/-! ## Invariants of the pair loop and of the glyph loop -/

theorem penStart_inv (a b : Int) : PenInv (penStart a b) :=
  ⟨rfl, by simp [penStart, xsOf], by simp [penStart, ysOf], by simp [penStart]⟩

theorem penStep_inv (pen : Pen) (p : Int × Int) (h : PenInv pen) :
    PenInv (penStep pen p) ∧ (penStep pen p).miny ≤ pen.miny := by
  obtain ⟨hlen, hxs, hys, hcur⟩ := h
  have hlen2 : pen.data.length % 2 = 0 := by omega
  unfold penStep
  by_cases hdown : pen.penup = 0
  · rw [if_pos hdown]
    by_cases hup : p.1 = 32 - 82 ∧ p.2 = 82 - 82
    · rw [if_pos hup]
      exact ⟨⟨hlen, hxs, hys, by simp⟩, le_refl _⟩
    · rw [if_neg hup]
      obtain ⟨c1, c2, c3, c4⟩ := hcur hdown
      refine ⟨⟨?_, ?_, ?_, ?_⟩, ?_⟩
      · simp only [moveTo, List.length_append, List.length_cons, List.length_nil]
        omega
      · intro v hv
        simp only [moveTo, xsOf_append _ _ hlen2, xsOf, List.mem_append, List.mem_cons,
          List.mem_singleton, List.not_mem_nil, or_false] at hv ⊢
        rcases hv with hv | hv | hv
        · have := hxs v hv
          constructor <;> split_ifs <;> omega
        · subst hv
          constructor <;> split_ifs <;> omega
        · subst hv
          constructor <;> split_ifs <;> omega
      · intro v hv
        simp only [moveTo, ysOf_append _ _ hlen2, ysOf, List.mem_append, List.mem_cons,
          List.mem_singleton, List.not_mem_nil, or_false] at hv ⊢
        rcases hv with hv | hv | hv
        · have := hys v hv
          constructor <;> split_ifs <;> omega
        · subst hv
          constructor <;> split_ifs <;> omega
        · subst hv
          constructor <;> split_ifs <;> omega
      · intro _
        simp only [moveTo]
        refine ⟨?_, ?_, ?_, ?_⟩ <;> split_ifs <;> omega
      · simp only [moveTo]
        split_ifs <;> omega
  · rw [if_neg hdown]
    refine ⟨⟨hlen, ?_, ?_, ?_⟩, ?_⟩
    · intro v hv
      have := hxs v hv
      simp only [moveTo]
      constructor <;> split_ifs <;> omega
    · intro v hv
      have := hys v hv
      simp only [moveTo]
      constructor <;> split_ifs <;> omega
    · intro _
      simp only [moveTo]
      refine ⟨?_, ?_, ?_, ?_⟩ <;> split_ifs <;> omega
    · simp only [moveTo]
      split_ifs <;> omega

theorem fold_inv : ∀ (pts : List (Int × Int)) (pen : Pen), PenInv pen →
    PenInv (pts.foldl penStep pen) ∧ (pts.foldl penStep pen).miny ≤ pen.miny
  | [], pen, h => ⟨h, le_refl _⟩
  | p :: rest, pen, h => by
    obtain ⟨h1, h2⟩ := penStep_inv pen p h
    obtain ⟨h3, h4⟩ := fold_inv rest (penStep pen p) h1
    exact ⟨h3, le_trans h4 h2⟩

theorem pairLoop_fold : ∀ (k : Nat) (c : List Int) (col : Int) (pen : Pen)
    (c1 : List Int) (col1 : Int) (pen1 : Pen),
    pairLoop k c col pen = Pairs.done c1 col1 pen1 →
    ∃ pts : List (Int × Int), pts.length = k ∧ pen1 = pts.foldl penStep pen ∧
      ∀ p ∈ pts, (-128 ≤ p.1 ∧ p.1 ≤ 127) ∧ (-128 ≤ p.2 ∧ p.2 ≤ 127)
  | 0, c, col, pen, c1, col1, pen1, h => by
    simp only [pairLoop, Pairs.done.injEq] at h
    exact ⟨[], rfl, h.2.2.symm, by simp⟩
  | k + 1, [], col, pen, c1, col1, pen1, h => by simp [pairLoop] at h
  | k + 1, v :: c0, col, pen, c1, col1, pen1, h => by
    simp only [pairLoop] at h
    split_ifs at h with h0
    obtain ⟨pts, hl, hp, hr⟩ := pairLoop_fold k _ _ _ c1 col1 pen1 h
    refine ⟨(toChar (v - 82), toChar (peek (skipNewlines c0 col).1 - 82)) :: pts,
      by simp [hl], by simpa using hp, ?_⟩
    intro p hp
    rcases List.mem_cons.mp hp with e | e
    · subst e
      simp only [toChar]
      omega
    · exact hr p e

theorem RawGlyph.Ok.mono {g : RawGlyph} {m m1 : Int} (h : g.Ok m) (hm : m1 ≤ m) : g.Ok m1 := by
  refine ⟨h.1, fun hd => ⟨(h.2 hd).1, fun v hv => ?_⟩⟩
  have := (h.2 hd).2 v hv
  omega

theorem finishGlyph_ok (glyphno width : Int) (pen : Pen) (h : PenInv pen) :
    (finishGlyph glyphno width pen).Ok pen.miny := by
  obtain ⟨hlen, hxs, hys, _⟩ := h
  unfold finishGlyph RawGlyph.Ok
  by_cases h4 : pen.data.length < 4
  · have h0 : pen.data = [] := List.length_eq_zero.mp (by omega)
    simp [h0, isDegenerate]
  · simp only [h4, if_false]
    refine ⟨by omega, ?_⟩
    intro hd
    simp only [hd, Bool.false_eq_true, if_false]
    exact ⟨fun v hv => (hxs v hv).1, fun v hv => (hys v hv).1⟩

theorem glyphStep_inv (d d1 : Decoder) (h : d.Inv) (hs : glyphStep d = Step.next d1) :
    d1.Inv := by
  unfold glyphStep at hs
  cases hh : readHeader d.c d.col with
  | parseError col => rw [hh] at hs; simp at hs
  | windowOutOfBounds => rw [hh] at hs; simp at hs
  | silentReturn => rw [hh] at hs; simp at hs
  | decoded glyphno pairs left right width c col =>
    rw [hh] at hs
    simp only at hs
    cases hp : pairLoop (pairs - 1).toNat c col (penStart d.miny d.maxy) with
    | silentReturn => rw [hp] at hs; simp at hs
    | undefined => rw [hp] at hs; simp at hs
    | done c1 col1 pen =>
      rw [hp] at hs
      simp only [Step.next.injEq] at hs
      subst hs
      obtain ⟨pts, _, hpen, _⟩ := pairLoop_fold _ _ _ _ _ _ _ hp
      obtain ⟨hinv, hmono⟩ := fold_inv pts (penStart d.miny d.maxy) (penStart_inv _ _)
      rw [← hpen] at hinv hmono
      intro g hg
      simp only [List.mem_append, List.mem_singleton] at hg
      rcases hg with hg | hg
      · exact (h g hg).mono hmono
      · rw [hg]
        exact finishGlyph_ok glyphno width pen hinv

theorem glyphLoop_table : ∀ (fuel : Nat) (d : Decoder) (t : FontTable), d.Inv →
    glyphLoop fuel d = Outcome.table t → ∃ d1, d1.Inv ∧ emitTable d1 = Outcome.table t
  | 0, d, t, h, hl => by
    simp only [glyphLoop] at hl
    split_ifs at hl
    exact ⟨d, h, hl⟩
  | fuel + 1, d, t, h, hl => by
    simp only [glyphLoop] at hl
    split_ifs at hl
    · exact ⟨d, h, hl⟩
    · cases hs : glyphStep d with
      | next d1 =>
        rw [hs] at hl
        exact glyphLoop_table fuel d1 t (glyphStep_inv d d1 h hs) hl
      | parseError gc col => rw [hs] at hl; simp at hl
      | windowOutOfBounds gc => rw [hs] at hl; simp at hl
      | silentReturn => rw [hs] at hl; simp at hl
      | undefined => rw [hs] at hl; simp at hl

theorem emitGlyphs_mem (m : Int) : ∀ (gs : List RawGlyph) (os : List OutGlyph),
    emitGlyphs m gs = some os → ∀ o ∈ os, ∃ g ∈ gs, emitGlyph m g = some o
  | [], os, h, o, ho => by
    simp only [emitGlyphs, Option.some.injEq] at h
    subst h
    simp at ho
  | g :: rest, os, h, o, ho => by
    simp only [emitGlyphs] at h
    cases h1 : emitGlyph m g with
    | none => rw [h1] at h; simp at h
    | some o1 =>
      cases h2 : emitGlyphs m rest with
      | none => rw [h1, h2] at h; simp at h
      | some os1 =>
        rw [h1, h2] at h
        simp only [Option.some.injEq] at h
        subst h
        rcases List.mem_cons.mp ho with e | e
        · exact ⟨g, List.mem_cons_self _ _, by rw [h1, e]⟩
        · obtain ⟨g1, hg1, he⟩ := emitGlyphs_mem m rest os1 h2 o e
          exact ⟨g1, List.mem_cons_of_mem _ hg1, he⟩

theorem decode_glyph_source (fuel : Nat) (buf : List Int) (t : FontTable)
    (h : decode fuel buf = Outcome.table t) :
    ∃ d1 : Decoder, d1.Inv ∧ ∀ o ∈ t.glyphs, ∃ g ∈ d1.glyphs, emitGlyph d1.miny g = some o := by
  unfold decode at h
  obtain ⟨d1, hinv, he⟩ := glyphLoop_table fuel _ t (by intro g hg; simp at hg) h
  refine ⟨d1, hinv, ?_⟩
  unfold emitTable at he
  cases hg : emitGlyphs d1.miny d1.glyphs with
  | none => rw [hg] at he; simp at he
  | some gs =>
    rw [hg] at he
    simp only [Outcome.table.injEq] at he
    subst he
    exact emitGlyphs_mem _ _ _ hg

theorem emitGlyph_nonneg (m : Int) (g : RawGlyph) (o : OutGlyph) (hok : g.Ok m)
    (he : emitGlyph m g = some o) (hd : isDegenerate o.data = false) :
    ∀ v ∈ o.data, 0 ≤ v := by
  unfold emitGlyph at he
  cases hn : normalizeData g.minx m g.data with
  | none => rw [hn] at he; simp at he
  | some nd =>
    rw [hn] at he
    simp only [Option.some.injEq] at he
    subst he
    simp only at hd ⊢
    rw [isDegenerate_normalize _ _ _ _ hn] at hd
    obtain ⟨hx, hy⟩ := hok.2 hd
    obtain ⟨_, _, e3, e4⟩ := normalizeData_some _ _ _ _ hn
    intro v hv
    rcases mem_xs_or_ys nd v hv with h1 | h1
    · rw [e3] at h1
      obtain ⟨u, hu, rfl⟩ := List.mem_map.mp h1
      have := hx u hu
      omega
    · rw [e4] at h1
      obtain ⟨u, hu, rfl⟩ := List.mem_map.mp h1
      have := hy u hu
      omega

/-- C12 (as amended): for every font file that decodes to a table, after the
normalization pass every coordinate of every segment of every glyph whose
row is not a single degenerate segment is `≥ 0`. -/
theorem C12_normalized_nonneg (fuel : Nat) (buf : List Int) (t : FontTable)
    (h : decode fuel buf = Outcome.table t) :
    ∀ g ∈ t.glyphs, isDegenerate g.data = false → ∀ v ∈ g.data, 0 ≤ v := by
  obtain ⟨d1, hinv, hsrc⟩ := decode_glyph_source fuel buf t h
  intro o ho hd
  obtain ⟨g, hg, he⟩ := hsrc o ho
  exact emitGlyph_nonneg _ g o (hinv g hg) he hd

/-- Witness of C12 (as amended): the file with the one line
`    1  9MWRFRT RRYQZR[SZRY`. -/
theorem C12_normalized_nonneg_witness :
    decode 3 [32, 32, 32, 32, 49, 32, 32, 57, 77, 87, 82, 70, 82, 84, 32, 82, 82, 89, 81, 90,
        82, 91, 83, 90, 82, 89, 10] =
      Outcome.table
        ⟨[⟨1, 10, 2, [1, 0, 1, 14, 1, 19, 0, 20, 0, 20, 1, 21, 1, 21, 2, 20, 2, 20, 1, 19]⟩],
          1, 21⟩ ∧
    ∀ g ∈ (⟨[⟨1, 10, 2, [1, 0, 1, 14, 1, 19, 0, 20, 0, 20, 1, 21, 1, 21, 2, 20, 2, 20, 1, 19]⟩],
        1, 21⟩ : FontTable).glyphs,
      isDegenerate g.data = false → ∀ v ∈ g.data, 0 ≤ v :=
  ⟨by decide, C12_normalized_nonneg 3
    [32, 32, 32, 32, 49, 32, 32, 57, 77, 87, 82, 70, 82, 84, 32, 82, 82, 89, 81, 90, 82, 91,
      83, 90, 82, 89, 10]
    ⟨[⟨1, 10, 2, [1, 0, 1, 14, 1, 19, 0, 20, 0, 20, 1, 21, 1, 21, 2, 20, 2, 20, 1, 19]⟩], 1, 21⟩
    (by decide)⟩

/-- C12 (as stated) fails: the file with the one line `    1  1MW` decodes
to a table whose glyph got the inserted degenerate segment, normalized to
`(0, -200, 0, -200)`; and in the file with the one line `    1  3MWOROR` the
glyph is one degenerate segment from the data, left at `x = -3`. -/
theorem C12_counterexample :
    decode 3 [32, 32, 32, 32, 49, 32, 32, 49, 77, 87, 10] =
      Outcome.table ⟨[⟨1, 10, 10, [0, -200, 0, -200]⟩], 1, 400⟩ ∧
    decode 3 [32, 32, 32, 32, 49, 32, 32, 51, 77, 87, 79, 82, 79, 82, 10] =
      Outcome.table ⟨[⟨1, 10, 10, [-3, 0, -3, 0]⟩], 1, 0⟩ := by
  constructor <;> decide

/-! ## The extents of a glyph -/

theorem penUp_iff (p : Int × Int) : (p.1 = 32 - 82 ∧ p.2 = 82 - 82) ↔ p = penUp := by
  rcases p with ⟨a, b⟩
  simp [penUp, Prod.ext_iff]

theorem Extents.snoc {lo hi : Int} {S : List Int} (h : Extents lo hi S) (v : Int)
    (hv : -200 ≤ v ∧ v ≤ 200) :
    Extents (if lo > v then v else lo) (if hi < v then v else hi) (S ++ [v]) := by
  obtain ⟨hb, he, hn⟩ := h
  refine ⟨?_, ?_, ?_⟩
  · intro w hw
    rcases List.mem_append.mp hw with h1 | h1
    · have := hb w h1
      constructor <;> split_ifs <;> omega
    · rw [List.mem_singleton] at h1
      subst h1
      constructor <;> split_ifs <;> omega
  · intro h
    simp at h
  · intro _
    by_cases hS : S = []
    · obtain ⟨e1, e2⟩ := he hS
      subst hS
      simp only [List.nil_append, List.mem_singleton]
      constructor <;> split_ifs <;> omega
    · obtain ⟨m1, m2⟩ := hn hS
      constructor
      · split_ifs
        · simp
        · exact List.mem_append_left _ m1
      · split_ifs
        · simp
        · exact List.mem_append_left _ m2

theorem fold_extents : ∀ (pts : List (Int × Int)) (pen : Pen) (S : List Int),
    (∀ p ∈ pts, -200 ≤ p.1 ∧ p.1 ≤ 200) → Extents pen.lminx pen.lmaxx S →
    Extents (pts.foldl penStep pen).lminx (pts.foldl penStep pen).lmaxx
      (S ++ (strokePoints (decide (pen.penup ≠ 0)) pts).map Prod.fst)
  | [], pen, S, _, h => by simpa [strokePoints] using h
  | p :: rest, pen, S, hr, h => by
    have hr1 := hr p (List.mem_cons_self _ _)
    have hr2 : ∀ q ∈ rest, -200 ≤ q.1 ∧ q.1 ≤ 200 := fun q hq => hr q (List.mem_cons_of_mem _ hq)
    rw [List.foldl_cons]
    by_cases hdown : pen.penup = 0
    · by_cases hup : p.1 = 32 - 82 ∧ p.2 = 82 - 82
      · have hstep : penStep pen p = { pen with penup := 1 } := by
          simp only [penStep, hdown, if_true, hup, and_self]
        have hp : p = penUp := (penUp_iff p).mp hup
        have ih := fold_extents rest { pen with penup := 1 } S hr2 h
        rw [hstep]
        simpa [hdown, strokePoints, hp] using ih
      · have hstep : penStep pen p =
            moveTo { pen with data := pen.data ++ [pen.x, pen.y, p.1, p.2] } p.1 p.2 := by
          simp only [penStep, hdown, if_true, hup, if_false]
        have hp : p ≠ penUp := fun e => hup ((penUp_iff p).mpr e)
        have ih := fold_extents rest
          (moveTo { pen with data := pen.data ++ [pen.x, pen.y, p.1, p.2] } p.1 p.2) (S ++ [p.1])
          hr2 (h.snoc p.1 hr1)
        rw [hstep]
        simpa [hdown, strokePoints, hp, moveTo] using ih
    · have hstep : penStep pen p = moveTo { pen with penup := 0 } p.1 p.2 := by
        simp only [penStep, hdown, if_false]
      have ih := fold_extents rest (moveTo { pen with penup := 0 } p.1 p.2) (S ++ [p.1])
        hr2 (h.snoc p.1 hr1)
      rw [hstep]
      simpa [hdown, strokePoints, moveTo] using ih

theorem start_extents (pts : List (Int × Int)) (miny maxy : Int)
    (hr : ∀ p ∈ pts, -200 ≤ p.1 ∧ p.1 ≤ 200) :
    Extents (pts.foldl penStep (penStart miny maxy)).lminx
      (pts.foldl penStep (penStart miny maxy)).lmaxx
      ((strokePoints true pts).map Prod.fst) := by
  have h0 : Extents (penStart miny maxy).lminx (penStart miny maxy).lmaxx [] :=
    ⟨by simp, fun _ => ⟨rfl, rfl⟩, fun h => absurd rfl h⟩
  have := fold_extents pts (penStart miny maxy) [] hr h0
  simpa [penStart] using this

theorem emitGlyph_even (m : Int) (g : RawGlyph) (h : g.data.length % 2 = 0) :
    ∃ o, emitGlyph m g = some o ∧ o.realwidth = g.realwidth ∧
      xsOf o.data = (xsOf g.data).map (fun v => v + -g.minx) ∧
      ysOf o.data = (ysOf g.data).map (fun v => v + -m) := by
  obtain ⟨nd, e1, _, e3, e4⟩ := normalizeData_even g.minx m g.data h
  exact ⟨⟨g.glyph, g.width, g.realwidth, nd⟩, by simp only [emitGlyph, e1], rfl, e3, e4⟩

theorem xsOf_ne_nil (l : List Int) (h : 4 ≤ l.length) : ∃ v, v ∈ xsOf l := by
  match l, h with
  | a :: b :: rest, _ => exact ⟨a, by simp [xsOf]⟩

/-! ## The points of the strokes in the row of a glyph -/

theorem fold_points_in_data : ∀ (pts : List (Int × Int)) (pen : Pen) (st : Nat) (S : List Int),
    pen.data.length % 2 = 0 → (st = 0 ↔ pen.penup ≠ 0) →
    (∀ v ∈ S, v ∈ xsOf pen.data ∨ (st = 1 ∧ v = pen.x)) →
    noLonePoint st pts = true →
    ∀ v ∈ S ++ (strokePoints (decide (st = 0)) pts).map Prod.fst,
      v ∈ xsOf (pts.foldl penStep pen).data
  | [], pen, 0, S, _, _, hS, _ => by
    intro v hv
    simp only [strokePoints, List.map_nil, List.append_nil] at hv
    rcases hS v hv with h | h
    · exact h
    · omega
  | [], pen, 1, S, _, _, _, hn => by simp [noLonePoint] at hn
  | [], pen, n + 2, S, _, _, hS, _ => by
    intro v hv
    simp only [strokePoints, List.map_nil, List.append_nil] at hv
    rcases hS v hv with h | h
    · exact h
    · omega
  | p :: rest, pen, 0, S, hlen, hst, hS, hn => by
    have hup : pen.penup ≠ 0 := hst.mp rfl
    have hstep : penStep pen p = moveTo { pen with penup := 0 } p.1 p.2 := by
      simp only [penStep, hup, if_false]
    simp only [noLonePoint] at hn
    have ih := fold_points_in_data rest (moveTo { pen with penup := 0 } p.1 p.2) 1 (S ++ [p.1])
      hlen (by simp [moveTo])
      (by
        intro v hv
        rcases List.mem_append.mp hv with h | h
        · rcases hS v h with h1 | h1
          · exact Or.inl h1
          · omega
        · exact Or.inr ⟨rfl, by simpa [moveTo] using h⟩) hn
    rw [List.foldl_cons, hstep]
    intro v hv
    apply ih
    simpa [strokePoints] using hv
  | p :: rest, pen, 1, S, hlen, hst, hS, hn => by
    have hdown : pen.penup = 0 := by
      by_contra h
      have := hst.mpr h
      omega
    simp only [noLonePoint] at hn
    split_ifs at hn with hp
    have hup : ¬ (p.1 = 32 - 82 ∧ p.2 = 82 - 82) := fun e => hp ((penUp_iff p).mp e)
    have hstep : penStep pen p =
        moveTo { pen with data := pen.data ++ [pen.x, pen.y, p.1, p.2] } p.1 p.2 := by
      simp only [penStep, hdown, if_true, hup, if_false]
    have ih := fold_points_in_data rest
      (moveTo { pen with data := pen.data ++ [pen.x, pen.y, p.1, p.2] } p.1 p.2) 2 (S ++ [p.1])
      (by simp only [moveTo, List.length_append, List.length_cons, List.length_nil]; omega)
      (by simp [moveTo, hdown])
      (by
        intro v hv
        left
        simp only [moveTo, xsOf_append _ _ hlen, xsOf, List.mem_append, List.mem_cons,
          List.mem_singleton, List.not_mem_nil, or_false]
        rcases List.mem_append.mp hv with h | h
        · rcases hS v h with h1 | h1
          · exact Or.inl h1
          · exact Or.inr (Or.inl h1.2)
        · exact Or.inr (Or.inr (by simpa using h))) hn
    rw [List.foldl_cons, hstep]
    intro v hv
    apply ih
    simpa [strokePoints, hp] using hv
  | p :: rest, pen, n + 2, S, hlen, hst, hS, hn => by
    have hdown : pen.penup = 0 := by
      by_contra h
      have := hst.mpr h
      omega
    simp only [noLonePoint] at hn
    by_cases hp : p = penUp
    · rw [if_pos hp] at hn
      have hup : p.1 = 32 - 82 ∧ p.2 = 82 - 82 := (penUp_iff p).mpr hp
      have hstep : penStep pen p = { pen with penup := 1 } := by
        simp only [penStep, hdown, if_true, hup, and_self]
      have ih := fold_points_in_data rest { pen with penup := 1 } 0 S hlen (by simp)
        (by
          intro v hv
          rcases hS v hv with h1 | h1
          · exact Or.inl h1
          · omega) hn
      rw [List.foldl_cons, hstep]
      intro v hv
      apply ih
      simpa [strokePoints, hp] using hv
    · rw [if_neg hp] at hn
      have hup : ¬ (p.1 = 32 - 82 ∧ p.2 = 82 - 82) := fun e => hp ((penUp_iff p).mp e)
      have hstep : penStep pen p =
          moveTo { pen with data := pen.data ++ [pen.x, pen.y, p.1, p.2] } p.1 p.2 := by
        simp only [penStep, hdown, if_true, hup, if_false]
      have ih := fold_points_in_data rest
        (moveTo { pen with data := pen.data ++ [pen.x, pen.y, p.1, p.2] } p.1 p.2) 2 (S ++ [p.1])
        (by simp only [moveTo, List.length_append, List.length_cons, List.length_nil]; omega)
        (by simp [moveTo, hdown])
        (by
          intro v hv
          left
          simp only [moveTo, xsOf_append _ _ hlen, xsOf, List.mem_append, List.mem_cons,
            List.mem_singleton, List.not_mem_nil, or_false]
          rcases List.mem_append.mp hv with h | h
          · rcases hS v h with h1 | h1
            · exact Or.inl h1
            · omega
          · exact Or.inr (Or.inr (by simpa using h))) hn
      rw [List.foldl_cons, hstep]
      intro v hv
      apply ih
      simpa [strokePoints, hp] using hv

/-! ## The glyph loop ends: every glyph takes at least one byte -/

theorem skipBlanksCol_length : ∀ (c : List Int) (col : Int),
    (skipBlanksCol c col).1.length ≤ c.length
  | [], _ => le_refl _
  | v :: rest, col => by
    simp only [skipBlanksCol]
    split_ifs
    · exact le_trans (skipBlanksCol_length rest 0) (Nat.le_succ _)
    · exact le_trans (skipBlanksCol_length rest (col + 1)) (Nat.le_succ _)
    · exact le_refl _

theorem grabNumber_length (limit : Int) : ∀ (c : List Int) (col acc : Int),
    (grabNumber limit c col acc).1.length ≤ c.length
  | [], _, _ => le_refl _
  | v :: rest, col, acc => by
    simp only [grabNumber]
    split_ifs
    · exact le_trans (grabNumber_length limit rest _ _) (Nat.le_succ _)
    · exact le_refl _

theorem skipBlanks_length : ∀ (c : List Int), (skipBlanks c).length ≤ c.length
  | [] => le_refl _
  | v :: rest => by
    simp only [skipBlanks]
    split_ifs
    · exact le_trans (skipBlanks_length rest) (Nat.le_succ _)
    · exact le_refl _

theorem skipNewlines_length : ∀ (c : List Int) (col : Int),
    (skipNewlines c col).1.length ≤ c.length
  | [], _ => le_refl _
  | v :: rest, col => by
    simp only [skipNewlines]
    split_ifs
    · exact le_trans (skipNewlines_length rest 0) (Nat.le_succ _)
    · exact le_refl _

theorem skipTrailing_length : ∀ (c : List Int) (col : Int),
    (skipTrailing c col).1.length ≤ c.length
  | [], _ => le_refl _
  | v :: rest, col => by
    simp only [skipTrailing]
    split_ifs
    · exact le_trans (skipTrailing_length rest 0) (Nat.le_succ _)
    · exact le_trans (skipTrailing_length rest (col + 1)) (Nat.le_succ _)
    · exact le_refl _

theorem tail_length_lt (c : List Int) (h : peek c ≠ 0) : c.tail.length < c.length := by
  cases c with
  | nil => simp [peek] at h
  | cons v rest => simp

theorem readHeader_length (c : List Int) (col : Int) (glyphno pairs left right width : Int)
    (c7 : List Int) (col7 : Int)
    (h : readHeader c col = Header.decoded glyphno pairs left right width c7 col7) :
    c7.length < c.length := by
  unfold readHeader at h
  simp only at h
  split_ifs at h with h0 hw h1 h2 h3
  simp only [Header.decoded.injEq] at h
  obtain ⟨_, _, _, _, _, e, _⟩ := h
  rw [← e]
  have l1 := skipBlanksCol_length c col
  have l2 := grabNumber_length 5 (skipBlanksCol c col).1 (skipBlanksCol c col).2 0
  have l3 := skipBlanksCol_length
    (grabNumber 5 (skipBlanksCol c col).1 (skipBlanksCol c col).2 0).1
    (grabNumber 5 (skipBlanksCol c col).1 (skipBlanksCol c col).2 0).2.1
  have l4 := grabNumber_length 8
    (skipBlanksCol (grabNumber 5 (skipBlanksCol c col).1 (skipBlanksCol c col).2 0).1
      (grabNumber 5 (skipBlanksCol c col).1 (skipBlanksCol c col).2 0).2.1).1
    (skipBlanksCol (grabNumber 5 (skipBlanksCol c col).1 (skipBlanksCol c col).2 0).1
      (grabNumber 5 (skipBlanksCol c col).1 (skipBlanksCol c col).2 0).2.1).2 0
  have l5 := skipBlanks_length
    (grabNumber 8
      (skipBlanksCol (grabNumber 5 (skipBlanksCol c col).1 (skipBlanksCol c col).2 0).1
        (grabNumber 5 (skipBlanksCol c col).1 (skipBlanksCol c col).2 0).2.1).1
      (skipBlanksCol (grabNumber 5 (skipBlanksCol c col).1 (skipBlanksCol c col).2 0).1
        (grabNumber 5 (skipBlanksCol c col).1 (skipBlanksCol c col).2 0).2.1).2 0).1
  have l6 := tail_length_lt _ h1
  have l7 := tail_length_lt _ h2
  omega

theorem pairLoop_length : ∀ (k : Nat) (c : List Int) (col : Int) (pen : Pen)
    (c1 : List Int) (col1 : Int) (pen1 : Pen),
    pairLoop k c col pen = Pairs.done c1 col1 pen1 → c1.length ≤ c.length
  | 0, c, col, pen, c1, col1, pen1, h => by
    simp only [pairLoop, Pairs.done.injEq] at h
    rw [← h.1]
  | k + 1, [], col, pen, c1, col1, pen1, h => by simp [pairLoop] at h
  | k + 1, v :: c0, col, pen, c1, col1, pen1, h => by
    simp only [pairLoop] at h
    split_ifs at h with h0
    have l1 := pairLoop_length k _ _ _ c1 col1 pen1 h
    have l2 := skipNewlines_length (skipNewlines c0 col).1.tail (skipNewlines c0 col).2
    have l3 := skipNewlines_length c0 col
    have l4 : (skipNewlines c0 col).1.tail.length ≤ (skipNewlines c0 col).1.length := by
      simp
    simp only [List.length_cons]
    omega

theorem glyphStep_length (d d1 : Decoder) (h : glyphStep d = Step.next d1) :
    d1.c.length < d.c.length := by
  unfold glyphStep at h
  cases hh : readHeader d.c d.col with
  | parseError col => rw [hh] at h; simp at h
  | windowOutOfBounds => rw [hh] at h; simp at h
  | silentReturn => rw [hh] at h; simp at h
  | decoded glyphno pairs left right width c col =>
    rw [hh] at h
    simp only at h
    cases hp : pairLoop (pairs - 1).toNat c col (penStart d.miny d.maxy) with
    | silentReturn => rw [hp] at h; simp at h
    | undefined => rw [hp] at h; simp at h
    | done c1 col1 pen =>
      rw [hp] at h
      simp only [Step.next.injEq] at h
      subst h
      have l1 := readHeader_length _ _ _ _ _ _ _ _ _ hh
      have l2 := pairLoop_length _ _ _ _ _ _ _ hp
      have l3 := skipTrailing_length c1 col1
      simp only
      omega

theorem emitTable_ne_outOfFuel (d : Decoder) : emitTable d ≠ Outcome.outOfFuel := by
  unfold emitTable
  cases emitGlyphs d.miny d.glyphs <;> simp

theorem glyphLoop_fuel : ∀ (fuel : Nat) (d : Decoder), d.c.length ≤ fuel →
    glyphLoop fuel d ≠ Outcome.outOfFuel
  | 0, d, h => by
    have h0 : d.c = [] := List.length_eq_zero.mp (by omega)
    simp only [glyphLoop, h0, peek, List.headD_nil, if_true]
    exact emitTable_ne_outOfFuel d
  | fuel + 1, d, h => by
    simp only [glyphLoop]
    split_ifs
    · exact emitTable_ne_outOfFuel d
    · cases hs : glyphStep d with
      | next d1 =>
        have := glyphStep_length d d1 hs
        exact glyphLoop_fuel fuel d1 (by omega)
      | parseError gc col => simp
      | windowOutOfBounds gc => simp
      | silentReturn => simp
      | undefined => simp

theorem decode_fuel (buf : List Int) (fuel : Nat) (h : buf.length ≤ fuel) :
    decode fuel buf ≠ Outcome.outOfFuel :=
  glyphLoop_fuel fuel _ h

/-! ## The glyph number and the report of a parse error -/

theorem grabNumber_zeros (limit : Int) (rest : List Int) :
    ∀ (k : Nat) (col : Int), (isDigit (peek rest) = false ∨ limit ≤ col + k) →
      (grabNumber limit (List.replicate k 48 ++ rest) col 0).2.2 = 0
  | 0, col, h => by
    cases rest with
    | nil => rfl
    | cons v r =>
      simp only [isDigit, peek, List.headD_cons, decide_eq_false_iff_not, Nat.cast_zero,
        add_zero] at h
      have : ¬ (col < limit ∧ 48 ≤ v ∧ v ≤ 57) := by
        rintro ⟨h1, h2⟩
        rcases h with h | h
        · exact h h2
        · omega
      simp [grabNumber, this]
  | k + 1, col, h => by
    simp only [List.replicate_succ, List.cons_append, grabNumber, List.append_eq]
    by_cases hc : col < limit
    · have h1 : col < limit ∧ (48 : Int) ≤ 48 ∧ (48 : Int) ≤ 57 := ⟨hc, by decide, by decide⟩
      rw [if_pos h1]
      have := grabNumber_zeros limit rest k (col + 1) (by
        rcases h with h | h
        · exact Or.inl h
        · right
          push_cast at h
          omega)
      simpa using this
    · have h1 : ¬ (col < limit ∧ (48 : Int) ≤ 48 ∧ (48 : Int) ≤ 57) := fun h => hc h.1
      rw [if_neg h1]

theorem grabNumber_pos (limit : Int) : ∀ (c : List Int) (col acc : Int), 0 < acc →
    0 < (grabNumber limit c col acc).2.2
  | [], _, _, h => h
  | v :: rest, col, acc, h => by
    simp only [grabNumber]
    split_ifs with hc
    · exact grabNumber_pos limit rest (col + 1) _ (by omega)
    · exact h

theorem digitsValue_nonneg : ∀ (ds : List Nat) (acc : Int), 0 ≤ acc → 0 ≤ digitsValue acc ds
  | [], _, h => h
  | d :: ds, acc, h => digitsValue_nonneg ds _ (by omega)

theorem windowInside_false (c : List Int) (h : c.length < 4294967286) :
    windowInside c = false := by
  cases hw : windowInside c with
  | false => rfl
  | true =>
    have := List.all_eq_true.mp hw 0 (by simp)
    simp only [windowIndex, decide_eq_true_eq] at this
    omega

theorem readHeader_zero (c : List Int) (col : Int)
    (hz : (grabNumber 5 (skipBlanksCol c col).1 (skipBlanksCol c col).2 0).2.2 = 0) :
    readHeader c col =
      if windowInside (grabNumber 5 (skipBlanksCol c col).1 (skipBlanksCol c col).2 0).1
      then Header.parseError (grabNumber 5 (skipBlanksCol c col).1 (skipBlanksCol c col).2 0).2.1
      else Header.windowOutOfBounds := by
  unfold readHeader
  simp only [hz, if_true]

theorem readHeader_nonzero (c : List Int) (col : Int)
    (hz : (grabNumber 5 (skipBlanksCol c col).1 (skipBlanksCol c col).2 0).2.2 ≠ 0) :
    (∀ col1, readHeader c col ≠ Header.parseError col1) ∧
      readHeader c col ≠ Header.windowOutOfBounds := by
  unfold readHeader
  simp only [hz, if_false]
  constructor
  · intro col1
    split_ifs <;> simp
  · split_ifs <;> simp

theorem glyphStep_report (d : Decoder) :
    ((∃ col, readHeader d.c d.col = Header.parseError col) ↔
      ∃ gc col, glyphStep d = Step.parseError gc col) ∧
    (readHeader d.c d.col = Header.windowOutOfBounds ↔
      ∃ gc, glyphStep d = Step.windowOutOfBounds gc) := by
  unfold glyphStep
  cases hh : readHeader d.c d.col with
  | parseError col1 => simp
  | windowOutOfBounds => simp
  | silentReturn => simp
  | decoded glyphno pairs left right width c col1 =>
    simp only
    cases hp : pairLoop (pairs - 1).toNat c col1 (penStart d.miny d.maxy) <;> simp

/-- For every state at the top of the glyph loop (`*c != 0`) with a buffer
as `main` allocates it (its length is an `int`, here: below `2^32 - 10`):
when the glyph number behind the leading whitespace is zero (a run of the
digit `0`, behind which stands a byte that is not a decimal digit, or which
reaches column 5) or does not begin with a decimal digit (the run is empty),
the body of the glyph loop takes the branch `glyphno == 0` and the report
reads `c[i-10]` outside the buffer; conversely, when a decimal number other
than zero stands there within the first 5 columns, the branch is not
taken. -/
theorem glyph_number_zero (d : Decoder) (fuel : Nat) (h0 : peek d.c ≠ 0)
    (hlen : d.c.length < 4294967286) :
    (∀ (k : Nat) (rest : List Int),
      (skipBlanksCol d.c d.col).1 = List.replicate k 48 ++ rest →
      (isDigit (peek rest) = false ∨ 5 ≤ (skipBlanksCol d.c d.col).2 + k) →
      glyphStep d = Step.windowOutOfBounds d.glyphs.length ∧
        glyphLoop (fuel + 1) d = Outcome.windowOutOfBounds d.glyphs.length) ∧
    (∀ (ds : List Nat) (rest : List Int),
      (skipBlanksCol d.c d.col).1 = ds.map (fun (n : Nat) => 48 + (n : Int)) ++ rest →
      (∀ n ∈ ds, n < 10) → digitsValue 0 ds ≠ 0 →
      (skipBlanksCol d.c d.col).2 + ds.length ≤ 5 →
      (∀ gc col, glyphStep d ≠ Step.parseError gc col) ∧
        ∀ gc, glyphStep d ≠ Step.windowOutOfBounds gc) := by
  constructor
  · intro k rest hk hrest
    have hz := grabNumber_zeros 5 rest k (skipBlanksCol d.c d.col).2 hrest
    rw [← hk] at hz
    have hw : windowInside
        (grabNumber 5 (skipBlanksCol d.c d.col).1 (skipBlanksCol d.c d.col).2 0).1 = false := by
      apply windowInside_false
      have l1 := skipBlanksCol_length d.c d.col
      have l2 := grabNumber_length 5 (skipBlanksCol d.c d.col).1 (skipBlanksCol d.c d.col).2 0
      omega
    have hh : readHeader d.c d.col = Header.windowOutOfBounds := by
      rw [readHeader_zero d.c d.col hz, hw]
      rfl
    have hs : glyphStep d = Step.windowOutOfBounds d.glyphs.length := by
      unfold glyphStep
      rw [hh]
    exact ⟨hs, by simp only [glyphLoop, h0, if_false, hs]⟩
  · intro ds rest hds hd hv hcol
    have hnz : (grabNumber 5 (skipBlanksCol d.c d.col).1 (skipBlanksCol d.c d.col).2 0).2.2 ≠
        0 := by
      rw [hds, grabNumber_digits 5 rest ds _ 0 hd hcol]
      have h1 := digitsValue_nonneg ds 0 (le_refl _)
      have h2 := grabNumber_pos 5 rest ((skipBlanksCol d.c d.col).2 + ds.length)
        (digitsValue 0 ds) (by omega)
      omega
    obtain ⟨n1, n2⟩ := readHeader_nonzero d.c d.col hnz
    obtain ⟨r1, r2⟩ := glyphStep_report d
    constructor
    · intro gc col hs
      obtain ⟨col1, hc⟩ := r1.mpr ⟨gc, col, hs⟩
      exact n1 col1 hc
    · intro gc hs
      exact n2 (r2.mpr ⟨gc, hs⟩)

/-- C14 (the code at failing inputs): the files with the one line `    0  1MW`
(glyph number zero), `  abc` (no decimal digit) and `00000123MW` (a zero field
of 5 columns with digits behind it), and the file with the lines `    1  1MW`
and `    0  1MW` take the branch `glyphno == 0`, whose report reads
`c[i-10]` with the `unsigned int i = 0`, the byte at index
`2^32 - 10 = 4294967286` behind the read pointer, outside the buffer: the
window and the column of the report are not reached. -/
theorem C14_report_reads_outside_buffer :
    windowIndex 0 = 4294967286 ∧
    decode 3 [32, 32, 32, 32, 48, 32, 32, 49, 77, 87, 10] = Outcome.windowOutOfBounds 0 ∧
    decode 3 [32, 32, 97, 98, 99, 10] = Outcome.windowOutOfBounds 0 ∧
    decode 3 [48, 48, 48, 48, 48, 49, 50, 51, 77, 87, 10] = Outcome.windowOutOfBounds 0 ∧
    decode 3 [32, 32, 32, 32, 49, 32, 32, 49, 77, 87, 10,
      32, 32, 32, 32, 48, 32, 32, 49, 77, 87, 10] = Outcome.windowOutOfBounds 1 := by
  refine ⟨by decide, by decide, by decide, by decide, by decide⟩

/-! ## Every glyph the loop completes -/

theorem skipNewlines_fst : ∀ (c : List Int) (col col1 : Int),
    (skipNewlines c col).1 = (skipNewlines c col1).1
  | [], _, _ => rfl
  | v :: rest, col, col1 => by
    simp only [skipNewlines]
    split_ifs
    · exact skipNewlines_fst rest 0 0
    · rfl

theorem pairLoop_pairsRead : ∀ (k : Nat) (c : List Int) (col : Int) (pen : Pen)
    (c1 : List Int) (col1 : Int) (pen1 : Pen),
    pairLoop k c col pen = Pairs.done c1 col1 pen1 →
    pen1 = (pairsRead k c).foldl penStep pen ∧
      ∀ p ∈ pairsRead k c, -200 ≤ p.1 ∧ p.1 ≤ 200
  | 0, c, col, pen, c1, col1, pen1, h => by
    simp only [pairLoop, Pairs.done.injEq] at h
    exact ⟨h.2.2.symm, by simp [pairsRead]⟩
  | k + 1, [], col, pen, c1, col1, pen1, h => by simp [pairLoop] at h
  | k + 1, v :: c0, col, pen, c1, col1, pen1, h => by
    simp only [pairLoop] at h
    split_ifs at h with h0
    obtain ⟨hp, hr⟩ := pairLoop_pairsRead k _ _ _ c1 col1 pen1 h
    have e1 : (skipNewlines c0 0).1 = (skipNewlines c0 col).1 := skipNewlines_fst c0 0 col
    have e2 : (skipNewlines (skipNewlines c0 col).1.tail 0).1 =
        (skipNewlines (skipNewlines c0 col).1.tail (skipNewlines c0 col).2).1 :=
      skipNewlines_fst _ 0 _
    have hread : pairsRead (k + 1) (v :: c0) =
        (toChar (v - 82), toChar (peek (skipNewlines c0 col).1 - 82)) ::
          pairsRead k (skipNewlines (skipNewlines c0 col).1.tail (skipNewlines c0 col).2).1 := by
      simp only [pairsRead, e1, h0, if_false, e2]
    rw [hread]
    refine ⟨by simpa using hp, ?_⟩
    intro p hp
    rcases List.mem_cons.mp hp with e | e
    · subst e
      simp only [toChar]
      omega
    · exact hr p e

theorem readHeader_width (c : List Int) (col : Int) (glyphno pairs left right width : Int)
    (c7 : List Int) (col7 : Int)
    (h : readHeader c col = Header.decoded glyphno pairs left right width c7 col7) :
    width = |right| + |left| := by
  unfold readHeader at h
  simp only at h
  split_ifs at h
  simp only [Header.decoded.injEq] at h
  obtain ⟨_, _, e3, e4, e5, _, _⟩ := h
  rw [← e5, ← e3, ← e4]
  simp only [Int.natCast_natAbs]

theorem glyphStep_next (d d1 : Decoder) (hs : glyphStep d = Step.next d1) :
    ∃ glyphno pairs left right width c col,
      readHeader d.c d.col = Header.decoded glyphno pairs left right width c col ∧
      PenInv ((pairsRead (pairs - 1).toNat c).foldl penStep (penStart d.miny d.maxy)) ∧
      (∀ p ∈ pairsRead (pairs - 1).toNat c, -200 ≤ p.1 ∧ p.1 ≤ 200) ∧
      d1.glyphs = d.glyphs ++ [finishGlyph glyphno width
        ((pairsRead (pairs - 1).toNat c).foldl penStep (penStart d.miny d.maxy))] := by
  unfold glyphStep at hs
  cases hh : readHeader d.c d.col with
  | parseError col => rw [hh] at hs; simp at hs
  | windowOutOfBounds => rw [hh] at hs; simp at hs
  | silentReturn => rw [hh] at hs; simp at hs
  | decoded glyphno pairs left right width c col =>
    rw [hh] at hs
    simp only at hs
    cases hp : pairLoop (pairs - 1).toNat c col (penStart d.miny d.maxy) with
    | silentReturn => rw [hp] at hs; simp at hs
    | undefined => rw [hp] at hs; simp at hs
    | done c1 col1 pen =>
      rw [hp] at hs
      simp only [Step.next.injEq] at hs
      subst hs
      obtain ⟨hpen, hr⟩ := pairLoop_pairsRead _ _ _ _ _ _ _ hp
      refine ⟨glyphno, pairs, left, right, width, c, col, rfl, ?_, hr, ?_⟩
      · exact (fold_inv _ _ (penStart_inv _ _)).1
      · simp only [hpen]

theorem finishGlyph_realwidth (glyphno width : Int) (pen : Pen) (pts : List (Int × Int))
    (hpen : pen = pts.foldl penStep (penStart miny maxy)) (hinv : PenInv pen)
    (hr : ∀ p ∈ pts, -200 ≤ p.1 ∧ p.1 ≤ 200) (hw : 0 ≤ width) :
    (isDegenerate (finishGlyph glyphno width pen).data = false →
      ∃ lo hi, lo ∈ (strokePoints true pts).map Prod.fst ∧
        hi ∈ (strokePoints true pts).map Prod.fst ∧
        (∀ v ∈ (strokePoints true pts).map Prod.fst, lo ≤ v ∧ v ≤ hi) ∧
        (finishGlyph glyphno width pen).realwidth = |hi| + |lo| ∧
        (finishGlyph glyphno width pen).minx = lo ∧
        (finishGlyph glyphno width pen).data = pen.data ∧ 4 ≤ pen.data.length ∧
        lo = pen.lminx) ∧
    (isDegenerate (finishGlyph glyphno width pen).data = true →
      (finishGlyph glyphno width pen).realwidth = width) := by
  have hext := start_extents pts miny maxy hr
  rw [← hpen] at hext
  constructor
  · intro hd
    have h4 : ¬ pen.data.length < 4 := by
      intro h4
      have h0 : pen.data = [] := List.length_eq_zero.mp (by have := hinv.len; omega)
      simp [finishGlyph, h0, isDegenerate] at hd
    have hdata : (finishGlyph glyphno width pen).data = pen.data := by
      simp only [finishGlyph, h4, if_false]
    rw [hdata] at hd
    obtain ⟨v, hv⟩ := xsOf_ne_nil pen.data (by omega)
    have hb := hinv.xs v hv
    have hne : (strokePoints true pts).map Prod.fst ≠ [] := by
      intro he
      have := hext.2.1 he
      omega
    obtain ⟨m1, m2⟩ := hext.2.2 hne
    refine ⟨pen.lminx, pen.lmaxx, m1, m2, hext.1, ?_, ?_, hdata, by omega, rfl⟩
    · simp only [finishGlyph, h4, if_false, hd, Bool.false_eq_true, Int.natCast_natAbs]
    · simp only [finishGlyph, h4, if_false, hd, Bool.false_eq_true]
  · intro hd
    simp only [finishGlyph] at hd ⊢
    simp only [hd, if_true, Int.natAbs_zero, Nat.cast_zero, add_zero, Int.natCast_natAbs]
    exact abs_of_nonneg hw

/-- C19 (as amended): for every glyph the loop completes, from any state of
the decoder: the real width of the glyph is emitted unchanged; for a glyph
whose row is not a single degenerate segment it equals `|max_x| + |min_x|`,
with `min_x` and `max_x` the smallest and the largest x among the pairs the
decoder takes as coordinates; for a glyph whose row is a single degenerate
segment (inserted for an empty glyph, or from the data) it is the nominal
width `|right| + |left|` of the bearings. -/
theorem C19_real_width (d d1 : Decoder) (hs : glyphStep d = Step.next d1) :
    ∃ glyphno pairs left right width c col g,
      readHeader d.c d.col = Header.decoded glyphno pairs left right width c col ∧
      d1.glyphs = d.glyphs ++ [g] ∧
      (∀ m, ∃ o, emitGlyph m g = some o ∧ o.realwidth = g.realwidth) ∧
      (isDegenerate g.data = false →
        ∃ lo hi,
          lo ∈ (strokePoints true (pairsRead (pairs - 1).toNat c)).map Prod.fst ∧
          hi ∈ (strokePoints true (pairsRead (pairs - 1).toNat c)).map Prod.fst ∧
          (∀ v ∈ (strokePoints true (pairsRead (pairs - 1).toNat c)).map Prod.fst,
            lo ≤ v ∧ v ≤ hi) ∧
          g.realwidth = |hi| + |lo|) ∧
      (isDegenerate g.data = true → g.realwidth = |right| + |left|) := by
  obtain ⟨glyphno, pairs, left, right, width, c, col, hh, hinv, hr, hg⟩ := glyphStep_next d d1 hs
  have hw := readHeader_width _ _ _ _ _ _ _ _ _ hh
  have hok := finishGlyph_ok glyphno width _ hinv
  obtain ⟨f1, f2⟩ := finishGlyph_realwidth glyphno width _ _ rfl hinv hr
    (by rw [hw]; exact add_nonneg (abs_nonneg _) (abs_nonneg _))
  refine ⟨glyphno, pairs, left, right, width, c, col, _, hh, hg, ?_, ?_, ?_⟩
  · intro m
    obtain ⟨o, h1, h2, _⟩ := emitGlyph_even m _ hok.1
    exact ⟨o, h1, h2⟩
  · intro hd
    obtain ⟨lo, hi, m1, m2, hb, hrw, _⟩ := f1 hd
    exact ⟨lo, hi, m1, m2, hb, hrw⟩
  · intro hd
    rw [f2 hd, hw]

/-- Witness of C19 (as amended): the second glyph of the file with the lines
`    1  3MWOROR` and `    2  9MWRFRT RRYQZR[SZRY`, read from the state behind
the first glyph. -/
theorem C19_real_width_witness :
    ∃ glyphno pairs left right width c col g,
      readHeader (⟨[32, 32, 32, 32, 50, 32, 32, 57, 77, 87, 82, 70, 82, 84, 32, 82, 82, 89,
          81, 90, 82, 91, 83, 90, 82, 89, 10], 0, [⟨1, 10, 10, 0, [-3, 0, -3, 0]⟩], 0, 0⟩ :
            Decoder).c
        (⟨[32, 32, 32, 32, 50, 32, 32, 57, 77, 87, 82, 70, 82, 84, 32, 82, 82, 89,
          81, 90, 82, 91, 83, 90, 82, 89, 10], 0, [⟨1, 10, 10, 0, [-3, 0, -3, 0]⟩], 0, 0⟩ :
            Decoder).col =
        Header.decoded glyphno pairs left right width c col ∧
      (⟨[], 0, [⟨1, 10, 10, 0, [-3, 0, -3, 0]⟩, ⟨2, 10, 2, -1,
          [0, -12, 0, 2, 0, 7, -1, 8, -1, 8, 0, 9, 0, 9, 1, 8, 1, 8, 0, 7]⟩], -12, 9⟩ :
            Decoder).glyphs =
        (⟨[32, 32, 32, 32, 50, 32, 32, 57, 77, 87, 82, 70, 82, 84, 32, 82, 82, 89,
          81, 90, 82, 91, 83, 90, 82, 89, 10], 0, [⟨1, 10, 10, 0, [-3, 0, -3, 0]⟩], 0, 0⟩ :
            Decoder).glyphs ++ [g] ∧
      (∀ m, ∃ o, emitGlyph m g = some o ∧ o.realwidth = g.realwidth) ∧
      (isDegenerate g.data = false →
        ∃ lo hi,
          lo ∈ (strokePoints true (pairsRead (pairs - 1).toNat c)).map Prod.fst ∧
          hi ∈ (strokePoints true (pairsRead (pairs - 1).toNat c)).map Prod.fst ∧
          (∀ v ∈ (strokePoints true (pairsRead (pairs - 1).toNat c)).map Prod.fst,
            lo ≤ v ∧ v ≤ hi) ∧
          g.realwidth = |hi| + |lo|) ∧
      (isDegenerate g.data = true → g.realwidth = |right| + |left|) :=
  C19_real_width
    ⟨[32, 32, 32, 32, 50, 32, 32, 57, 77, 87, 82, 70, 82, 84, 32, 82, 82, 89,
      81, 90, 82, 91, 83, 90, 82, 89, 10], 0, [⟨1, 10, 10, 0, [-3, 0, -3, 0]⟩], 0, 0⟩
    ⟨[], 0, [⟨1, 10, 10, 0, [-3, 0, -3, 0]⟩, ⟨2, 10, 2, -1,
      [0, -12, 0, 2, 0, 7, -1, 8, -1, 8, 0, 9, 0, 9, 1, 8, 1, 8, 0, 7]⟩], -12, 9⟩
    (by decide)

/-- C19 (as stated) fails on the line `    1  3MWOROR`: the two pairs of the
stream give the one segment `(-3,0)-(-3,0)`, the stroke coordinates have
`min_x = max_x = -3`, so `|max_x| + |min_x| = 6`, yet the real width of the
glyph is `10`, the nominal width of the bearings `M`, `W`. -/
theorem C19_counterexample :
    glyphStep ⟨[32, 32, 32, 32, 49, 32, 32, 51, 77, 87, 79, 82, 79, 82, 10], 0, [], 200, -200⟩ =
      Step.next ⟨[], 0, [⟨1, 10, 10, 0, [-3, 0, -3, 0]⟩], 0, 0⟩ ∧
    (strokePoints true (pairsRead 2 [79, 82, 79, 82, 10])).map Prod.fst = [-3, -3] ∧
    emitGlyph 0 ⟨1, 10, 10, 0, [-3, 0, -3, 0]⟩ = some ⟨1, 10, 10, [-3, 0, -3, 0]⟩ := by
  refine ⟨by decide, by decide, by decide⟩

/-- C13 (as amended): for every glyph the loop completes, from any state of
the decoder, the normalization pass emits the glyph; when its row is not a
single degenerate segment, after normalization every x coordinate of its
segment endpoints is `≥ 0`, and one of them is `0` when none of its strokes
consists of a single point; when the pair loop left fewer than 4 numbers in
its row, so that it received the enforced degenerate segment, its coordinates
after normalization are `0, -min_y, 0, -min_y`, with `min_y` the global
minimum. -/
theorem C13_min_x_zero (d d1 : Decoder) (hs : glyphStep d = Step.next d1) :
    ∃ glyphno pairs left right width c col g,
      readHeader d.c d.col = Header.decoded glyphno pairs left right width c col ∧
      d1.glyphs = d.glyphs ++ [g] ∧
      ∀ m, ∃ o, emitGlyph m g = some o ∧
        (isDegenerate g.data = false →
          (∀ v ∈ xsOf o.data, 0 ≤ v) ∧
          (noLonePoint 0 (pairsRead (pairs - 1).toNat c) = true → 0 ∈ xsOf o.data)) ∧
        (((pairsRead (pairs - 1).toNat c).foldl penStep
            (penStart d.miny d.maxy)).data.length < 4 → o.data = [0, -m, 0, -m]) := by
  obtain ⟨glyphno, pairs, left, right, width, c, col, hh, hinv, hr, hg⟩ := glyphStep_next d d1 hs
  have hw := readHeader_width _ _ _ _ _ _ _ _ _ hh
  have hok := finishGlyph_ok glyphno width _ hinv
  obtain ⟨f1, _⟩ := finishGlyph_realwidth glyphno width _ _ rfl hinv hr
    (by rw [hw]; exact add_nonneg (abs_nonneg _) (abs_nonneg _))
  refine ⟨glyphno, pairs, left, right, width, c, col, _, hh, hg, ?_⟩
  intro m
  obtain ⟨o, h1, _, h3, _⟩ := emitGlyph_even m _ hok.1
  refine ⟨o, h1, ?_, ?_⟩
  · intro hd
    obtain ⟨lo, hi, m1, _, _, _, hminx, hdata, _, hlo⟩ := f1 hd
    rw [hdata, hminx] at h3
    constructor
    · intro w hw1
      rw [h3] at hw1
      obtain ⟨u, hu, rfl⟩ := List.mem_map.mp hw1
      have := (hinv.xs u hu).1
      omega
    · intro hlone
      have hin := fold_points_in_data (pairsRead (pairs - 1).toNat c)
        (penStart d.miny d.maxy) 0 [] rfl (by simp [penStart]) (by simp) hlone
      have hmem := hin lo (by simpa using m1)
      rw [h3]
      exact List.mem_map.mpr ⟨lo, hmem, by omega⟩
  · intro hl4
    have h0 : ((pairsRead (pairs - 1).toNat c).foldl penStep
        (penStart d.miny d.maxy)).data = [] :=
      List.length_eq_zero.mp (by have := hinv.len; omega)
    simp only [emitGlyph, finishGlyph, h0, List.length_nil, Nat.ofNat_pos, if_true,
      List.nil_append, isDegenerate] at h1
    simp [normalizeData] at h1
    rw [← h1]

/-- Witness of C13 (as amended): the second glyph of the file with the lines
`    1  3MWOROR` and `    2  9MWRFRT RRYQZR[SZRY`, read from the state behind
the first glyph; its strokes `RF RT` and `RY QZ R[ SZ RY` have no single
point. -/
theorem C13_min_x_zero_witness :
    noLonePoint 0 (pairsRead 8 [82, 70, 82, 84, 32, 82, 82, 89, 81, 90, 82, 91, 83, 90,
      82, 89, 10]) = true ∧
    ∃ glyphno pairs left right width c col g,
      readHeader (⟨[32, 32, 32, 32, 50, 32, 32, 57, 77, 87, 82, 70, 82, 84, 32, 82, 82, 89,
          81, 90, 82, 91, 83, 90, 82, 89, 10], 0, [⟨1, 10, 10, 0, [-3, 0, -3, 0]⟩], 0, 0⟩ :
            Decoder).c
        (⟨[32, 32, 32, 32, 50, 32, 32, 57, 77, 87, 82, 70, 82, 84, 32, 82, 82, 89,
          81, 90, 82, 91, 83, 90, 82, 89, 10], 0, [⟨1, 10, 10, 0, [-3, 0, -3, 0]⟩], 0, 0⟩ :
            Decoder).col =
        Header.decoded glyphno pairs left right width c col ∧
      (⟨[], 0, [⟨1, 10, 10, 0, [-3, 0, -3, 0]⟩, ⟨2, 10, 2, -1,
          [0, -12, 0, 2, 0, 7, -1, 8, -1, 8, 0, 9, 0, 9, 1, 8, 1, 8, 0, 7]⟩], -12, 9⟩ :
            Decoder).glyphs =
        (⟨[32, 32, 32, 32, 50, 32, 32, 57, 77, 87, 82, 70, 82, 84, 32, 82, 82, 89,
          81, 90, 82, 91, 83, 90, 82, 89, 10], 0, [⟨1, 10, 10, 0, [-3, 0, -3, 0]⟩], 0, 0⟩ :
            Decoder).glyphs ++ [g] ∧
      ∀ m, ∃ o, emitGlyph m g = some o ∧
        (isDegenerate g.data = false →
          (∀ v ∈ xsOf o.data, 0 ≤ v) ∧
          (noLonePoint 0 (pairsRead (pairs - 1).toNat c) = true → 0 ∈ xsOf o.data)) ∧
        (((pairsRead (pairs - 1).toNat c).foldl penStep
            (penStart (⟨[32, 32, 32, 32, 50, 32, 32, 57, 77, 87, 82, 70, 82, 84, 32, 82, 82,
              89, 81, 90, 82, 91, 83, 90, 82, 89, 10], 0, [⟨1, 10, 10, 0, [-3, 0, -3, 0]⟩],
              0, 0⟩ : Decoder).miny
              (⟨[32, 32, 32, 32, 50, 32, 32, 57, 77, 87, 82, 70, 82, 84, 32, 82, 82,
              89, 81, 90, 82, 91, 83, 90, 82, 89, 10], 0, [⟨1, 10, 10, 0, [-3, 0, -3, 0]⟩],
              0, 0⟩ : Decoder).maxy)).data.length < 4 → o.data = [0, -m, 0, -m]) :=
  ⟨by decide, C13_min_x_zero
    ⟨[32, 32, 32, 32, 50, 32, 32, 57, 77, 87, 82, 70, 82, 84, 32, 82, 82, 89,
      81, 90, 82, 91, 83, 90, 82, 89, 10], 0, [⟨1, 10, 10, 0, [-3, 0, -3, 0]⟩], 0, 0⟩
    ⟨[], 0, [⟨1, 10, 10, 0, [-3, 0, -3, 0]⟩, ⟨2, 10, 2, -1,
      [0, -12, 0, 2, 0, 7, -1, 8, -1, 8, 0, 9, 0, 9, 1, 8, 1, 8, 0, 7]⟩], -12, 9⟩
    (by decide)⟩

/-- C13 (as stated) fails: the file with the one line `    1  5MWAR RRRSR` has
a stroke of the single point `A`, which sets `min_x = -17` and is in no
segment, so the one segment of the glyph is normalized to `(17,0)-(18,0)`,
with minimum x `17`; and in the file with the lines `    1  3MWRFRT` and
`    2  1MW` the second glyph received the enforced degenerate segment, which
is normalized to `(0,12)-(0,12)`, the global `min_y` being `-12`. -/
theorem C13_counterexample :
    decode 3 [32, 32, 32, 32, 49, 32, 32, 53, 77, 87, 65, 82, 32, 82, 82, 82, 83, 82, 10] =
      Outcome.table ⟨[⟨1, 10, 18, [17, 0, 18, 0]⟩], 1, 0⟩ ∧
    decode 3 [32, 32, 32, 32, 49, 32, 32, 51, 77, 87, 82, 70, 82, 84, 10,
        32, 32, 32, 32, 50, 32, 32, 49, 77, 87, 10] =
      Outcome.table ⟨[⟨1, 10, 0, [0, 0, 0, 14]⟩, ⟨2, 10, 10, [0, 12, 0, 12]⟩], 2, 14⟩ := by
  constructor <;> decide

end Hershey
